import Mathlib

/-!
# DNS message codec (`lib/dns/message.go`)

A shallow embedding of `Message`: the packing half with its name encoder, and the
count-driven decoding, expiry, identifier and reset operations; with a
verification of framing, label encoding, compression, RDLENGTH, cursor,
dictionary life cycle and error propagation properties.

Conventions of the embedding:

* a byte slice is a `List Nat` (every element below 256 for real input); where
  the code re-slices a field (`s[:n]`), the bytes of the backing array behind the
  slice, up to its capacity, are a second list held next to it;
* `uint16` / `byte` arithmetic is `Nat` arithmetic followed by `% 65536` / `% 256`;
* a Go run-time panic (index out of range, write to a nil map) is `none`;
* the compression dictionary `map[string]uint16` is an association list, newest
  binding first, wrapped in `Option` (`none` is the nil map);
* pointer fields (`Header`, `Question`, the per-type payloads of a record) are
  taken to be non-nil;
* code that lives outside `message.go` (header, question and record codecs,
  `net.ParseIP`, the resets, `maxUDPPacketSize`) is a parameter of the operation
  that calls it; the record pool is not part of the message state.
-/

namespace Dns

/-! ## Constants -/

/-- Modelled from the spec: pointer mask `0xC0` (constant declared outside `message.go`). -/
def maskPointer : Nat := 192

/-- Modelled from the spec: the DO flag bit carried in the TTL of an OPT record
(RFC 6891: bit 15 of the low half of the TTL). -/
def maskOPTDO : Nat := 32768

/-- Size of the fixed header, from the spec (12 bytes). -/
def sectionHeaderSize : Nat := 12

/-- RDATA size of an A record. -/
def rdataIPv4Size : Nat := 4

/-- RDATA size of an AAAA record. -/
def rdataIPv6Size : Nat := 16

def QueryTypeA : Nat := 1
def QueryTypeNS : Nat := 2
def QueryTypeMD : Nat := 3
def QueryTypeMF : Nat := 4
def QueryTypeCNAME : Nat := 5
def QueryTypeSOA : Nat := 6
def QueryTypeMB : Nat := 7
def QueryTypeMG : Nat := 8
def QueryTypeMR : Nat := 9
def QueryTypeNULL : Nat := 10
def QueryTypeWKS : Nat := 11
def QueryTypePTR : Nat := 12
def QueryTypeHINFO : Nat := 13
def QueryTypeMINFO : Nat := 14
def QueryTypeMX : Nat := 15
def QueryTypeTXT : Nat := 16
def QueryTypeAAAA : Nat := 28
def QueryTypeSRV : Nat := 33
def QueryTypeOPT : Nat := 41

/-! ## Byte-buffer primitives (package `lib/bytes`) -/

/-- Modelled from the spec: `libbytes.AppendUint16`, append a 16-bit value in
big-endian order to a growable buffer. -/
def AppendUint16 (data : List Nat) (v : Nat) : List Nat :=
  data ++ [v / 256 % 256, v % 256]

/-- Modelled from the spec: `libbytes.AppendUint32`, append a 32-bit value in
big-endian order. -/
def AppendUint32 (data : List Nat) (v : Nat) : List Nat :=
  data ++ [v / 16777216 % 256, v / 65536 % 256, v / 256 % 256, v % 256]

/-- Modelled from the spec: `libbytes.AppendInt16`, the two's complement image of a
signed 16-bit value, big-endian. -/
def AppendInt16 (data : List Nat) (v : Int) : List Nat :=
  AppendUint16 data (v % 65536).toNat

/-- Modelled from the spec: `libbytes.AppendInt32`, the two's complement image of a
signed 32-bit value, big-endian. -/
def AppendInt32 (data : List Nat) (v : Int) : List Nat :=
  AppendUint32 data (v % 4294967296).toNat

/-- Modelled from the spec: `libbytes.WriteUint16`, write a 16-bit value at an
already-reserved offset without resizing. Both target indices must exist; a
write outside the buffer has no result. -/
def WriteUint16 (data : List Nat) (x v : Nat) : Option (List Nat) :=
  if x + 1 < data.length then some ((data.set x (v / 256 % 256)).set (x + 1) (v % 256))
  else none

/-- Lower-case one ASCII byte. -/
def lowerByte (c : Nat) : Nat := if 65 ≤ c ∧ c ≤ 90 then c + 32 else c

/-- Modelled from the spec: `libbytes.ToLower`, lower-case an ASCII byte sequence. -/
def ToLower (data : List Nat) : List Nat := data.map lowerByte

/-- Indexed store `p[i] = v`; Go panics when `i` is out of range. -/
def setByte (p : List Nat) (i v : Nat) : Option (List Nat) :=
  if i < p.length then some (p.set i v) else none

/-- Slice expression `s[:n]` on a slice `s` whose backing array holds `spare`
behind it (`cap(s) = len(s) + len(spare)`): the first `n` bytes of the backing
array; out of range when `n` exceeds the capacity. -/
def sliceTo (s spare : List Nat) (n : Nat) : Option (List Nat) :=
  if n ≤ s.length + spare.length then some ((s ++ spare).take n) else none

/-! ## Data model -/

structure SectionHeader where
  ID : Nat
  IsQuery : Bool
  Op : Nat
  IsAA : Bool
  IsTC : Bool
  IsRD : Bool
  IsRA : Bool
  RCode : Nat
  QDCount : Nat
  ANCount : Nat
  NSCount : Nat
  ARCount : Nat
deriving DecidableEq, Repr, Inhabited

structure SectionQuestion where
  Name : List Nat
  /-- Field `Type` of the source (a reserved word here). -/
  Typ : Nat
  Class : Nat
deriving DecidableEq, Repr, Inhabited

structure RDataText where
  v : List Nat
  /-- Bytes of the backing array behind `v`, up to its capacity. -/
  vSpare : List Nat := []
deriving DecidableEq, Repr, Inhabited

structure RDataSOA where
  MName : List Nat
  RName : List Nat
  Serial : Nat
  Refresh : Int
  Retry : Int
  Expire : Int
  Minimum : Nat
deriving DecidableEq, Repr, Inhabited

structure RDataWKS where
  Address : List Nat
  Protocol : Nat
  BitMap : List Nat
  /-- Bytes of the backing array behind `Address`, up to its capacity. -/
  AddressSpare : List Nat := []
deriving DecidableEq, Repr, Inhabited

structure RDataHINFO where
  CPU : List Nat
  OS : List Nat
deriving DecidableEq, Repr, Inhabited

structure RDataMINFO where
  RMailBox : List Nat
  EmailBox : List Nat
deriving DecidableEq, Repr, Inhabited

structure RDataMX where
  Preference : Int
  Exchange : List Nat
deriving DecidableEq, Repr, Inhabited

structure RDataSRV where
  Priority : Nat
  Weight : Nat
  Port : Nat
  Target : List Nat
deriving DecidableEq, Repr, Inhabited

structure RDataOPT where
  ExtRCode : Nat
  Version : Nat
  DO : Bool
  Code : Nat
  Length : Nat
  Data : List Nat
  /-- Bytes of the backing array behind `Data`, up to its capacity. -/
  DataSpare : List Nat := []
deriving DecidableEq, Repr, Inhabited

structure ResourceRecord where
  Name : List Nat
  /-- Field `Type` of the source (a reserved word here). -/
  Typ : Nat
  Class : Nat
  TTL : Nat
  Text : RDataText
  SOA : RDataSOA
  WKS : RDataWKS
  HInfo : RDataHINFO
  MInfo : RDataMINFO
  MX : RDataMX
  SRV : RDataSRV
  OPT : RDataOPT
deriving DecidableEq, Repr, Inhabited

/-- The compression dictionary: suffix text to offset, newest binding first. -/
abbrev Dict := List (List Nat × Nat)

/-- Map read `d[k]`: the newest binding of `k`. -/
def Dict.get : Dict → List Nat → Option Nat
  | [], _ => none
  | (k0, v) :: d, k => if k0 = k then some v else Dict.get d k

structure Message where
  Header : SectionHeader
  Question : SectionQuestion
  Answer : List ResourceRecord
  Authority : List ResourceRecord
  Additional : List ResourceRecord
  Packet : List Nat
  off : Nat
  dnameOff : Option Dict
  dname : List Nat
deriving DecidableEq, Repr, Inhabited

/-- Collaborators that live outside `message.go`: the standard library's
`net.ParseIP` (its 16-byte result, if the text parses) and the header codec
`SectionHeader.MarshalBinary` (its bytes, or `none` for an error). -/
structure Collab where
  parseIP : List Nat → Option (List Nat)
  headerMarshal : SectionHeader → Option (List Nat)

/-! ## Domain names -/

/-- Map read on a possibly nil dictionary (a nil map reads as empty). -/
def lookupDict (d : Option Dict) (k : List Nat) : Option Nat :=
  match d with
  | none => none
  | some d => d.get k

/-- `Message.compress`: when the pending name is in the dictionary, append the
two pointer bytes, advance the cursor by two and report `true`. -/
def compress (msg : Message) : Message × Bool :=
  match lookupDict msg.dnameOff msg.dname with
  | some off =>
    ({ msg with
        Packet := msg.Packet ++ [maskPointer ||| (off / 256 % 256), off % 256]
        off := (msg.off + 2) % 65536 }, true)
  | none => (msg, false)

/-- The guarded call `if doCompress { ok = msg.compress() }`. -/
def compressIf (doCompress : Bool) (msg : Message) : Message × Bool :=
  if doCompress then compress msg else (msg, false)

/-- The pair of statements `msg.Packet = append(msg.Packet, 0)` and
`msg.dnameOff[msg.dname] = msg.off`; the map write panics on a nil map. -/
def openLabel (msg : Message) : Option Message :=
  match msg.dnameOff with
  | none => none
  | some d =>
    some { msg with Packet := msg.Packet ++ [0], dnameOff := some ((msg.dname, msg.off) :: d) }

/-- The statements after the `for` loop of `packDomainName`: close the last label
and, for a non-empty name, append the terminating zero octet. -/
def packFinish (nonEmpty : Bool) (count n : Nat) (msg : Message) : Option (Message × Nat) :=
  let r : Option (Message × Nat) :=
    if 0 < count then
      match setByte msg.Packet msg.off count with
      | none => none
      | some p =>
        some ({ msg with Packet := p, off := (msg.off + (count + 1) % 256) % 65536 },
              n + (count + 1) % 256)
    else some (msg, n)
  match r with
  | none => none
  | some (msg, n) =>
    if nonEmpty then
      some ({ msg with Packet := msg.Packet ++ [0], off := (msg.off + 1) % 65536 }, n + 1)
    else some (msg, n)

/-- The `for x, c := range dname` loop of `packDomainName` followed by the
statements after it. The list is the part of the (lower-cased) name not yet
visited, so that `dname[x+1:]` is the tail; `count` is the `byte` counter and
`n` the running result. An early `return` inside the loop ends the function. -/
def packLoop (doCompress nonEmpty : Bool) :
    List Nat → Nat → Nat → Message → Option (Message × Nat)
  | [], count, n, msg => packFinish nonEmpty count n msg
  | c :: rest, count, n, msg =>
    if c = 46 then
      if count = 0 then packLoop doCompress nonEmpty rest count n msg
      else
        match setByte msg.Packet msg.off count with
        | none => none
        | some p =>
          let r := compressIf doCompress
            { msg with Packet := p, dname := rest, off := (msg.off + (count + 1) % 256) % 65536 }
          if r.2 then some (r.1, n + (count + 1) % 256 + 2)
          else
            match openLabel r.1 with
            | none => none
            | some msg2 => packLoop doCompress nonEmpty rest 0 (n + (count + 1) % 256) msg2
    else
      packLoop doCompress nonEmpty rest ((count + 1) % 256) n
        { msg with Packet := msg.Packet ++ [if 65 ≤ c ∧ c ≤ 90 then (c + 32) % 256 else c] }

/-- `Message.packDomainName`: convert the text of a domain name into wire format,
returning the message and the count `n`. `ToLower` rewrites the caller's slice in
place; callers account for that on the value they keep (see `touchRR`). -/
def packDomainName (msg : Message) (dname : List Nat) (doCompress : Bool) :
    Option (Message × Nat) :=
  let dname := ToLower dname
  let r := compressIf doCompress { msg with dname := dname }
  if r.2 then some (r.1, 2)
  else
    match openLabel r.1 with
    | none => none
    | some msg2 => packLoop doCompress (decide (0 < dname.length)) dname 0 0 msg2

/-- `Message.packQuestion`. -/
def packQuestion (msg : Message) : Option Message :=
  match packDomainName msg msg.Question.Name false with
  | none => none
  | some (msg1, _) =>
    some { msg1 with
      Packet := AppendUint16 (AppendUint16 msg1.Packet msg1.Question.Typ) msg1.Question.Class
      off := (msg1.off + 4) % 65536 }

/-! ## Resource records -/

/-- The standard library's `IP.To4`: the 4-byte form of an IPv4 address held
either in 4 bytes or as an IPv4-mapped 16-byte address. -/
def To4 (ip : List Nat) : Option (List Nat) :=
  if ip.length = 4 then some ip
  else if ip.length = 16 ∧ ip.take 10 = List.replicate 10 0 ∧ ip.get? 10 = some 255
      ∧ ip.get? 11 = some 255 then some (ip.drop 12)
  else none

/-- `Message.packA`. -/
def packA (env : Collab) (msg : Message) (rr : ResourceRecord) : Option Message :=
  let msg1 : Message :=
    { msg with Packet := AppendUint16 msg.Packet rdataIPv4Size, off := (msg.off + 2) % 65536 }
  let addr : Option (List Nat) :=
    match env.parseIP rr.Text.v with
    | none => sliceTo rr.Text.v rr.Text.vSpare rdataIPv4Size
    | some ip =>
      match To4 ip with
      | none => sliceTo ip [] rdataIPv4Size
      | some ipv4 => some ipv4
  match addr with
  | none => none
  | some a =>
    some { msg1 with Packet := msg1.Packet ++ a, off := (msg1.off + rdataIPv4Size) % 65536 }

/-- `Message.packTextAsDomain` (NS, CNAME, MB, MG, MR, NULL, PTR). -/
def packTextAsDomain (msg : Message) (rr : ResourceRecord) : Option Message :=
  let off := msg.off
  let msg1 : Message :=
    { msg with Packet := AppendUint16 msg.Packet 0, off := (msg.off + 2) % 65536 }
  match packDomainName msg1 rr.Text.v true with
  | none => none
  | some (msg2, n) =>
    match WriteUint16 msg2.Packet off (n % 65536) with
    | none => none
    | some p => some { msg2 with Packet := p }

/-- `Message.packSOA`. -/
def packSOA (msg : Message) (rr : ResourceRecord) : Option Message :=
  let off := msg.off
  let msg1 : Message :=
    { msg with Packet := AppendUint16 msg.Packet 0, off := (msg.off + 2) % 65536 }
  match packDomainName msg1 rr.SOA.MName true with
  | none => none
  | some (msg2, n1) =>
    match packDomainName msg2 rr.SOA.RName true with
    | none => none
    | some (msg3, n2) =>
      let n := n1 + n2
      let p := AppendUint32 (AppendInt32 (AppendInt32 (AppendInt32
        (AppendUint32 msg3.Packet rr.SOA.Serial) rr.SOA.Refresh) rr.SOA.Retry) rr.SOA.Expire)
        rr.SOA.Minimum
      match WriteUint16 p off ((n + 20) % 65536) with
      | none => none
      | some p2 => some { msg3 with Packet := p2, off := (msg3.off + (n + 20) % 65536) % 65536 }

/-- `Message.packWKS`. -/
def packWKS (msg : Message) (rr : ResourceRecord) : Option Message :=
  let n := (5 + rr.WKS.BitMap.length) % 65536
  let msg1 : Message :=
    { msg with Packet := AppendUint16 msg.Packet n, off := (msg.off + 2) % 65536 }
  match sliceTo rr.WKS.Address rr.WKS.AddressSpare 4 with
  | none => none
  | some a =>
    some { msg1 with
      Packet := msg1.Packet ++ a ++ [rr.WKS.Protocol] ++ rr.WKS.BitMap
      off := (msg1.off + n) % 65536 }

/-- `Message.packHINFO`. -/
def packHINFO (msg : Message) (rr : ResourceRecord) : Option Message :=
  let n := rr.HInfo.CPU.length + rr.HInfo.OS.length
  some { msg with
    Packet := AppendUint16 msg.Packet (n % 65536) ++ rr.HInfo.CPU ++ rr.HInfo.OS
    off := ((msg.off + 2) % 65536 + n % 65536) % 65536 }

/-- `Message.packMINFO`. -/
def packMINFO (msg : Message) (rr : ResourceRecord) : Option Message :=
  let off := msg.off
  let msg1 : Message :=
    { msg with Packet := AppendUint16 msg.Packet 0, off := (msg.off + 2) % 65536 }
  match packDomainName msg1 rr.MInfo.RMailBox true with
  | none => none
  | some (msg2, n1) =>
    match packDomainName msg2 rr.MInfo.EmailBox true with
    | none => none
    | some (msg3, n2) =>
      match WriteUint16 msg3.Packet off ((n1 + n2) % 65536) with
      | none => none
      | some p => some { msg3 with Packet := p }

/-- `Message.packMX`. -/
def packMX (msg : Message) (rr : ResourceRecord) : Option Message :=
  let off := msg.off
  let msg1 : Message :=
    { msg with
      Packet := AppendInt16 (AppendUint16 msg.Packet 0) rr.MX.Preference
      off := ((msg.off + 2) % 65536 + 2) % 65536 }
  match packDomainName msg1 rr.MX.Exchange true with
  | none => none
  | some (msg2, n) =>
    match WriteUint16 msg2.Packet off ((n + 2) % 65536) with
    | none => none
    | some p => some { msg2 with Packet := p }

/-- `Message.packTXT`. -/
def packTXT (msg : Message) (rr : ResourceRecord) : Option Message :=
  let n := rr.Text.v.length % 65536
  some { msg with
    Packet := AppendUint16 msg.Packet ((n + 1) % 65536) ++ [n % 256] ++ rr.Text.v
    off := ((msg.off + 2) % 65536 + n) % 65536 }

/-- `Message.packSRV`: the target is written with compression disabled. -/
def packSRV (msg : Message) (rr : ResourceRecord) : Option Message :=
  let off := msg.off
  let msg1 : Message :=
    { msg with
      Packet := AppendUint16 (AppendUint16 (AppendUint16 (AppendUint16 msg.Packet 0)
        rr.SRV.Priority) rr.SRV.Weight) rr.SRV.Port
      off := ((((msg.off + 2) % 65536 + 2) % 65536 + 2) % 65536 + 2) % 65536 }
  match packDomainName msg1 rr.SRV.Target false with
  | none => none
  | some (msg2, n0) =>
    match WriteUint16 msg2.Packet off ((n0 + 6) % 65536) with
    | none => none
    | some p => some { msg2 with Packet := p }

/-- `Message.packAAAA`; the cursor is advanced by `rdataIPv6Size` twice, as in the
source. -/
def packAAAA (env : Collab) (msg : Message) (rr : ResourceRecord) : Option Message :=
  let msg1 : Message :=
    { msg with Packet := AppendUint16 msg.Packet rdataIPv6Size, off := (msg.off + 2) % 65536 }
  let addr : Option (List Nat) :=
    match env.parseIP rr.Text.v with
    | none => sliceTo rr.Text.v rr.Text.vSpare rdataIPv6Size
    | some ip => some ip
  match addr with
  | none => none
  | some a =>
    some { msg1 with
      Packet := msg1.Packet ++ a
      off := ((msg1.off + rdataIPv6Size) % 65536 + rdataIPv6Size) % 65536 }

/-- `Message.packOPT`. -/
def packOPT (msg : Message) (rr : ResourceRecord) : Option Message :=
  let off := msg.off
  let msg1 : Message :=
    { msg with Packet := AppendUint16 msg.Packet 0, off := (msg.off + 2) % 65536 }
  if rr.OPT.Length = 0 then some msg1
  else
    let p1 := AppendUint16 msg1.Packet rr.OPT.Code
    let p2 := if rr.OPT.Length < 512 then AppendUint16 p1 512 else AppendUint16 p1 rr.OPT.Length
    match sliceTo rr.OPT.Data rr.OPT.DataSpare rr.OPT.Length with
    | none => none
    | some data =>
      let n := (4 + rr.OPT.Length) % 65536
      match WriteUint16 (p2 ++ data) off n with
      | none => none
      | some p3 => some { msg1 with Packet := p3, off := (msg1.off + n) % 65536 }

/-- `Message.packRData`: dispatch on the record type; MD, MF and every type not
listed write nothing. -/
def packRData (env : Collab) (msg : Message) (rr : ResourceRecord) : Option Message :=
  if rr.Typ = QueryTypeA then packA env msg rr
  else if rr.Typ = QueryTypeNS then packTextAsDomain msg rr
  else if rr.Typ = QueryTypeMD then some msg
  else if rr.Typ = QueryTypeMF then some msg
  else if rr.Typ = QueryTypeCNAME then packTextAsDomain msg rr
  else if rr.Typ = QueryTypeSOA then packSOA msg rr
  else if rr.Typ = QueryTypeMB then packTextAsDomain msg rr
  else if rr.Typ = QueryTypeMG then packTextAsDomain msg rr
  else if rr.Typ = QueryTypeMR then packTextAsDomain msg rr
  else if rr.Typ = QueryTypeNULL then packTextAsDomain msg rr
  else if rr.Typ = QueryTypeWKS then packWKS msg rr
  else if rr.Typ = QueryTypePTR then packTextAsDomain msg rr
  else if rr.Typ = QueryTypeHINFO then packHINFO msg rr
  else if rr.Typ = QueryTypeMINFO then packMINFO msg rr
  else if rr.Typ = QueryTypeMX then packMX msg rr
  else if rr.Typ = QueryTypeTXT then packTXT msg rr
  else if rr.Typ = QueryTypeSRV then packSRV msg rr
  else if rr.Typ = QueryTypeAAAA then packAAAA env msg rr
  else if rr.Typ = QueryTypeOPT then packOPT msg rr
  else some msg

/-- The TTL field written by `packRR`: for OPT the extended RCODE, version and DO
flag packed into 32 bits, else the record's TTL. -/
def ttlOf (rr : ResourceRecord) : Nat :=
  if rr.Typ = QueryTypeOPT then
    let t := ((rr.OPT.ExtRCode % 256) * 16777216) ||| ((rr.OPT.Version % 256) * 65536)
    if rr.OPT.DO then t ||| maskOPTDO else t
  else rr.TTL

/-- `Message.packRR`; for OPT the name is one zero octet appended without moving
the cursor, as in the source. -/
def packRR (env : Collab) (msg : Message) (rr : ResourceRecord) : Option Message :=
  let named : Option Message :=
    if rr.Typ = QueryTypeOPT then some { msg with Packet := msg.Packet ++ [0] }
    else
      match packDomainName msg rr.Name true with
      | none => none
      | some (m, _) => some m
  match named with
  | none => none
  | some msg1 =>
    let msg2 : Message :=
      { msg1 with
        Packet := AppendUint16 (AppendUint16 msg1.Packet rr.Typ) rr.Class
        off := (msg1.off + 4) % 65536 }
    let msg3 : Message :=
      { msg2 with Packet := AppendUint32 msg2.Packet (ttlOf rr), off := (msg2.off + 4) % 65536 }
    packRData env msg3 { rr with TTL := ttlOf rr }

/-- What `packRR` leaves behind in the record it was given: names passed to
`packDomainName` are lower-cased in place, and OPT has its TTL rewritten. -/
def touchRR (rr : ResourceRecord) : ResourceRecord :=
  let rr1 : ResourceRecord :=
    if rr.Typ = QueryTypeOPT then { rr with TTL := ttlOf rr }
    else { rr with Name := ToLower rr.Name }
  if rr.Typ = QueryTypeNS ∨ rr.Typ = QueryTypeCNAME ∨ rr.Typ = QueryTypeMB
      ∨ rr.Typ = QueryTypeMG ∨ rr.Typ = QueryTypeMR ∨ rr.Typ = QueryTypeNULL
      ∨ rr.Typ = QueryTypePTR then
    { rr1 with Text := { rr1.Text with v := ToLower rr1.Text.v } }
  else if rr.Typ = QueryTypeSOA then
    { rr1 with SOA := { rr1.SOA with MName := ToLower rr1.SOA.MName, RName := ToLower rr1.SOA.RName } }
  else if rr.Typ = QueryTypeMINFO then
    { rr1 with MInfo := { RMailBox := ToLower rr1.MInfo.RMailBox, EmailBox := ToLower rr1.MInfo.EmailBox } }
  else if rr.Typ = QueryTypeMX then
    { rr1 with MX := { rr1.MX with Exchange := ToLower rr1.MX.Exchange } }
  else if rr.Typ = QueryTypeSRV then
    { rr1 with SRV := { rr1.SRV with Target := ToLower rr1.SRV.Target } }
  else rr1

/-- One of the three loops `for x := 0; x < len(list); x++ { msg.packRR(list[x]) }`. -/
def packRRs (env : Collab) : Message → List ResourceRecord → Option Message
  | msg, [] => some msg
  | msg, rr :: rest =>
    match packRR env msg rr with
    | none => none
    | some msg1 => packRRs env msg1 rest

/-! ## Message -/

/-- `Message.MarshalBinary`. The result is `none` for a run that panics; else the
message as the call leaves it, with the returned packet (`none` for the error
return of the header codec). -/
def MarshalBinary (env : Collab) (msg : Message) : Option (Message × Option (List Nat)) :=
  let msg0 : Message :=
    { msg with
      dnameOff := (match msg.dnameOff with
        | none => some []
        | some d => some d)
      Packet := []
      Header := { msg.Header with
        ANCount := msg.Answer.length % 65536
        NSCount := msg.Authority.length % 65536
        ARCount := msg.Additional.length % 65536 } }
  match env.headerMarshal msg0.Header with
  | none => some ({ msg0 with dnameOff := none }, none)
  | some header =>
    let msg1 : Message := { msg0 with Packet := msg0.Packet ++ header, off := sectionHeaderSize }
    match packQuestion msg1 with
    | none => none
    | some msg2 =>
      let msg3 : Message :=
        { msg2 with Question := { msg2.Question with Name := ToLower msg2.Question.Name } }
      if msg3.Header.IsQuery then some ({ msg3 with dnameOff := none }, some msg3.Packet)
      else
        match packRRs env msg3 msg3.Answer with
        | none => none
        | some msg4 =>
          match packRRs env msg4 msg4.Authority with
          | none => none
          | some msg5 =>
            match packRRs env msg5 msg5.Additional with
            | none => none
            | some msg6 =>
              some ({ msg6 with
                dnameOff := none
                Answer := msg6.Answer.map touchRR
                Authority := msg6.Authority.map touchRR
                Additional := msg6.Additional.map touchRR }, some msg6.Packet)

/-! ## Concrete collaborators for evaluation -/

/-- Modelled from the spec: the 12-byte header layout (ID, flags, QDCOUNT,
ANCOUNT, NSCOUNT, ARCOUNT), the encoding done by `SectionHeader.MarshalBinary`. -/
def headerBytes (h : SectionHeader) : List Nat :=
  let b0 := (if h.IsQuery then 0 else 128) + (h.Op % 16) * 8 + (if h.IsAA then 4 else 0)
    + (if h.IsTC then 2 else 0) + (if h.IsRD then 1 else 0)
  let b1 := (if h.IsRA then 128 else 0) + h.RCode % 16
  AppendUint16 (AppendUint16 (AppendUint16 (AppendUint16 (AppendUint16 [] h.ID ++ [b0, b1])
    h.QDCount) h.ANCount) h.NSCount) h.ARCount

/-- Collaborators for concrete runs: the header layout of the spec, and an
address parser that accepts nothing, so that address payloads are raw bytes. -/
def rawEnv : Collab :=
  { parseIP := fun _ => none, headerMarshal := fun h => some (headerBytes h) }

/-! ## Specification vocabulary -/

/-- Bytes that `packLoop` copies verbatim: neither a dot nor an upper-case letter. -/
def PlainByte (c : Nat) : Prop := c ≠ 46 ∧ ¬ (65 ≤ c ∧ c ≤ 90)

instance (c : Nat) : Decidable (PlainByte c) := by unfold PlainByte; infer_instance

/-- Lower-cased label of 1..254 bytes without a dot. -/
def PlainLabel (l : List Nat) : Prop := 0 < l.length ∧ l.length < 255 ∧ ∀ c ∈ l, PlainByte c

instance (l : List Nat) : Decidable (PlainLabel l) := by unfold PlainLabel; infer_instance

/-- Label of the text of a name: 1..`k` bytes, none of them a dot. -/
def LabelN (k : Nat) (l : List Nat) : Prop := 0 < l.length ∧ l.length ≤ k ∧ ∀ c ∈ l, c ≠ 46

instance (k : Nat) (l : List Nat) : Decidable (LabelN k l) := by unfold LabelN; infer_instance

/-- Text of a name made of the given labels: the labels joined by single dots. -/
def joinLabels : List (List Nat) → List Nat
  | [] => []
  | [l] => l
  | l :: l2 :: ls => l ++ 46 :: joinLabels (l2 :: ls)

/-- The two bytes of a compression pointer to offset `o`. -/
def pointerBytes (o : Nat) : List Nat := [maskPointer ||| (o / 256 % 256), o % 256]

/-- The dictionary probe made by the guarded `compress` call. -/
def probe (dc : Bool) (d : Dict) (key : List Nat) : Option Nat :=
  if dc then d.get key else none

/-- Label-by-label encoding in the spec's words (section 4.4): look the current
suffix up; if found emit a pointer and stop; else record its offset, emit the
length-prefixed label and go on with the next suffix; end with a zero octet. -/
def encodeLabels (dc : Bool) : Dict → Nat → List (List Nat) → List Nat × Dict
  | d, _, [] => ([0], d)
  | d, pos, l :: ls =>
    match (if dc then d.get (joinLabels (l :: ls)) else none) with
    | some o => (pointerBytes o, d)
    | none =>
      let r := encodeLabels dc ((joinLabels (l :: ls), pos) :: d) (pos + l.length + 1) ls
      (l.length :: l ++ r.1, r.2)

/-- Uncompressed wire form of a name in the spec's words: each label prefixed by
its length, then a zero octet. -/
def wireName : List (List Nat) → List Nat
  | [] => [0]
  | l :: ls => l.length :: l ++ wireName ls

/-- Fields of a message that the packing of names and records never touches. -/
def Frame (a b : Message) : Prop :=
  a.Header = b.Header ∧ a.Question = b.Question ∧ a.Answer = b.Answer
    ∧ a.Authority = b.Authority ∧ a.Additional = b.Additional

/-- Big-endian image of a 16-bit value. -/
def be16 (v : Nat) : List Nat := [v / 256 % 256, v % 256]

/-- Bytes of the text `kilabit.info`. -/
def kilabitInfo : List (List Nat) :=
  [[107, 105, 108, 97, 98, 105, 116], [105, 110, 102, 111]]

/-- State in which `MarshalBinary` calls `packQuestion` for the query of the
package example: a 12-byte header, the cursor behind it, an empty dictionary. -/
def kilabitQuery : Message :=
  { Header := { (default : SectionHeader) with IsQuery := true }
    Question := { Name := joinLabels kilabitInfo, Typ := QueryTypeA, Class := 1 }
    Answer := [], Authority := [], Additional := []
    Packet := List.replicate 12 0, off := 12, dnameOff := some [], dname := [] }

/-- Number of bytes the loop of `packDomainName` appends, compression disabled, as
a function of the text still to visit and of the label counter. -/
def rawLen (ne : Bool) : List Nat → Nat → Nat
  | [], _ => if ne then 1 else 0
  | c :: rest, count =>
    if c = 46 then (if count = 0 then rawLen ne rest count else 1 + rawLen ne rest 0)
    else 1 + rawLen ne rest ((count + 1) % 256)

/-- The header as `MarshalBinary` hands it to the header codec: the three record
counts recomputed from the lists. -/
def countedHeader (msg : Message) : SectionHeader :=
  { msg.Header with
    ANCount := msg.Answer.length % 65536
    NSCount := msg.Authority.length % 65536
    ARCount := msg.Additional.length % 65536 }

/-- State of the message when `MarshalBinary` calls `packQuestion`: the header
bytes in the packet, the cursor at `sectionHeaderSize`, the dictionary made if it
was nil. -/
def headerState (msg : Message) (header : List Nat) : Message :=
  { msg with
    dnameOff := some (msg.dnameOff.getD [])
    Packet := header
    Header := countedHeader msg
    off := sectionHeaderSize }

/-- The same message with the three record lists emptied. -/
def dropRecords (msg : Message) : Message :=
  { msg with Answer := [], Authority := [], Additional := [] }

/-- An NS record for `www.example.com` naming `ns.example.com`. -/
def nsExample : ResourceRecord :=
  { (default : ResourceRecord) with
    Name := [119, 119, 119, 46, 101, 120, 97, 109, 112, 108, 101, 46, 99, 111, 109]
    Typ := QueryTypeNS, Class := 1, TTL := 30
    Text := { v := [110, 115, 46, 101, 120, 97, 109, 112, 108, 101, 46, 99, 111, 109] } }

/-- The query of the package example for `kilabit.info`, before packing, with
placeholder records in all three lists. -/
def kilabitRequest : Message :=
  { Header := { (default : SectionHeader) with IsQuery := true }
    Question := { Name := joinLabels kilabitInfo, Typ := QueryTypeA, Class := 1 }
    Answer := [nsExample], Authority := [nsExample, nsExample], Additional := [nsExample]
    Packet := [], off := 0, dnameOff := none, dname := [] }

/-- A state in the middle of an encode: 20 bytes written, `com` recorded at 12. -/
def comState : Message :=
  { (default : Message) with
    Packet := List.replicate 20 0, off := 20, dnameOff := some [([99, 111, 109], 12)] }

/-- A state in the middle of an encode whose packet already holds 16384 bytes. -/
def farState : Message :=
  { (default : Message) with
    Packet := List.replicate 16384 0, off := 16384, dnameOff := some [] }

/-- Modelled from the spec: the label/pointer decoding rule of section 4.4 (the
record decoder is outside `message.go`). Read a length octet: zero ends the
name; top two bits set make, with the next octet, a 14-bit absolute offset at
which reading resumes; else that many octets are a label. `fuel` bounds the
number of steps. -/
def decodeName (pkt : List Nat) : Nat → Nat → Option (List (List Nat))
  | 0, _ => none
  | fuel + 1, off =>
    match pkt.get? off with
    | none => none
    | some b =>
      if b = 0 then some []
      else if b &&& 192 = 192 then
        match pkt.get? (off + 1) with
        | none => none
        | some b1 => decodeName pkt fuel ((b &&& 63) * 256 + b1)
      else if ((pkt.drop (off + 1)).take b).length = b then
        match decodeName pkt fuel (off + 1 + b) with
        | none => none
        | some ls => some ((pkt.drop (off + 1)).take b :: ls)
      else none

/-- A TXT record named `t` with text `hi`. -/
def txtRecord : ResourceRecord :=
  { (default : ResourceRecord) with
    Name := [116], Typ := QueryTypeTXT, Class := 1, Text := { v := [104, 105] } }

/-- An NS record named `b.c` whose name server is `d.c`. -/
def nsRecord : ResourceRecord :=
  { (default : ResourceRecord) with
    Name := [98, 46, 99], Typ := QueryTypeNS, Class := 1, Text := { v := [100, 46, 99] } }

/-- A response to the question `q` whose answers are a TXT record followed by an
NS record. -/
def txtThenNs : Message :=
  { (default : Message) with
    Question := { Name := [113], Typ := QueryTypeA, Class := 1 }
    Answer := [txtRecord, nsRecord] }

/-- Keys of the dictionary. -/
def Dict.keys (d : Dict) : List (List Nat) := d.map Prod.fst

/-- Walk of `packDomainName` over the label suffixes of a name, in terms of the
dictionary keys alone: the number of bytes written from the current suffix on,
and the keys afterwards. A suffix found (compression enabled) costs the two
pointer bytes and ends the walk; else its text is recorded and its label written;
the end of the name costs the zero octet. -/
def specWalk (dc : Bool) : List (List Nat) → List (List Nat) → Nat × List (List Nat)
  | keys, [] => (1, keys)
  | keys, l :: ls =>
    if dc && decide (joinLabels (l :: ls) ∈ keys) then (2, keys)
    else
      let r := specWalk dc (joinLabels (l :: ls) :: keys) ls
      (l.length + 1 + r.1, r.2)

/-- Suffix closure of the dictionary keys: with a well-formed name, every one of
its non-empty label suffixes is a key too. The empty dictionary is closed, and
so is the dictionary throughout an encode pass over well-formed names. -/
def SuffixClosed (keys : List (List Nat)) : Prop :=
  ∀ p t : List (List Nat), (∀ x ∈ p ++ t, PlainLabel x) → t ≠ [] →
    joinLabels (p ++ t) ∈ keys → joinLabels t ∈ keys

/-- State of an encode right after a 12-byte header: cursor 12, empty dictionary. -/
def freshState : Message :=
  { (default : Message) with Packet := List.replicate 12 0, off := 12, dnameOff := some [] }

/-- Labels `example`, `com`. -/
def exampleCom : List (List Nat) := [[101, 120, 97, 109, 112, 108, 101], [99, 111, 109]]

/-- Big-endian 16-bit field of a packet at index `i`. -/
def rdField (p : List Nat) (i : Nat) : Nat := p.getD i 0 * 256 + p.getD (i + 1) 0

/-- A state in the middle of an encode: 40 bytes written, `example.com` recorded
at offset 16 and `com` at offset 24. -/
def midState : Message :=
  { (default : Message) with
    Packet := List.replicate 40 0, off := 40
    dnameOff := some [([99, 111, 109], 24), (joinLabels exampleCom, 16)] }

/-- An NS record whose name server text is a single label of 255 bytes. -/
def nsLongLabel : ResourceRecord :=
  { (default : ResourceRecord) with
    Name := [97], Typ := QueryTypeNS, Class := 1, Text := { v := List.replicate 255 97 } }

/-- Length-prefixed labels without the closing zero octet. -/
def labelBytes : List (List Nat) → List Nat
  | [] => []
  | l :: ls => l.length :: l ++ labelBytes ls

/-- What an encoder of names shows of its result apart from the dictionary:
packet, cursor and count. -/
def shown (r : Option (Message × Nat)) : Option (List Nat × Nat × Nat) :=
  r.map (fun x => (x.1.Packet, x.1.off, x.2))

/-- Labels `sip`, `example`, `com`. -/
def sipExampleCom : List (List Nat) := [[115, 105, 112]] ++ exampleCom

/-- A record carrying `sip.example.com` both as SRV target and as name text. -/
def srvExample : ResourceRecord :=
  { (default : ResourceRecord) with
    Name := [97], Typ := QueryTypeSRV, Class := 1
    Text := { v := joinLabels sipExampleCom }
    SRV := { Priority := 1, Weight := 2, Port := 5060, Target := joinLabels sipExampleCom } }

/-- Big-endian 32-bit field of a packet at index `i`. -/
def ttlField (p : List Nat) (i : Nat) : Nat :=
  p.getD i 0 * 16777216 + p.getD (i + 1) 0 * 65536 + p.getD (i + 2) 0 * 256 + p.getD (i + 3) 0

/-- An OPT record with option code 10, option length `n` and `n + spare` bytes of
option data at hand, DO flag set. -/
def optRecord (n spare : Nat) : ResourceRecord :=
  { (default : ResourceRecord) with
    Typ := QueryTypeOPT, Class := 4096
    OPT := { ExtRCode := 0, Version := 0, DO := true, Code := 10, Length := n
             Data := List.replicate (n + spare) 7 } }

/-! ## Decoding, expiry, identifier and reset -/

/-- Modelled from the spec: the decode-time errors of section 7 (the `error`
values come from code outside `message.go`). -/
inductive UnpackError where
  | truncated
  | pointer
  | field
deriving DecidableEq, Repr, Inhabited

/-- Collaborators of the decoding half that live outside `message.go`:
`SectionHeader.UnmarshalBinary` and `SectionQuestion.UnmarshalBinary` (the value
they leave in the receiver and the error they report), `SectionQuestion.Size`, and
`ResourceRecord.Unpack` run on a record taken from the pool and reset (the record
as filled, the index returned, the error reported). -/
structure Decoders where
  headerUnmarshal : SectionHeader → List Nat → SectionHeader × Option UnpackError
  questionUnmarshal : SectionQuestion → List Nat → SectionQuestion × Option UnpackError
  questionSize : SectionQuestion → Nat
  rrUnpack : List Nat → Nat → ResourceRecord × Nat × Option UnpackError

/-- `Message.UnpackHeaderQuestion`; both errors are discarded (`_ = ...`). -/
def UnpackHeaderQuestion (env : Decoders) (msg : Message) : Message :=
  let msg1 : Message := { msg with Header := (env.headerUnmarshal msg.Header msg.Packet).1 }
  if msg1.Packet.length ≤ sectionHeaderSize then msg1
  else
    { msg1 with
      Question := (env.questionUnmarshal msg1.Question (msg1.Packet.drop sectionHeaderSize)).1 }

/-- One of the three loops `for ; x < count; x++` of `UnmarshalBinary`: the first
argument is the number of rounds left (`count - x`; the counter and the count are
both `uint16`). A failing record ends the function with its error; else the
record is appended to the list. -/
def unpackSection (env : Decoders) (packet : List Nat) :
    Nat → Nat → List ResourceRecord → List ResourceRecord × Nat × Option UnpackError
  | 0, startIdx, rrs => (rrs, startIdx, none)
  | k + 1, startIdx, rrs =>
    match env.rrUnpack packet startIdx with
    | (_, idx, some err) => (rrs, idx, some err)
    | (rr, idx, none) => unpackSection env packet k idx (rrs ++ [rr])

/-- `Message.UnmarshalBinary`: the message as the call leaves it and the error
returned (`none` is `nil`). -/
def UnmarshalBinary (env : Decoders) (msg : Message) (packet : List Nat) :
    Message × Option UnpackError :=
  let msg1 := UnpackHeaderQuestion env { msg with Packet := packet }
  let startIdx := sectionHeaderSize + env.questionSize msg1.Question
  match unpackSection env packet msg1.Header.ANCount startIdx msg1.Answer with
  | (an, _, some err) => ({ msg1 with Answer := an }, some err)
  | (an, idx1, none) =>
    let msg2 : Message := { msg1 with Answer := an }
    match unpackSection env packet msg2.Header.NSCount idx1 msg2.Authority with
    | (ns, _, some err) => ({ msg2 with Authority := ns }, some err)
    | (ns, idx2, none) =>
      let msg3 : Message := { msg2 with Authority := ns }
      match unpackSection env packet msg3.Header.ARCount idx2 msg3.Additional with
      | (ar, _, some err) => ({ msg3 with Additional := ar }, some err)
      | (ar, _, none) => ({ msg3 with Additional := ar }, none)

/-- The loop of `IsExpired` over the answers not yet visited. -/
def isExpiredFrom (elapsed : Nat) : List ResourceRecord → Bool
  | [] => false
  | rr :: rest => if rr.TTL ≤ elapsed then true else isExpiredFrom elapsed rest

/-- `Message.IsExpired`. -/
def IsExpired (msg : Message) (elapsed : Nat) : Bool := isExpiredFrom elapsed msg.Answer

/-- `Message.SetID`; `id` is a `uint16`. -/
def SetID (msg : Message) (id : Nat) : Option Message :=
  let msg1 : Message := { msg with Header := { msg.Header with ID := id } }
  if 2 < msg1.Packet.length then
    match WriteUint16 msg1.Packet 0 id with
    | none => none
    | some p => some { msg1 with Packet := p }
  else some msg1

/-- What `Reset` uses from outside `message.go`: `SectionHeader.Reset`,
`SectionQuestion.Reset` and the constant `maxUDPPacketSize`. -/
structure Resets where
  headerReset : SectionHeader → SectionHeader
  questionReset : SectionQuestion → SectionQuestion
  maxUDPPacketSize : Nat

/-- `Message.ResetRR`: each non-empty list is released (its records are reset and
handed back to the pool, which is not part of the message) and set to nil. -/
def ResetRR (msg : Message) : Message :=
  let msg1 : Message := if 0 < msg.Answer.length then { msg with Answer := [] } else msg
  let msg2 : Message :=
    if 0 < msg1.Authority.length then { msg1 with Authority := [] } else msg1
  if 0 < msg2.Additional.length then { msg2 with Additional := [] } else msg2

/-- `Message.Reset`. -/
def Reset (env : Resets) (msg : Message) : Message :=
  let msg1 : Message :=
    { msg with
      Header := env.headerReset msg.Header
      Question := env.questionReset msg.Question }
  let msg2 := ResetRR msg1
  { msg2 with
    Packet := msg2.Packet.take 0 ++ List.replicate env.maxUDPPacketSize 0
    dname := []
    off := 0
    dnameOff := none }

/-! ## Concrete decoders for evaluation -/

/-- Modelled from the spec: index just behind the wire-format name that starts at
`off` (section 4.4: labels up to the zero octet, or up to a 2-byte pointer).
`fuel` bounds the number of labels. -/
def nameEnd (pkt : List Nat) : Nat → Nat → Option Nat
  | 0, _ => none
  | fuel + 1, off =>
    match pkt.get? off with
    | none => none
    | some b =>
      if b = 0 then some (off + 1)
      else if b &&& 192 = 192 then (if off + 1 < pkt.length then some (off + 2) else none)
      else nameEnd pkt fuel (off + 1 + b)

/-- Modelled from the spec: header decode (sections 4.2 and 6), the inverse of
`headerBytes`, without validation: a buffer shorter than 12 bytes is tolerated
and leaves the fields at their zero defaults; no error is reported. -/
def headerUnpack (_h : SectionHeader) (pkt : List Nat) : SectionHeader × Option UnpackError :=
  if pkt.length < sectionHeaderSize then (default, none)
  else
    let b0 := pkt.getD 2 0
    let b1 := pkt.getD 3 0
    ({ ID := rdField pkt 0, IsQuery := decide (b0 < 128), Op := b0 / 8 % 16
       IsAA := decide (b0 / 4 % 2 = 1), IsTC := decide (b0 / 2 % 2 = 1)
       IsRD := decide (b0 % 2 = 1), IsRA := decide (128 ≤ b1), RCode := b1 % 16
       QDCount := rdField pkt 4, ANCount := rdField pkt 6, NSCount := rdField pkt 8
       ARCount := rdField pkt 10 }, none)

/-- Modelled from the spec: question decode (section 4.3): name, type, class. -/
def questionUnpack (q : SectionQuestion) (pkt : List Nat) :
    SectionQuestion × Option UnpackError :=
  match decodeName pkt pkt.length 0, nameEnd pkt pkt.length 0 with
  | some ls, some e =>
    if e + 4 ≤ pkt.length then
      ({ Name := joinLabels ls, Typ := rdField pkt e, Class := rdField pkt (e + 2) }, none)
    else (q, some UnpackError.truncated)
  | _, _ => (q, some UnpackError.truncated)

/-- Modelled from the spec: wire size of a question, its name as labels with the
closing zero octet, then type and class. -/
def questionWireSize (q : SectionQuestion) : Nat :=
  (if q.Name = [] then 1 else q.Name.length + 2) + 4

/-- Modelled from the spec: record decode (section 6): NAME, TYPE, CLASS, TTL,
RDLENGTH and RDLENGTH bytes of RDATA, kept raw in `Text`; a packet that ends
before the record does is reported as truncated. -/
def recordUnpack (pkt : List Nat) (startIdx : Nat) :
    ResourceRecord × Nat × Option UnpackError :=
  match decodeName pkt pkt.length startIdx, nameEnd pkt pkt.length startIdx with
  | some ls, some e =>
    if e + 10 + rdField pkt (e + 8) ≤ pkt.length ∧ e + 10 ≤ pkt.length then
      ({ (default : ResourceRecord) with
          Name := joinLabels ls, Typ := rdField pkt e, Class := rdField pkt (e + 2)
          TTL := ttlField pkt (e + 4)
          Text := { v := (pkt.drop (e + 10)).take (rdField pkt (e + 8)) } },
        e + 10 + rdField pkt (e + 8), none)
    else (default, startIdx, some UnpackError.truncated)
  | _, _ => (default, startIdx, some UnpackError.truncated)

/-- Decoders for concrete runs, following the wire format of the spec. -/
def wireDecoders : Decoders :=
  { headerUnmarshal := headerUnpack, questionUnmarshal := questionUnpack
    questionSize := questionWireSize, rrUnpack := recordUnpack }

/-- A response to the question `q` (type A, class IN) with one answer: an A
record for `q`, written as a pointer to offset 12, TTL 30, address 127.0.0.1. -/
def oneAnswerPacket : List Nat :=
  [0, 0, 128, 0, 0, 1, 0, 1, 0, 0, 0, 0, 1, 113, 0, 0, 1, 0, 1,
   192, 12, 0, 1, 0, 1, 0, 0, 0, 30, 0, 4, 127, 0, 0, 1]

/-- A packet whose header claims two answers and which is cut after the first
bytes of the second record. -/
def cutPacket : List Nat :=
  [0, 0, 128, 0, 0, 1, 0, 2, 0, 0, 0, 0, 1, 113, 0, 0, 1, 0, 1,
   192, 12, 0, 1, 0, 1, 0, 0, 0, 30, 0, 4, 127, 0, 0, 1,
   192, 12, 0, 1, 0, 1]

/-- A message before any decode: empty lists, no packet. -/
def blankMessage : Message := default

/-! ## Specification vocabulary of the decoder and of the message life cycle -/

/-- The records of a packet read one after another from `idx`, at most `n` of
them, up to the first one that fails: the records read, the index reached and the
error of the failing record. -/
def decodeRecords (env : Decoders) (packet : List Nat) :
    Nat → Nat → List ResourceRecord × Nat × Option UnpackError
  | 0, idx => ([], idx, none)
  | n + 1, idx =>
    if (env.rrUnpack packet idx).2.2 = none then
      let r := decodeRecords env packet n (env.rrUnpack packet idx).2.1
      ((env.rrUnpack packet idx).1 :: r.1, r.2)
    else ([], (env.rrUnpack packet idx).2.1, (env.rrUnpack packet idx).2.2)

/-- Index at which `UnmarshalBinary` starts to read records: behind the header and
the question as decoded from the packet. -/
def recordsStart (env : Decoders) (msg : Message) (packet : List Nat) : Nat :=
  sectionHeaderSize
    + env.questionSize (UnpackHeaderQuestion env { msg with Packet := packet }).Question

/-- The same decoders with the errors of header and question decode replaced by
`nil`. -/
def Decoders.quiet (env : Decoders) : Decoders :=
  { env with
    headerUnmarshal := fun h p => ((env.headerUnmarshal h p).1, none)
    questionUnmarshal := fun q p => ((env.questionUnmarshal q p).1, none) }

/-- The dictionary of `b` is the dictionary of `a` with bindings added in front:
every suffix recorded in `a` is still recorded in `b`. -/
def Grows (a b : Message) : Prop :=
  ∀ d, a.dnameOff = some d → ∃ ext : Dict, b.dnameOff = some (ext ++ d)

/-- States of a message between calls of its public operations: a message made by
the caller (the unexported fields at their zero values), assignments by the
caller to the exported fields, and every public method that returns. -/
inductive Reachable (enc : Collab) (dec : Decoders) (rs : Resets) : Message → Prop where
  | zero (h : SectionHeader) (q : SectionQuestion) (an ns ar : List ResourceRecord)
      (p : List Nat) :
      Reachable enc dec rs
        { Header := h, Question := q, Answer := an, Authority := ns, Additional := ar
          Packet := p, off := 0, dnameOff := none, dname := [] }
  | assign {m : Message} (h : SectionHeader) (q : SectionQuestion)
      (an ns ar : List ResourceRecord) (p : List Nat) :
      Reachable enc dec rs m →
      Reachable enc dec rs
        { m with Header := h, Question := q, Answer := an, Authority := ns, Additional := ar
                 Packet := p }
  | reset {m : Message} : Reachable enc dec rs m → Reachable enc dec rs (Reset rs m)
  | resetRR {m : Message} : Reachable enc dec rs m → Reachable enc dec rs (ResetRR m)
  | marshal {m m2 : Message} {r : Option (List Nat)} :
      Reachable enc dec rs m → MarshalBinary enc m = some (m2, r) → Reachable enc dec rs m2
  | unmarshal {m : Message} (packet : List Nat) :
      Reachable enc dec rs m → Reachable enc dec rs (UnmarshalBinary dec m packet).1
  | unpackHeaderQuestion {m : Message} :
      Reachable enc dec rs m → Reachable enc dec rs (UnpackHeaderQuestion dec m)
  | setID {m m2 : Message} (id : Nat) :
      Reachable enc dec rs m → SetID m id = some m2 → Reachable enc dec rs m2

/-- Does the text hold a byte other than a dot, that is, a non-empty label? -/
def hasLabel (s : List Nat) : Bool := s.any (fun c => decide (c ≠ 46))

/-- The text of a name without its empty labels that precede content: walking the
text, a dot met at the start of a label (a leading dot, or a dot right after a
dot) is dropped when a non-empty label follows. -/
def squeezeFrom (start : Bool) : List Nat → List Nat
  | [] => []
  | c :: rest =>
    if c = 46 then
      if start && hasLabel rest then squeezeFrom true rest else 46 :: squeezeFrom true rest
    else c :: squeezeFrom false rest

/-- Removal of every leading dot and of every doubled dot that a non-empty label
follows. -/
def squeeze (s : List Nat) : List Nat := squeezeFrom true s

/-- The resets and the buffer size used in concrete runs. -/
def plainResets : Resets :=
  { headerReset := fun _ => default, questionReset := fun _ => default
    maxUDPPacketSize := 1232 }

/-- An AAAA record named `a` whose address is given as 16 raw bytes. -/
def aaaaRecord : ResourceRecord :=
  { (default : ResourceRecord) with
    Name := [97], Typ := QueryTypeAAAA, Class := 1, TTL := 30
    Text := { v := List.replicate 15 0 ++ [1] } }

/-- A response to the question `q` whose only answer is an AAAA record. -/
def aaaaResponse : Message :=
  { (default : Message) with
    Question := { Name := [113], Typ := QueryTypeAAAA, Class := 1 }
    Answer := [aaaaRecord] }

/-- An MD record named `a`. -/
def mdRecord : ResourceRecord :=
  { (default : ResourceRecord) with Name := [97], Typ := QueryTypeMD, Class := 1, TTL := 30 }

/-- Bytes of the text `example.com.`, with its trailing dot. -/
def exampleComDot : List Nat := joinLabels exampleCom ++ [46]

/-- Bytes of the text `...test.com`. -/
def dotsTestCom : List Nat :=
  [46, 46, 46, 116, 101, 115, 116, 46, 99, 111, 109]

/-- Labels `test`, `com`. -/
def testCom : List (List Nat) := [[116, 101, 115, 116], [99, 111, 109]]

/-- A message holding one answer of TTL 30 and other records of TTL 5. -/
def ttlMessage : Message :=
  { (default : Message) with
    Answer := [{ (default : ResourceRecord) with Typ := QueryTypeA, TTL := 30 }]
    Authority := [{ (default : ResourceRecord) with Typ := QueryTypeNS, TTL := 5 }]
    Additional := [{ (default : ResourceRecord) with Typ := QueryTypeA, TTL := 5 }] }

/-- The header as `UnmarshalBinary` holds it once header and question are
decoded. -/
def decodedHeader (env : Decoders) (msg : Message) (packet : List Nat) : SectionHeader :=
  (UnpackHeaderQuestion env { msg with Packet := packet }).Header

/-- The records that the counts of the decoded header call for, read in one run
from behind the question: `ANCount + NSCount + ARCount` records, up to the first
that fails. -/
def recordStream (env : Decoders) (msg : Message) (packet : List Nat) :
    List ResourceRecord × Nat × Option UnpackError :=
  decodeRecords env packet
    ((decodedHeader env msg packet).ANCount + (decodedHeader env msg packet).NSCount
      + (decodedHeader env msg packet).ARCount)
    (recordsStart env msg packet)

/-- Big-endian image of a 32-bit value. -/
def be32 (v : Nat) : List Nat := [v / 16777216 % 256, v / 65536 % 256, v / 256 % 256, v % 256]

/-- Twelve zero bytes of header followed by a question name cut inside its
first label. -/
def cutQuestionPacket : List Nat := List.replicate 12 0 ++ [5, 97]

/-! ## Concrete records and messages of the later claims -/

/-- An A record named `b` with address 127.0.0.1 given as 4 raw bytes. -/
def aRecordB : ResourceRecord :=
  { (default : ResourceRecord) with
    Name := [98], Typ := QueryTypeA, Class := 1, TTL := 30, Text := { v := [127, 0, 0, 1] } }

/-- A response to the question `q` whose answers are an AAAA record named `a`
followed by an A record named `b`. -/
def aaaaThenA : Message := { aaaaResponse with Answer := [aaaaRecord, aRecordB] }

/-- An SOA record named `a` with primary `ns.a` and mailbox `m.a`. -/
def soaRecord : ResourceRecord :=
  { (default : ResourceRecord) with
    Name := [97], Typ := QueryTypeSOA, Class := 1, TTL := 30
    SOA := { MName := [110, 115, 46, 97], RName := [109, 46, 97], Serial := 1, Refresh := 2
             Retry := 3, Expire := 4, Minimum := 5 } }

/-- An A record named `example.com`. -/
def aExampleCom : ResourceRecord :=
  { (default : ResourceRecord) with
    Name := joinLabels exampleCom, Typ := QueryTypeA, Class := 1, TTL := 30
    Text := { v := [127, 0, 0, 1] } }

/-- An SRV record named `example.com` whose target is `example.com` too. -/
def srvExampleCom : ResourceRecord :=
  { (default : ResourceRecord) with
    Name := joinLabels exampleCom, Typ := QueryTypeSRV, Class := 1, TTL := 30
    SRV := { Priority := 1, Weight := 2, Port := 5060, Target := joinLabels exampleCom } }

/-- Every suffix recorded in `a` is recorded in `b` at the same offset: the
dictionary of `b` answers every lookup that the dictionary of `a` answers, with
the same offset. -/
def Keeps (a b : Message) : Prop :=
  ∀ d, a.dnameOff = some d →
    ∃ d2, b.dnameOff = some d2 ∧ ∀ k o, d.get k = some o → d2.get k = some o

/-- Bytes of the text `WWW.Example.COM`. -/
def mixedCaseName : List Nat :=
  [87, 87, 87, 46, 69, 120, 97, 109, 112, 108, 101, 46, 67, 79, 77]

/-- Labels `www`, `example`, `com`. -/
def wwwExampleCom : List (List Nat) := [[119, 119, 119]] ++ exampleCom

/-- The message `m` with the fields that packing reads but never writes (header,
question and the three lists) taken from `f`. -/
def reframe (f m : Message) : Message :=
  { m with
    Header := f.Header, Question := f.Question, Answer := f.Answer
    Authority := f.Authority, Additional := f.Additional }

/-- The three loops of `MarshalBinary` over Answer, Authority and Additional with
the statements behind them: the message as the call leaves it and the packet
returned. -/
def packLists (env : Collab) (msg3 : Message) : Option (Message × Option (List Nat)) :=
  match packRRs env msg3 msg3.Answer with
  | none => none
  | some msg4 =>
    match packRRs env msg4 msg4.Authority with
    | none => none
    | some msg5 =>
      match packRRs env msg5 msg5.Additional with
      | none => none
      | some msg6 =>
        some ({ msg6 with
          dnameOff := none
          Answer := msg6.Answer.map touchRR
          Authority := msg6.Authority.map touchRR
          Additional := msg6.Additional.map touchRR }, some msg6.Packet)

/-- The part of `MarshalBinary` behind the header: the question and, unless the
header is flagged as a query, the three lists. -/
def packSections (env : Collab) (msg1 : Message) : Option (Message × Option (List Nat)) :=
  match packQuestion msg1 with
  | none => none
  | some msg2 =>
    let msg3 : Message :=
      { msg2 with Question := { msg2.Question with Name := ToLower msg2.Question.Name } }
    if msg3.Header.IsQuery then some ({ msg3 with dnameOff := none }, some msg3.Packet)
    else packLists env msg3

/-- A response to the question `WWW.Example.COM` with an NS answer and an OPT
record among the additional records. -/
def mixedResponse : Message :=
  { (default : Message) with
    Question := { Name := mixedCaseName, Typ := QueryTypeNS, Class := 1 }
    Answer := [{ nsExample with Name := mixedCaseName }]
    Additional := [optRecord 4 0] }

/-! ## Vocabulary and concrete inputs of the cursor-dependent claims -/

/-- Every label of the text holds at most `k` bytes: walking the text with
`count` bytes of the current label already read, no run of bytes other than dots
grows beyond `k`. -/
def labelsWithin (k : Nat) : List Nat → Nat → Bool
  | [], count => decide (count ≤ k)
  | c :: rest, count =>
    if c = 46 then decide (count ≤ k) && labelsWithin k rest 0
    else labelsWithin k rest (count + 1)

/-- No byte of the buffer at an index from `start` on is an upper-case ASCII
letter. -/
def LowerFrom (start : Nat) (p : List Nat) : Prop :=
  ∀ c ∈ p.drop start, ¬ (65 ≤ c ∧ c ≤ 90)

instance (start : Nat) (p : List Nat) : Decidable (LowerFrom start p) := by
  unfold LowerFrom; infer_instance

/-- A response to the question `q` whose answers are a TXT record followed by an
SRV record with target `sip.example.com`, port 5060. -/
def txtThenSrv : Message := { txtThenNs with Answer := [txtRecord, srvExample] }

/-- A response to the question `q` with an AAAA answer and, among the additional
records, an OPT record of option length `n` with `n` bytes of option data. -/
def aaaaThenOpt (n : Nat) : Message := { aaaaResponse with Additional := [optRecord n 0] }

/-! ## Theorems -/

/-! ### Bytes and lower-casing -/

theorem lowerByte_plain {c : Nat} (h : c ≠ 46) : PlainByte (lowerByte c) := by
  unfold PlainByte lowerByte
  split <;> omega

theorem lowerByte_of_plain {c : Nat} (h : PlainByte c) : lowerByte c = c := by
  unfold PlainByte at h
  unfold lowerByte
  split <;> omega

theorem lowerByte_idem (c : Nat) : lowerByte (lowerByte c) = lowerByte c := by
  by_cases h : c = 46
  · subst h; decide
  · exact lowerByte_of_plain (lowerByte_plain h)

theorem sliceTo_of_le (s spare : List Nat) (n : Nat) (h : n ≤ s.length) :
    sliceTo s spare n = some (s.take n) := by
  unfold sliceTo
  rw [if_pos (by omega), List.take_append_of_le_length h]

theorem ToLower_length (l : List Nat) : (ToLower l).length = l.length := by
  simp [ToLower]

theorem ToLower_append (a b : List Nat) : ToLower (a ++ b) = ToLower a ++ ToLower b := by
  simp [ToLower]

theorem ToLower_cons (c : Nat) (l : List Nat) : ToLower (c :: l) = lowerByte c :: ToLower l := rfl

theorem ToLower_idem (l : List Nat) : ToLower (ToLower l) = ToLower l := by
  simp [ToLower, lowerByte_idem]

theorem plainLabel_of_labelN {l : List Nat} (h : LabelN 254 l) : PlainLabel (ToLower l) := by
  obtain ⟨h0, h1, h2⟩ := h
  refine ⟨by rw [ToLower_length]; exact h0, by rw [ToLower_length]; omega, ?_⟩
  intro c hc
  simp only [ToLower, List.mem_map] at hc
  obtain ⟨a, ha, rfl⟩ := hc
  exact lowerByte_plain (h2 a ha)

theorem LabelN.mono {k k2 : Nat} {l : List Nat} (h : LabelN k l) (hk : k ≤ k2) : LabelN k2 l :=
  ⟨h.1, Nat.le_trans h.2.1 hk, h.2.2⟩

theorem joinLabels_cons_cons (l l2 : List Nat) (ls : List (List Nat)) :
    joinLabels (l :: l2 :: ls) = l ++ 46 :: joinLabels (l2 :: ls) := rfl

theorem joinLabels_length_cons (l l2 : List Nat) (ls : List (List Nat)) :
    (joinLabels (l :: l2 :: ls)).length = l.length + 1 + (joinLabels (l2 :: ls)).length := by
  simp [joinLabels_cons_cons]; omega

theorem ToLower_joinLabels (ls : List (List Nat)) :
    ToLower (joinLabels ls) = joinLabels (ls.map ToLower) := by
  induction ls with
  | nil => rfl
  | cons l ls ih =>
    cases ls with
    | nil => rfl
    | cons l2 ls =>
      rw [joinLabels_cons_cons, ToLower_append, ToLower_cons, ih]
      rfl

theorem setByte_placeholder (P l : List Nat) (v : Nat) :
    setByte (P ++ [0] ++ l) P.length v = some (P ++ [v] ++ l) := by
  unfold setByte
  rw [if_pos (by simp)]
  congr 1
  induction P with
  | nil => simp
  | cons a P ih => simp [ih]

/-! ### The label loop -/

theorem compressIf_eq (dc : Bool) (msg : Message) :
    compressIf dc msg =
      match probe dc (msg.dnameOff.getD []) msg.dname with
      | some o => ({ msg with Packet := msg.Packet ++ pointerBytes o,
                              off := (msg.off + 2) % 65536 }, true)
      | none => (msg, false) := by
  unfold probe compressIf compress lookupDict
  cases dc with
  | false => simp
  | true =>
    cases hd : msg.dnameOff with
    | none => simp [Dict.get]
    | some d =>
      simp only [if_true, Option.getD_some]
      cases d.get msg.dname <;> simp [pointerBytes]

theorem encodeLabels_cons (dc : Bool) (d : Dict) (pos : Nat) (l : List Nat)
    (ls : List (List Nat)) :
    encodeLabels dc d pos (l :: ls) =
      match probe dc d (joinLabels (l :: ls)) with
      | some o => (pointerBytes o, d)
      | none =>
        (l.length :: l ++ (encodeLabels dc ((joinLabels (l :: ls), pos) :: d)
            (pos + l.length + 1) ls).1,
          (encodeLabels dc ((joinLabels (l :: ls), pos) :: d) (pos + l.length + 1) ls).2) := by
  rw [encodeLabels]; rfl

theorem packLoop_nil (dc ne : Bool) (count n : Nat) (msg : Message) :
    packLoop dc ne [] count n msg = packFinish ne count n msg := rfl

theorem packLoop_char (dc ne : Bool) (c : Nat) (rest : List Nat) (count n : Nat) (msg : Message)
    (hc : PlainByte c) :
    packLoop dc ne (c :: rest) count n msg
      = packLoop dc ne rest ((count + 1) % 256) n { msg with Packet := msg.Packet ++ [c] } := by
  unfold PlainByte at hc
  rw [packLoop, if_neg hc.1, if_neg hc.2]

theorem packLoop_dot_skip (dc ne : Bool) (rest : List Nat) (n : Nat) (msg : Message) :
    packLoop dc ne (46 :: rest) 0 n msg = packLoop dc ne rest 0 n msg := by
  rw [packLoop]; simp

theorem packLoop_chars (dc ne : Bool) (l rest : List Nat) (hl : ∀ c ∈ l, PlainByte c) :
    ∀ (count n : Nat) (msg : Message), count < 256 →
      packLoop dc ne (l ++ rest) count n msg
        = packLoop dc ne rest ((count + l.length) % 256) n
            { msg with Packet := msg.Packet ++ l } := by
  induction l with
  | nil =>
    intro count n msg hc
    simp [Nat.mod_eq_of_lt hc]
  | cons c l ih =>
    intro count n msg hc
    have hc1 : PlainByte c := hl c (List.mem_cons_self _ _)
    have hl1 : ∀ x ∈ l, PlainByte x := fun x hx => hl x (List.mem_cons_of_mem _ hx)
    rw [List.cons_append, packLoop_char dc ne c _ count n msg hc1,
      ih hl1 ((count + 1) % 256) n _ (Nat.mod_lt _ (by decide))]
    have e : ((count + 1) % 256 + l.length) % 256 = (count + (c :: l).length) % 256 := by
      simp only [List.length_cons]; omega
    rw [e]
    simp

/-- Refinement of the loop: started on a reserved length octet with the cursor on
it, the loop over a well-formed name writes what `encodeLabels` prescribes. -/
theorem packLoop_exact (dc : Bool) (ls : List (List Nat)) :
    ∀ (l P : List Nat) (d : Dict) (n : Nat) (msg : Message),
      PlainLabel l → (∀ x ∈ ls, PlainLabel x) →
      msg.Packet = P ++ [0] → msg.off = P.length → msg.dnameOff = some d →
      P.length + (joinLabels (l :: ls)).length + 2 ≤ 65536 →
      ∃ msg2, packLoop dc true (joinLabels (l :: ls)) 0 n msg
          = some (msg2, n + (l.length + 1 + (encodeLabels dc d (P.length + l.length + 1) ls).1.length))
        ∧ msg2.Packet = P ++ (l.length :: l) ++ (encodeLabels dc d (P.length + l.length + 1) ls).1
        ∧ msg2.off = (P.length + (l.length + 1
            + (encodeLabels dc d (P.length + l.length + 1) ls).1.length)) % 65536
        ∧ msg2.dnameOff = some (encodeLabels dc d (P.length + l.length + 1) ls).2 := by
  induction ls with
  | nil =>
    intro l P d n msg hl _ hP hoff hd hfit
    obtain ⟨hl0, hl1, hlp⟩ := hl
    have e := packLoop_chars dc true l [] hlp 0 n msg (by decide)
    rw [List.append_nil] at e
    simp only [joinLabels, e, packLoop, packFinish, encodeLabels, Nat.zero_add]
    have hm : l.length % 256 = l.length := Nat.mod_eq_of_lt (by omega)
    have hm1 : (l.length + 1) % 256 = l.length + 1 := Nat.mod_eq_of_lt (by omega)
    simp only [hm, hm1, hl0, if_true, hP, hoff, setByte_placeholder]
    refine ⟨_, rfl, ?_, ?_, ?_⟩
    · simp
    · simp; omega
    · simp [hd]
  | cons l2 ls ih =>
    intro l P d n msg hl hls hP hoff hd hfit
    obtain ⟨hl0, hl1, hlp⟩ := hl
    have hl2 : PlainLabel l2 := hls l2 (List.mem_cons_self _ _)
    have hls2 : ∀ x ∈ ls, PlainLabel x := fun x hx => hls x (List.mem_cons_of_mem _ hx)
    have e := packLoop_chars dc true l (46 :: joinLabels (l2 :: ls)) hlp 0 n msg (by decide)
    rw [joinLabels_length_cons] at hfit
    have hm : l.length % 256 = l.length := Nat.mod_eq_of_lt (by omega)
    have hm1 : (l.length + 1) % 256 = l.length + 1 := Nat.mod_eq_of_lt (by omega)
    have hne : l.length ≠ 0 := by omega
    have hoffm : (P.length + (l.length + 1)) % 65536 = P.length + l.length + 1 := by
      rw [Nat.mod_eq_of_lt (by omega)]; omega
    rw [joinLabels_cons_cons, e, Nat.zero_add, hm, packLoop]
    simp only [if_true, if_neg hne, hP, hoff, setByte_placeholder, hm1, hoffm]
    rw [encodeLabels_cons]
    cases hpr : probe dc d (joinLabels (l2 :: ls)) with
    | some o =>
      simp only [compressIf_eq, hd, Option.getD_some, hpr, if_true]
      refine ⟨_, rfl, ?_, ?_, ?_⟩
      · simp [pointerBytes]
      · simp [pointerBytes]; omega
      · simp [hd]
    | none =>
      simp only [compressIf_eq, hd, Option.getD_some, hpr, Bool.false_eq_true, if_false,
        openLabel]
      have := ih l2 (P ++ [l.length] ++ l) ((joinLabels (l2 :: ls), P.length + l.length + 1) :: d)
        (n + (l.length + 1))
        { msg with Packet := P ++ [l.length] ++ l ++ [0], off := P.length + l.length + 1,
                   dnameOff := some ((joinLabels (l2 :: ls), P.length + l.length + 1) :: d),
                   dname := joinLabels (l2 :: ls) }
        hl2 hls2 rfl (by simp; omega) rfl (by simp; omega)
      obtain ⟨msg2, h1, h2, h3, h4⟩ := this
      have elen : (P ++ [l.length] ++ l).length = P.length + l.length + 1 := by simp; omega
      rw [elen] at h1 h2 h3 h4
      refine ⟨msg2, ?_, ?_, ?_, ?_⟩
      · rw [h1]; simp; omega
      · rw [h2]; simp
      · rw [h3]; simp; congr 1; omega
      · rw [h4]

/-- Refinement of `packDomainName` on well-formed names: with the dictionary
present, the cursor at the end of the packet and room below 65536, the call
appends exactly the bytes of `encodeLabels`, returns their number, advances the
cursor by it and leaves the dictionary of `encodeLabels`. -/
theorem packDomainName_exact (dc : Bool) (ls : List (List Nat)) (msg : Message) (d : Dict)
    (hne : ls ≠ []) (hls : ∀ l ∈ ls, LabelN 254 l)
    (hd : msg.dnameOff = some d) (hoff : msg.off = msg.Packet.length)
    (hfit : msg.Packet.length + (joinLabels ls).length + 2 ≤ 65536) :
    ∃ msg2, packDomainName msg (joinLabels ls) dc
        = some (msg2, (encodeLabels dc d msg.Packet.length (ls.map ToLower)).1.length)
      ∧ msg2.Packet = msg.Packet ++ (encodeLabels dc d msg.Packet.length (ls.map ToLower)).1
      ∧ msg2.off = (msg.Packet.length
          + (encodeLabels dc d msg.Packet.length (ls.map ToLower)).1.length) % 65536
      ∧ msg2.dnameOff = some (encodeLabels dc d msg.Packet.length (ls.map ToLower)).2 := by
  cases ls with
  | nil => exact absurd rfl hne
  | cons l ls =>
    have hl : PlainLabel (ToLower l) := plainLabel_of_labelN (hls l (List.mem_cons_self _ _))
    have hls2 : ∀ x ∈ ls.map ToLower, PlainLabel x := by
      intro x hx
      obtain ⟨a, ha, rfl⟩ := List.mem_map.1 hx
      exact plainLabel_of_labelN (hls a (List.mem_cons_of_mem _ ha))
    have hlen : (joinLabels (ToLower l :: ls.map ToLower)).length = (joinLabels (l :: ls)).length := by
      rw [← List.map_cons, ← ToLower_joinLabels, ToLower_length]
    have hpos : 0 < (joinLabels (ToLower l :: ls.map ToLower)).length := by
      have := hl.1
      cases ls with
      | nil => simpa [joinLabels] using this
      | cons l2 ls => rw [List.map_cons, joinLabels_length_cons]; omega
    unfold packDomainName
    simp only [ToLower_joinLabels, List.map_cons, compressIf_eq, hd, Option.getD_some]
    rw [encodeLabels_cons]
    cases hpr : probe dc d (joinLabels (ToLower l :: ls.map ToLower)) with
    | some o =>
      simp only [if_true]
      refine ⟨_, rfl, ?_, ?_, ?_⟩
      · simp [pointerBytes]
      · simp [pointerBytes, hoff]
      · simp [hd]
    | none =>
      simp only [Bool.false_eq_true, if_false, openLabel, hd, hpos, decide_True]
      have := packLoop_exact dc (ls.map ToLower) (ToLower l) msg.Packet
        ((joinLabels (ToLower l :: ls.map ToLower), msg.off) :: d) 0
        { msg with Packet := msg.Packet ++ [0],
                   dnameOff := some ((joinLabels (ToLower l :: ls.map ToLower), msg.off) :: d),
                   dname := joinLabels (ToLower l :: ls.map ToLower) }
        hl hls2 rfl hoff rfl (by rw [hlen]; exact hfit)
      obtain ⟨msg2, h1, h2, h3, h4⟩ := this
      rw [hoff] at h1 h2 h3 h4
      refine ⟨msg2, ?_, ?_, ?_, ?_⟩
      · rw [hoff, h1]; simp; omega
      · rw [h2]; simp
      · rw [h3]; simp; congr 1; omega
      · rw [h4]

/-! ### Frame -/

theorem Frame.refl (a : Message) : Frame a a := ⟨rfl, rfl, rfl, rfl, rfl⟩

theorem Frame.trans {a b c : Message} (h1 : Frame a b) (h2 : Frame b c) : Frame a c :=
  ⟨h1.1.trans h2.1, h1.2.1.trans h2.2.1, h1.2.2.1.trans h2.2.2.1,
    h1.2.2.2.1.trans h2.2.2.2.1, h1.2.2.2.2.trans h2.2.2.2.2⟩

theorem compressIf_frame (dc : Bool) {a msg : Message} (h : Frame a msg) :
    Frame a (compressIf dc msg).1 := by
  rw [compressIf_eq]
  cases probe dc (msg.dnameOff.getD []) msg.dname <;> exact h

theorem openLabel_frame {a msg msg2 : Message} (hf : Frame a msg)
    (h : openLabel msg = some msg2) : Frame a msg2 := by
  unfold openLabel at h
  cases hd : msg.dnameOff with
  | none => simp [hd] at h
  | some d =>
    simp only [hd, Option.some.injEq] at h
    subst h
    exact hf

theorem packFinish_frame {ne : Bool} {count n : Nat} {msg : Message} {r : Message × Nat}
    (h : packFinish ne count n msg = some r) : Frame msg r.1 := by
  unfold packFinish at h
  by_cases hc : 0 < count
  · simp only [hc, if_true] at h
    cases hs : setByte msg.Packet msg.off count with
    | none => simp [hs] at h
    | some p =>
      simp only [hs] at h
      cases ne <;> simp at h <;> subst h <;> exact ⟨rfl, rfl, rfl, rfl, rfl⟩
  · simp only [hc, if_false] at h
    cases ne <;> simp at h <;> subst h <;> exact ⟨rfl, rfl, rfl, rfl, rfl⟩

theorem packLoop_frame (dc ne : Bool) (rest : List Nat) :
    ∀ (count n : Nat) (a msg : Message) (r : Message × Nat), Frame a msg →
      packLoop dc ne rest count n msg = some r → Frame a r.1 := by
  induction rest with
  | nil =>
    intro count n a msg r hf h
    exact Frame.trans hf (packFinish_frame h)
  | cons c rest ih =>
    intro count n a msg r hf h
    rw [packLoop] at h
    by_cases hc : c = 46
    · simp only [hc, if_true] at h
      by_cases h0 : count = 0
      · simp only [h0, if_true] at h
        exact ih _ _ _ _ _ hf h
      · simp only [h0, if_false] at h
        split at h
        · exact absurd h (by simp)
        · split at h
          · simp only [Option.some.injEq] at h
            subst h
            exact compressIf_frame dc (by exact hf)
          · split at h
            · exact absurd h (by simp)
            · rename_i m2 ho
              exact ih _ _ _ _ _ (openLabel_frame (compressIf_frame dc (by exact hf)) ho) h
    · simp only [hc, if_false] at h
      exact ih _ _ _ _ _ (by exact hf) h

theorem packDomainName_frame {msg : Message} {dname : List Nat} {dc : Bool} {r : Message × Nat}
    (h : packDomainName msg dname dc = some r) : Frame msg r.1 := by
  unfold packDomainName at h
  have hf : Frame msg { msg with dname := ToLower dname } := ⟨rfl, rfl, rfl, rfl, rfl⟩
  simp only at h
  split at h
  · simp only [Option.some.injEq] at h
    subst h
    exact compressIf_frame dc hf
  · split at h
    · exact absurd h (by simp)
    · rename_i m2 ho
      exact packLoop_frame _ _ _ _ _ _ _ _ (openLabel_frame (compressIf_frame dc hf) ho) h

theorem encodeLabels_plain (d : Dict) (pos : Nat) (ls : List (List Nat)) :
    (encodeLabels false d pos ls).1 = wireName ls := by
  induction ls generalizing d pos with
  | nil => rfl
  | cons l ls ih =>
    rw [encodeLabels_cons]
    simp [probe, wireName, ih]

/-! ### Names written without compression -/

theorem take_set_of_le (l : List Nat) (k i v : Nat) (h : k ≤ i) :
    (l.set i v).take k = l.take k := by
  rw [List.set_take, List.set_eq_of_length_le]
  simp; omega

theorem packFinish_plain (ne : Bool) (count n : Nat) (msg : Message)
    (hI : msg.off + count + 1 ≤ msg.Packet.length) :
    ∃ m2 n2, packFinish ne count n msg = some (m2, n2)
      ∧ m2.Packet.length = msg.Packet.length + (if ne then 1 else 0)
      ∧ m2.dnameOff = msg.dnameOff
      ∧ (∀ k, k ≤ msg.off → m2.Packet.take k = msg.Packet.take k) := by
  unfold packFinish setByte
  have hlt : msg.off < msg.Packet.length := by omega
  by_cases hc : 0 < count <;> cases ne <;> simp only [hc, hlt, if_true, if_false]
  · refine ⟨_, _, rfl, by simp, rfl, fun k hk => take_set_of_le _ _ _ _ hk⟩
  · refine ⟨_, _, rfl, by simp, rfl, fun k hk => ?_⟩
    simp only
    rw [List.take_append_of_le_length (by simp; omega), take_set_of_le _ _ _ _ hk]
  · exact ⟨_, _, rfl, by simp, rfl, fun k hk => rfl⟩
  · refine ⟨_, _, rfl, by simp, rfl, fun k hk => ?_⟩
    simp only
    rw [List.take_append_of_le_length (by omega)]

theorem packLoop_plain (ne : Bool) (rest : List Nat) :
    ∀ (count n : Nat) (msg : Message), msg.dnameOff.isSome = true →
      msg.off + count + 1 ≤ msg.Packet.length → count < 256 →
      ∃ m2 n2, packLoop false ne rest count n msg = some (m2, n2)
        ∧ m2.Packet.length = msg.Packet.length + rawLen ne rest count
        ∧ m2.dnameOff.isSome = true
        ∧ (∀ k, k ≤ msg.off → msg.Packet.length + rawLen ne rest count ≤ 65536 →
            m2.Packet.take k = msg.Packet.take k) := by
  induction rest with
  | nil =>
    intro count n msg hd hI hc
    obtain ⟨m2, n2, h1, h2, h3, h4⟩ := packFinish_plain ne count n msg hI
    exact ⟨m2, n2, h1, by simpa [rawLen] using h2, by rw [h3]; exact hd, fun k hk _ => h4 k hk⟩
  | cons c rest ih =>
    intro count n msg hd hI hc
    rw [packLoop]
    by_cases h46 : c = 46
    · by_cases h0 : count = 0
      · simp only [h46, h0, if_true, rawLen]
        subst h0
        exact ih 0 n msg hd hI hc
      · have hlt : msg.off < msg.Packet.length := by omega
        obtain ⟨d, hd2⟩ := Option.isSome_iff_exists.1 hd
        simp only [h46, h0, if_true, if_false, rawLen, setByte, hlt, compressIf, openLabel,
          Bool.false_eq_true, hd2]
        have hm : (msg.off + (count + 1) % 256) % 65536 ≤ msg.off + count + 1 :=
          Nat.le_trans (Nat.mod_le _ _) (by omega)
        obtain ⟨m2, n2, h1, h2, h3, h4⟩ := ih 0 (n + (count + 1) % 256)
          { msg with Packet := msg.Packet.set msg.off count ++ [0], dname := rest,
                     off := (msg.off + (count + 1) % 256) % 65536,
                     dnameOff := some ((rest, (msg.off + (count + 1) % 256) % 65536) :: d) }
          rfl (by simp; omega) (by decide)
        refine ⟨m2, n2, h1, by rw [h2]; simp; omega, h3, fun k hk hfit => ?_⟩
        simp only [List.length_append, List.length_set, List.length_singleton] at h4
        have hnw : (msg.off + (count + 1) % 256) % 65536 = msg.off + (count + 1) % 256 := by
          apply Nat.mod_eq_of_lt
          have : (count + 1) % 256 ≤ count + 1 := Nat.mod_le _ _
          omega
        rw [h4 k (by rw [hnw]; omega) (by omega),
          List.take_append_of_le_length (by simp; omega), take_set_of_le _ _ _ _ hk]
    · simp only [h46, if_false, rawLen]
      obtain ⟨m2, n2, h1, h2, h3, h4⟩ := ih ((count + 1) % 256) n
        { msg with Packet := msg.Packet ++ [if 65 ≤ c ∧ c ≤ 90 then (c + 32) % 256 else c] }
        hd (by simp; have : (count + 1) % 256 ≤ count + 1 := Nat.mod_le _ _; omega)
        (Nat.mod_lt _ (by decide))
      refine ⟨m2, n2, h1, by rw [h2]; simp; omega, h3, fun k hk hfit => ?_⟩
      simp only [List.length_append, List.length_singleton] at h4
      rw [h4 k hk (by omega), List.take_append_of_le_length (by omega)]

theorem rawLen_le (ne : Bool) (rest : List Nat) : ∀ count, rawLen ne rest count ≤ rest.length + 1 := by
  induction rest with
  | nil => intro count; simp [rawLen]; split <;> omega
  | cons c rest ih =>
    intro count
    simp only [rawLen, List.length_cons]
    have a := ih count
    have b := ih 0
    have c2 := ih ((count + 1) % 256)
    split
    · split <;> omega
    · omega

/-- Uncompressed `packDomainName` never panics once the dictionary exists and the
cursor is inside the packet; it appends `1 + rawLen` bytes, a number fixed by the
name alone, and leaves the bytes before the cursor alone while the packet stays
below the 16-bit limit. -/
theorem packDomainName_plain (msg : Message) (dname : List Nat)
    (hd : msg.dnameOff.isSome = true) (hoff : msg.off ≤ msg.Packet.length) :
    ∃ m2 n2, packDomainName msg dname false = some (m2, n2)
      ∧ m2.Packet.length = msg.Packet.length + 1
          + rawLen (decide (0 < dname.length)) (ToLower dname) 0
      ∧ m2.dnameOff.isSome = true
      ∧ (∀ k, k ≤ msg.off → msg.Packet.length + dname.length + 2 ≤ 65536 →
            m2.Packet.take k = msg.Packet.take k) := by
  obtain ⟨d, hd2⟩ := Option.isSome_iff_exists.1 hd
  unfold packDomainName
  simp only [compressIf, Bool.false_eq_true, if_false, openLabel, hd2, ToLower_length]
  obtain ⟨m2, n2, h1, h2, h3, h4⟩ := packLoop_plain (decide (0 < dname.length)) (ToLower dname) 0 0
    { msg with Packet := msg.Packet ++ [0], dname := ToLower dname,
               dnameOff := some ((ToLower dname, msg.off) :: d) }
    rfl (by simp; omega) (by decide)
  refine ⟨m2, n2, h1, by rw [h2]; simp, h3, fun k hk hfit => ?_⟩
  have := rawLen_le (decide (0 < dname.length)) (ToLower dname) 0
  rw [ToLower_length] at this
  rw [h4 k hk (by simp; omega), List.take_append_of_le_length (by omega)]

/-! ### MarshalBinary -/

theorem MarshalBinary_eq (env : Collab) (msg : Message) :
    MarshalBinary env msg =
      match env.headerMarshal (countedHeader msg) with
      | none => some ({ headerState msg [] with off := msg.off, dnameOff := none }, none)
      | some header =>
        match packQuestion (headerState msg header) with
        | none => none
        | some msg2 =>
          let msg3 : Message :=
            { msg2 with Question := { msg2.Question with Name := ToLower msg2.Question.Name } }
          if msg3.Header.IsQuery then some ({ msg3 with dnameOff := none }, some msg3.Packet)
          else
            match packRRs env msg3 msg3.Answer with
            | none => none
            | some msg4 =>
              match packRRs env msg4 msg4.Authority with
              | none => none
              | some msg5 =>
                match packRRs env msg5 msg5.Additional with
                | none => none
                | some msg6 =>
                  some ({ msg6 with
                    dnameOff := none
                    Answer := msg6.Answer.map touchRR
                    Authority := msg6.Authority.map touchRR
                    Additional := msg6.Additional.map touchRR }, some msg6.Packet) := by
  obtain ⟨hd, q, an, au, ad, p, o, d, dn⟩ := msg
  cases d <;> rfl

theorem packQuestion_frame {msg msg2 : Message} (h : packQuestion msg = some msg2) :
    Frame msg msg2 := by
  unfold packQuestion at h
  split at h
  · exact absurd h (by simp)
  · rename_i m1 n1 h1
    simp only [Option.some.injEq] at h
    subst h
    exact packDomainName_frame h1

/-- Query framing, the core: the call succeeds with the packet `packQuestion`
leaves, whose length is fixed by the question. -/
theorem marshalBinary_query_core (env : Collab) (msg : Message) (h : List Nat)
    (hq : msg.Header.IsQuery = true)
    (hh : env.headerMarshal (countedHeader msg) = some h) (hlen : h.length = 12) :
    ∃ msg2 m1 n, packDomainName (headerState msg h) msg.Question.Name false = some (m1, n)
      ∧ MarshalBinary env msg
          = some (msg2, some (m1.Packet ++ be16 msg.Question.Typ ++ be16 msg.Question.Class))
      ∧ msg2.Packet = m1.Packet ++ be16 msg.Question.Typ ++ be16 msg.Question.Class
      ∧ m1.Packet.length
          = 12 + 1 + rawLen (decide (0 < msg.Question.Name.length)) (ToLower msg.Question.Name) 0
      ∧ (msg.Question.Name.length + 14 ≤ 65536 → m1.Packet.take 12 = h) := by
  obtain ⟨m1, n, h1, h2, -, h4⟩ := packDomainName_plain (headerState msg h) msg.Question.Name
    rfl (by simp [headerState, sectionHeaderSize, hlen])
  have hf := packDomainName_frame h1
  have hq1 : m1.Question = msg.Question := hf.2.1.symm
  have hh1 : m1.Header = countedHeader msg := hf.1.symm
  have hM : ∃ msg2, MarshalBinary env msg
        = some (msg2, some (m1.Packet ++ be16 msg.Question.Typ ++ be16 msg.Question.Class))
      ∧ msg2.Packet = m1.Packet ++ be16 msg.Question.Typ ++ be16 msg.Question.Class := by
    rw [MarshalBinary_eq, hh]
    simp only [packQuestion]
    have e : (headerState msg h).Question.Name = msg.Question.Name := rfl
    rw [e, h1]
    simp only [hh1, countedHeader, hq, if_true, AppendUint16, hq1, be16, List.append_assoc,
      List.cons_append, List.nil_append]
    exact ⟨_, rfl, rfl⟩
  obtain ⟨msg2, hM1, hM2⟩ := hM
  refine ⟨msg2, m1, n, h1, hM1, hM2, ?_, ?_⟩
  · rw [h2]; simp [headerState, hlen]
  · intro hfit
    have := h4 12 (by simp [headerState, sectionHeaderSize]) (by simp [headerState, hlen]; omega)
    rw [this]
    simp [headerState, ← hlen]

/-! ### Pointer bytes -/

set_option maxRecDepth 20000 in
theorem pointerBytes_decode (o : Nat) :
    ∃ b0 b1, pointerBytes o = [b0, b1] ∧ b0 < 256 ∧ b1 < 256 ∧ b0 &&& 192 = 192
      ∧ ((b0 &&& 63) <<< 8) ||| b1 = o % 16384 := by
  have key : ∀ h, h < 256 → (192 ||| h) < 256 ∧ (192 ||| h) &&& 192 = 192
      ∧ (192 ||| h) &&& 63 = h % 64 := by decide
  obtain ⟨k1, k2, k3⟩ := key (o / 256 % 256) (Nat.mod_lt _ (by decide))
  refine ⟨maskPointer ||| (o / 256 % 256), o % 256, rfl, k1, Nat.mod_lt _ (by decide), k2, ?_⟩
  have e : maskPointer = 192 := rfl
  rw [e, k3, Nat.shiftLeft_eq, Nat.mul_comm,
    ← Nat.mul_add_lt_is_or (show o % 256 < 2 ^ 8 from Nat.mod_lt _ (by decide))]
  omega


theorem pointerBytes_near {o : Nat} (ho : o < 16384) :
    pointerBytes o = [192 + o / 256, o % 256]
      ∧ (192 + o / 256) &&& 192 = 192
      ∧ (((192 + o / 256) &&& 63) <<< 8) ||| (o % 256) = o := by
  have key : ∀ h, h < 64 → 192 ||| h = 192 + h := by decide
  obtain ⟨b0, b1, e, -, -, h2, h3⟩ := pointerBytes_decode o
  have e2 : pointerBytes o = [192 + o / 256, o % 256] := by
    unfold pointerBytes maskPointer
    rw [Nat.mod_eq_of_lt (show o / 256 < 256 by omega), key _ (by omega)]
  rw [e2] at e
  simp only [List.cons.injEq, and_true] at e
  obtain ⟨e0, e1⟩ := e
  subst e0 e1
  rw [Nat.mod_eq_of_lt ho] at h3
  exact ⟨e2, h2, h3⟩

/-! ### Names written from any state of the dictionary -/

theorem Dict.get_isSome_iff (d : Dict) (k : List Nat) : (d.get k).isSome = true ↔ k ∈ d.keys := by
  induction d with
  | nil => simp [Dict.get, Dict.keys]
  | cons e d ih =>
    obtain ⟨k0, v⟩ := e
    simp only [Dict.get, Dict.keys, List.map_cons, List.mem_cons]
    by_cases h : k0 = k
    · simp [h]
    · simp only [if_neg h]
      rw [ih]
      constructor
      · intro hm; exact Or.inr hm
      · intro hm
        rcases hm with hm | hm
        · exact absurd hm.symm h
        · exact hm

theorem probe_eq_none_iff (dc : Bool) (d : Dict) (k : List Nat) :
    probe dc d k = none ↔ ¬ (dc = true ∧ k ∈ d.keys) := by
  unfold probe
  cases dc with
  | false => simp
  | true =>
    simp only [if_true, true_and]
    rw [← Dict.get_isSome_iff]
    cases d.get k <;> simp

theorem specWalk_cons (dc : Bool) (keys : List (List Nat)) (l : List Nat)
    (ls : List (List Nat)) :
    specWalk dc keys (l :: ls) =
      if dc = true ∧ joinLabels (l :: ls) ∈ keys then (2, keys)
      else (l.length + 1 + (specWalk dc (joinLabels (l :: ls) :: keys) ls).1,
            (specWalk dc (joinLabels (l :: ls) :: keys) ls).2) := by
  rw [specWalk]
  by_cases h : dc = true ∧ joinLabels (l :: ls) ∈ keys
  · simp [h]
  · rw [if_neg h]
    have : (dc && decide (joinLabels (l :: ls) ∈ keys)) = false := by
      cases dc <;> simp_all
    simp [this]

/-- The loop over a well-formed name, from any state in which the dictionary is
present and the cursor lies on a byte of the packet: it ends, returns and
appends the byte count of `specWalk`, keeps the cursor inside the packet and
leaves the keys of `specWalk`. -/
theorem packLoop_wf (dc : Bool) (ls : List (List Nat)) :
    ∀ (l : List Nat) (d : Dict) (n : Nat) (msg : Message),
      PlainLabel l → (∀ x ∈ ls, PlainLabel x) →
      msg.dnameOff = some d → msg.off + 1 ≤ msg.Packet.length →
      ∃ m2 d2, packLoop dc true (joinLabels (l :: ls)) 0 n msg
          = some (m2, n + (l.length + 1 + (specWalk dc d.keys ls).1))
        ∧ m2.Packet.length = msg.Packet.length + l.length + (specWalk dc d.keys ls).1
        ∧ m2.off ≤ m2.Packet.length
        ∧ m2.dnameOff = some d2 ∧ d2.keys = (specWalk dc d.keys ls).2 := by
  induction ls with
  | nil =>
    intro l d n msg hl _ hd hoff
    obtain ⟨hl0, hl1, hlp⟩ := hl
    have e := packLoop_chars dc true l [] hlp 0 n msg (by decide)
    rw [List.append_nil] at e
    have hm : l.length % 256 = l.length := Nat.mod_eq_of_lt (by omega)
    have hm1 : (l.length + 1) % 256 = l.length + 1 := Nat.mod_eq_of_lt (by omega)
    have hlt : msg.off < (msg.Packet ++ l).length := by simp; omega
    simp only [joinLabels, e, packLoop, packFinish, specWalk, Nat.zero_add, hm, hm1, hl0,
      if_true, setByte, hlt]
    refine ⟨_, d, rfl, by simp, ?_, hd, rfl⟩
    simp only [List.length_append, List.length_set, List.length_singleton]
    have : (msg.off + (l.length + 1)) % 65536 ≤ msg.off + (l.length + 1) := Nat.mod_le _ _
    have : ((msg.off + (l.length + 1)) % 65536 + 1) % 65536
        ≤ (msg.off + (l.length + 1)) % 65536 + 1 := Nat.mod_le _ _
    omega
  | cons l2 ls ih =>
    intro l d n msg hl hls hd hoff
    obtain ⟨hl0, hl1, hlp⟩ := hl
    have hl2 : PlainLabel l2 := hls l2 (List.mem_cons_self _ _)
    have hls2 : ∀ x ∈ ls, PlainLabel x := fun x hx => hls x (List.mem_cons_of_mem _ hx)
    have e := packLoop_chars dc true l (46 :: joinLabels (l2 :: ls)) hlp 0 n msg (by decide)
    have hm : l.length % 256 = l.length := Nat.mod_eq_of_lt (by omega)
    have hm1 : (l.length + 1) % 256 = l.length + 1 := Nat.mod_eq_of_lt (by omega)
    have hne : l.length ≠ 0 := by omega
    have hlt : msg.off < (msg.Packet ++ l).length := by simp; omega
    have hle : (msg.off + (l.length + 1)) % 65536 ≤ msg.off + (l.length + 1) := Nat.mod_le _ _
    rw [joinLabels_cons_cons, e, Nat.zero_add, hm, packLoop]
    simp only [if_true, if_neg hne, setByte, hlt, hm1]
    rw [specWalk_cons]
    cases hpr : probe dc d (joinLabels (l2 :: ls)) with
    | some o =>
      have hf : dc = true ∧ joinLabels (l2 :: ls) ∈ d.keys := by
        by_contra hc
        rw [(probe_eq_none_iff dc d _).2 hc] at hpr
        exact absurd hpr (by simp)
      simp only [compressIf_eq, hd, Option.getD_some, hpr, if_true, if_pos hf]
      refine ⟨_, d, rfl, by simp [pointerBytes], ?_, rfl, rfl⟩
      simp only [List.length_append, List.length_set, pointerBytes, List.length_cons,
        List.length_nil]
      have : ((msg.off + (l.length + 1)) % 65536 + 2) % 65536
          ≤ (msg.off + (l.length + 1)) % 65536 + 2 := Nat.mod_le _ _
      omega
    | none =>
      have hf : ¬ (dc = true ∧ joinLabels (l2 :: ls) ∈ d.keys) := (probe_eq_none_iff dc d _).1 hpr
      simp only [compressIf_eq, hd, Option.getD_some, hpr, Bool.false_eq_true, if_false,
        openLabel, if_neg hf]
      obtain ⟨m2, d2, h1, h2, h3, h4, h5⟩ := ih l2
        ((joinLabels (l2 :: ls), (msg.off + (l.length + 1)) % 65536) :: d)
        (n + (l.length + 1))
        { msg with Packet := (msg.Packet ++ l).set msg.off l.length ++ [0],
                   off := (msg.off + (l.length + 1)) % 65536,
                   dnameOff := some ((joinLabels (l2 :: ls),
                     (msg.off + (l.length + 1)) % 65536) :: d),
                   dname := joinLabels (l2 :: ls) }
        hl2 hls2 rfl (by simp; omega)
      have hk : Dict.keys ((joinLabels (l2 :: ls), (msg.off + (l.length + 1)) % 65536) :: d)
          = joinLabels (l2 :: ls) :: d.keys := rfl
      rw [hk] at h1 h2 h5
      refine ⟨m2, d2, ?_, ?_, h3, h4, h5⟩
      · rw [h1]; simp; omega
      · rw [h2]; simp; omega

/-- `packDomainName` on a well-formed name, from any state in which the
dictionary is present and the cursor is not beyond the end of the packet: the
call returns, the count returned is the number of bytes appended, namely the
one of `specWalk`, and the keys afterwards are those of `specWalk`. -/
theorem packDomainName_wf (dc : Bool) (ls : List (List Nat)) (msg : Message) (d : Dict)
    (hne : ls ≠ []) (hls : ∀ l ∈ ls, LabelN 254 l)
    (hd : msg.dnameOff = some d) (hoff : msg.off ≤ msg.Packet.length) :
    ∃ m2 d2, packDomainName msg (joinLabels ls) dc
        = some (m2, (specWalk dc d.keys (ls.map ToLower)).1)
      ∧ m2.Packet.length = msg.Packet.length + (specWalk dc d.keys (ls.map ToLower)).1
      ∧ m2.off ≤ m2.Packet.length
      ∧ m2.dnameOff = some d2 ∧ d2.keys = (specWalk dc d.keys (ls.map ToLower)).2 := by
  cases ls with
  | nil => exact absurd rfl hne
  | cons l ls =>
    have hl : PlainLabel (ToLower l) := plainLabel_of_labelN (hls l (List.mem_cons_self _ _))
    have hls2 : ∀ x ∈ ls.map ToLower, PlainLabel x := by
      intro x hx
      obtain ⟨a, ha, rfl⟩ := List.mem_map.1 hx
      exact plainLabel_of_labelN (hls a (List.mem_cons_of_mem _ ha))
    have hpos : 0 < (joinLabels (ToLower l :: ls.map ToLower)).length := by
      have := hl.1
      cases ls with
      | nil => simpa [joinLabels] using this
      | cons l2 ls => rw [List.map_cons, joinLabels_length_cons]; omega
    unfold packDomainName
    simp only [ToLower_joinLabels, List.map_cons, compressIf_eq, hd, Option.getD_some]
    rw [specWalk_cons]
    cases hpr : probe dc d (joinLabels (ToLower l :: ls.map ToLower)) with
    | some o =>
      have hf : dc = true ∧ joinLabels (ToLower l :: ls.map ToLower) ∈ d.keys := by
        by_contra hc
        rw [(probe_eq_none_iff dc d _).2 hc] at hpr
        exact absurd hpr (by simp)
      simp only [if_true, if_pos hf]
      refine ⟨_, d, rfl, by simp [pointerBytes], ?_, rfl, rfl⟩
      simp only [List.length_append, pointerBytes, List.length_cons, List.length_nil]
      have : (msg.off + 2) % 65536 ≤ msg.off + 2 := Nat.mod_le _ _
      omega
    | none =>
      have hf : ¬ (dc = true ∧ joinLabels (ToLower l :: ls.map ToLower) ∈ d.keys) :=
        (probe_eq_none_iff dc d _).1 hpr
      simp only [Bool.false_eq_true, if_false, openLabel, hd, hpos, decide_True, if_neg hf]
      obtain ⟨m2, d2, h1, h2, h3, h4, h5⟩ := packLoop_wf dc (ls.map ToLower) (ToLower l)
        ((joinLabels (ToLower l :: ls.map ToLower), msg.off) :: d) 0
        { msg with Packet := msg.Packet ++ [0],
                   dnameOff := some ((joinLabels (ToLower l :: ls.map ToLower), msg.off) :: d),
                   dname := joinLabels (ToLower l :: ls.map ToLower) }
        hl hls2 rfl (by simp; omega)
      have hk : Dict.keys ((joinLabels (ToLower l :: ls.map ToLower), msg.off) :: d)
          = joinLabels (ToLower l :: ls.map ToLower) :: d.keys := rfl
      rw [hk] at h1 h2 h5
      refine ⟨m2, d2, ?_, ?_, h3, h4, h5⟩
      · rw [h1]; simp
      · rw [h2]; simp; omega

/-! ### The walk over the suffixes -/

theorem specWalk_mono (dc : Bool) (ls : List (List Nat)) :
    ∀ (keys : List (List Nat)) (k : List Nat), k ∈ keys → k ∈ (specWalk dc keys ls).2 := by
  induction ls with
  | nil => intro keys k hk; exact hk
  | cons l ls ih =>
    intro keys k hk
    rw [specWalk_cons]
    split
    · exact hk
    · exact ih _ k (List.mem_cons_of_mem _ hk)

theorem specWalk_plain (ls : List (List Nat)) :
    ∀ keys : List (List Nat), (specWalk false keys ls).1 = (wireName ls).length := by
  induction ls with
  | nil => intro keys; rfl
  | cons l ls ih =>
    intro keys
    rw [specWalk_cons]
    simp [wireName, ih]
    omega

theorem wireName_length_pos (ls : List (List Nat)) : 1 ≤ (wireName ls).length := by
  cases ls <;> simp [wireName]

theorem wireName_length_append (p t : List (List Nat)) :
    (wireName (p ++ t)).length + 1 = (wireName p).length + (wireName t).length := by
  induction p with
  | nil => simp [wireName]; omega
  | cons l p ih => simp [wireName] at ih ⊢; omega

theorem wireName_length_ge (t : List (List Nat)) (ht : t ≠ []) (hl : ∀ x ∈ t, 0 < x.length) :
    3 ≤ (wireName t).length := by
  cases t with
  | nil => exact absurd rfl ht
  | cons l t =>
    have := hl l (List.mem_cons_self _ _)
    have := wireName_length_pos t
    simp [wireName]
    omega

/-- With a suffix already among the keys, the compressing walk writes at most the
labels before that suffix and the two pointer bytes. -/
theorem specWalk_le (t : List (List Nat)) (ht : t ≠ []) (p : List (List Nat)) :
    ∀ keys : List (List Nat), joinLabels t ∈ keys →
      (specWalk true keys (p ++ t)).1 + 1 ≤ (wireName p).length + 2 := by
  induction p with
  | nil =>
    intro keys hk
    cases t with
    | nil => exact absurd rfl ht
    | cons l t =>
      rw [List.nil_append, specWalk_cons, if_pos ⟨rfl, hk⟩]
      simp [wireName]
  | cons l p ih =>
    intro keys hk
    rw [List.cons_append, specWalk_cons]
    split
    · simp [wireName]
    · have := ih (joinLabels (l :: (p ++ t)) :: keys) (List.mem_cons_of_mem _ hk)
      simp only [wireName, List.length_cons, List.length_append] at this ⊢
      omega

theorem joinLabels_length_le_cons (l : List Nat) (ls : List (List Nat)) :
    (joinLabels ls).length ≤ (joinLabels (l :: ls)).length := by
  cases ls with
  | nil => simp [joinLabels]
  | cons l2 ls => rw [joinLabels_length_cons]; omega

theorem joinLabels_length_suffix (q t : List (List Nat)) :
    (joinLabels t).length ≤ (joinLabels (q ++ t)).length := by
  induction q with
  | nil => exact Nat.le_refl _
  | cons l q ih => exact Nat.le_trans ih (joinLabels_length_le_cons l (q ++ t))

/-- Coverage: if the keys are closed along the suffixes of the name, then after
the walk every non-empty label suffix of the name is a key. -/
theorem specWalk_covers (dc : Bool) (ls : List (List Nat)) :
    ∀ keys : List (List Nat),
      (∀ q p t : List (List Nat), t ≠ [] → ls = q ++ (p ++ t) →
        joinLabels (p ++ t) ∈ keys → joinLabels t ∈ keys) →
      ∀ q t : List (List Nat), t ≠ [] → ls = q ++ t →
        joinLabels t ∈ (specWalk dc keys ls).2 := by
  induction ls with
  | nil =>
    intro keys _ q t ht he
    have : t = [] := (List.append_eq_nil.1 he.symm).2
    exact absurd this ht
  | cons l ls ih =>
    intro keys H q t ht he
    rw [specWalk_cons]
    split
    · rename_i hf
      have := H [] q t ht (by simpa using he) (by rw [← he]; exact hf.2)
      exact this
    · cases q with
      | nil =>
        rw [List.nil_append] at he
        rw [← he]
        exact specWalk_mono dc ls _ _ (List.mem_cons_self _ _)
      | cons l0 q =>
        rw [List.cons_append, List.cons.injEq] at he
        refine ih _ ?_ q t ht he.2
        intro q2 p2 t2 ht2 he2 hm
        rcases List.mem_cons.1 hm with hm | hm
        · exfalso
          have h1 : (joinLabels (p2 ++ t2)).length ≤ (joinLabels ls).length := by
            rw [he2]; exact joinLabels_length_suffix q2 (p2 ++ t2)
          have hne : ls ≠ [] := by
            rw [he2]
            intro hc
            have := (List.append_eq_nil.1 (List.append_eq_nil.1 hc).2).2
            exact ht2 this
          have h2 : (joinLabels ls).length < (joinLabels (l :: ls)).length := by
            cases ls with
            | nil => exact absurd rfl hne
            | cons l2 ls => rw [joinLabels_length_cons]; omega
          rw [hm] at h1
          omega
        · exact List.mem_cons_of_mem _
            (H (l :: q2) p2 t2 ht2 (by rw [he2]; rfl) hm)

theorem wireName_length_map (ls : List (List Nat)) :
    (wireName (ls.map ToLower)).length = (wireName ls).length := by
  induction ls with
  | nil => rfl
  | cons l ls ih => simp [wireName, ToLower_length, ih]

theorem suffixClosed_nil : SuffixClosed [] := by
  intro p t _ _ h
  exact absurd h (List.not_mem_nil _)

/-! ### RDLENGTH backfill -/

theorem WriteUint16_field (p : List Nat) (x v : Nat) (hx : x + 1 < p.length) :
    ∃ p2, WriteUint16 p x v = some p2 ∧ p2.length = p.length
      ∧ (v < 65536 → rdField p2 x = v) := by
  unfold WriteUint16
  rw [if_pos hx]
  refine ⟨_, rfl, by simp, fun hv => ?_⟩
  unfold rdField
  have h1 : x < p.length := by omega
  simp only [List.getD_eq_getElem?_getD]
  rw [List.getElem?_set_ne (by omega), List.getElem?_set_eq_of_lt _ (by simpa using h1),
    List.getElem?_set_eq_of_lt _ (by simpa using hx)]
  simp only [Option.getD_some]
  omega

@[simp] theorem AppendUint16_length (p : List Nat) (v : Nat) :
    (AppendUint16 p v).length = p.length + 2 := by simp [AppendUint16]

@[simp] theorem AppendUint32_length (p : List Nat) (v : Nat) :
    (AppendUint32 p v).length = p.length + 4 := by simp [AppendUint32]

@[simp] theorem AppendInt16_length (p : List Nat) (v : Int) :
    (AppendInt16 p v).length = p.length + 2 := by simp [AppendInt16]

@[simp] theorem AppendInt32_length (p : List Nat) (v : Int) :
    (AppendInt32 p v).length = p.length + 4 := by simp [AppendInt32]

theorem specWalk_found (keys : List (List Nat)) (ls : List (List Nat)) (hne : ls ≠ [])
    (h : joinLabels ls ∈ keys) : (specWalk true keys ls).1 = 2 := by
  cases ls with
  | nil => exact absurd rfl hne
  | cons l ls => rw [specWalk_cons, if_pos ⟨rfl, h⟩]

theorem packTextAsDomain_rdlength (msg : Message) (d : Dict) (rr : ResourceRecord)
    (ls : List (List Nat)) (hd : msg.dnameOff = some d) (hoff : msg.off = msg.Packet.length)
    (hne : ls ≠ []) (hls : ∀ l ∈ ls, LabelN 254 l) (hname : rr.Text.v = joinLabels ls) :
    ∃ m2, packTextAsDomain msg rr = some m2
      ∧ m2.Packet.length
          = msg.Packet.length + 2 + (specWalk true d.keys (ls.map ToLower)).1
      ∧ ((specWalk true d.keys (ls.map ToLower)).1 < 65536 →
          rdField m2.Packet msg.Packet.length = (specWalk true d.keys (ls.map ToLower)).1) := by
  have hmod : (msg.off + 2) % 65536 ≤ msg.off + 2 := Nat.mod_le _ _
  obtain ⟨m1, d1, e1, e2, -, -, -⟩ := packDomainName_wf true ls
    { msg with Packet := AppendUint16 msg.Packet 0, off := (msg.off + 2) % 65536 } d hne hls hd
    (by simp only [AppendUint16_length]; omega)
  simp only [AppendUint16_length] at e2
  obtain ⟨p2, w1, w2, w3⟩ := WriteUint16_field m1.Packet msg.off
    ((specWalk true d.keys (ls.map ToLower)).1 % 65536) (by rw [e2, hoff]; omega)
  unfold packTextAsDomain
  simp only [hname, e1, w1]
  refine ⟨_, rfl, by simp only [w2, e2], fun hR => ?_⟩
  have := w3 (Nat.mod_lt _ (by decide))
  rw [Nat.mod_eq_of_lt hR, hoff] at this
  exact this

theorem packMX_rdlength (msg : Message) (d : Dict) (rr : ResourceRecord)
    (ls : List (List Nat)) (hd : msg.dnameOff = some d) (hoff : msg.off = msg.Packet.length)
    (hne : ls ≠ []) (hls : ∀ l ∈ ls, LabelN 254 l) (hname : rr.MX.Exchange = joinLabels ls) :
    ∃ m2, packMX msg rr = some m2
      ∧ m2.Packet.length
          = msg.Packet.length + 2 + ((specWalk true d.keys (ls.map ToLower)).1 + 2)
      ∧ ((specWalk true d.keys (ls.map ToLower)).1 + 2 < 65536 →
          rdField m2.Packet msg.Packet.length
            = (specWalk true d.keys (ls.map ToLower)).1 + 2) := by
  have hmod : ((msg.off + 2) % 65536 + 2) % 65536 ≤ msg.off + 4 :=
    Nat.le_trans (Nat.mod_le _ _) (by have := Nat.mod_le (msg.off + 2) 65536; omega)
  obtain ⟨m1, d1, e1, e2, -, -, -⟩ := packDomainName_wf true ls
    { msg with Packet := AppendInt16 (AppendUint16 msg.Packet 0) rr.MX.Preference,
               off := ((msg.off + 2) % 65536 + 2) % 65536 } d hne hls hd
    (by simp only [AppendUint16_length, AppendInt16_length]; omega)
  simp only [AppendUint16_length, AppendInt16_length] at e2
  obtain ⟨p2, w1, w2, w3⟩ := WriteUint16_field m1.Packet msg.off
    (((specWalk true d.keys (ls.map ToLower)).1 + 2) % 65536) (by rw [e2, hoff]; omega)
  unfold packMX
  simp only [hname, e1, w1]
  refine ⟨_, rfl, by simp only [w2, e2]; omega, fun hR => ?_⟩
  have := w3 (Nat.mod_lt _ (by decide))
  rw [Nat.mod_eq_of_lt hR, hoff] at this
  exact this

theorem packSRV_rdlength (msg : Message) (d : Dict) (rr : ResourceRecord)
    (ls : List (List Nat)) (hd : msg.dnameOff = some d) (hoff : msg.off = msg.Packet.length)
    (hne : ls ≠ []) (hls : ∀ l ∈ ls, LabelN 254 l) (hname : rr.SRV.Target = joinLabels ls) :
    ∃ m2, packSRV msg rr = some m2
      ∧ m2.Packet.length = msg.Packet.length + 2 + ((wireName ls).length + 6)
      ∧ ((wireName ls).length + 6 < 65536 →
          rdField m2.Packet msg.Packet.length = (wireName ls).length + 6) := by
  have hmod : ((((msg.off + 2) % 65536 + 2) % 65536 + 2) % 65536 + 2) % 65536 ≤ msg.off + 8 := by
    have h1 := Nat.mod_le (msg.off + 2) 65536
    have h2 := Nat.mod_le ((msg.off + 2) % 65536 + 2) 65536
    have h3 := Nat.mod_le (((msg.off + 2) % 65536 + 2) % 65536 + 2) 65536
    have h4 := Nat.mod_le ((((msg.off + 2) % 65536 + 2) % 65536 + 2) % 65536 + 2) 65536
    omega
  obtain ⟨m1, d1, e1, e2, -, -, -⟩ := packDomainName_wf false ls
    { msg with Packet := AppendUint16 (AppendUint16 (AppendUint16 (AppendUint16 msg.Packet 0)
                 rr.SRV.Priority) rr.SRV.Weight) rr.SRV.Port,
               off := ((((msg.off + 2) % 65536 + 2) % 65536 + 2) % 65536 + 2) % 65536 }
    d hne hls hd (by simp only [AppendUint16_length]; omega)
  rw [specWalk_plain, wireName_length_map] at e1 e2
  simp only [AppendUint16_length] at e2
  obtain ⟨p2, w1, w2, w3⟩ := WriteUint16_field m1.Packet msg.off
    (((wireName ls).length + 6) % 65536) (by rw [e2, hoff]; omega)
  unfold packSRV
  simp only [hname, e1, w1]
  refine ⟨_, rfl, by simp only [w2, e2]; omega, fun hR => ?_⟩
  have := w3 (Nat.mod_lt _ (by decide))
  rw [Nat.mod_eq_of_lt hR, hoff] at this
  exact this

theorem packMINFO_rdlength (msg : Message) (d : Dict) (rr : ResourceRecord)
    (ls1 ls2 : List (List Nat)) (hd : msg.dnameOff = some d)
    (hoff : msg.off = msg.Packet.length)
    (hne1 : ls1 ≠ []) (hls1 : ∀ l ∈ ls1, LabelN 254 l) (hn1 : rr.MInfo.RMailBox = joinLabels ls1)
    (hne2 : ls2 ≠ []) (hls2 : ∀ l ∈ ls2, LabelN 254 l)
    (hn2 : rr.MInfo.EmailBox = joinLabels ls2) :
    ∃ m2, packMINFO msg rr = some m2
      ∧ m2.Packet.length = msg.Packet.length + 2
          + ((specWalk true d.keys (ls1.map ToLower)).1
            + (specWalk true (specWalk true d.keys (ls1.map ToLower)).2 (ls2.map ToLower)).1)
      ∧ ((specWalk true d.keys (ls1.map ToLower)).1
            + (specWalk true (specWalk true d.keys (ls1.map ToLower)).2 (ls2.map ToLower)).1
              < 65536 →
          rdField m2.Packet msg.Packet.length
            = (specWalk true d.keys (ls1.map ToLower)).1
              + (specWalk true (specWalk true d.keys (ls1.map ToLower)).2
                  (ls2.map ToLower)).1) := by
  have hmod : (msg.off + 2) % 65536 ≤ msg.off + 2 := Nat.mod_le _ _
  obtain ⟨m1, d1, e1, e2, e3, e4, e5⟩ := packDomainName_wf true ls1
    { msg with Packet := AppendUint16 msg.Packet 0, off := (msg.off + 2) % 65536 } d hne1 hls1 hd
    (by simp only [AppendUint16_length]; omega)
  obtain ⟨m3, d3, f1, f2, -, -, -⟩ := packDomainName_wf true ls2 m1 d1 hne2 hls2 e4 e3
  rw [e5] at f1 f2
  simp only [AppendUint16_length] at e2
  rw [e2] at f2
  obtain ⟨p2, w1, w2, w3⟩ := WriteUint16_field m3.Packet msg.off
    (((specWalk true d.keys (ls1.map ToLower)).1
      + (specWalk true (specWalk true d.keys (ls1.map ToLower)).2 (ls2.map ToLower)).1) % 65536)
    (by rw [f2, hoff]; omega)
  unfold packMINFO
  simp only [hn1, hn2, e1, f1, w1]
  refine ⟨_, rfl, by simp only [w2, f2]; omega, fun hR => ?_⟩
  have := w3 (Nat.mod_lt _ (by decide))
  rw [Nat.mod_eq_of_lt hR, hoff] at this
  exact this

theorem packSOA_rdlength (msg : Message) (d : Dict) (rr : ResourceRecord)
    (ls1 ls2 : List (List Nat)) (hd : msg.dnameOff = some d)
    (hoff : msg.off = msg.Packet.length)
    (hne1 : ls1 ≠ []) (hls1 : ∀ l ∈ ls1, LabelN 254 l) (hn1 : rr.SOA.MName = joinLabels ls1)
    (hne2 : ls2 ≠ []) (hls2 : ∀ l ∈ ls2, LabelN 254 l) (hn2 : rr.SOA.RName = joinLabels ls2) :
    ∃ m2, packSOA msg rr = some m2
      ∧ m2.Packet.length = msg.Packet.length + 2
          + ((specWalk true d.keys (ls1.map ToLower)).1
            + (specWalk true (specWalk true d.keys (ls1.map ToLower)).2 (ls2.map ToLower)).1
            + 20)
      ∧ ((specWalk true d.keys (ls1.map ToLower)).1
            + (specWalk true (specWalk true d.keys (ls1.map ToLower)).2 (ls2.map ToLower)).1
            + 20 < 65536 →
          rdField m2.Packet msg.Packet.length
            = (specWalk true d.keys (ls1.map ToLower)).1
              + (specWalk true (specWalk true d.keys (ls1.map ToLower)).2
                  (ls2.map ToLower)).1 + 20) := by
  have hmod : (msg.off + 2) % 65536 ≤ msg.off + 2 := Nat.mod_le _ _
  obtain ⟨m1, d1, e1, e2, e3, e4, e5⟩ := packDomainName_wf true ls1
    { msg with Packet := AppendUint16 msg.Packet 0, off := (msg.off + 2) % 65536 } d hne1 hls1 hd
    (by simp only [AppendUint16_length]; omega)
  obtain ⟨m3, d3, f1, f2, -, -, -⟩ := packDomainName_wf true ls2 m1 d1 hne2 hls2 e4 e3
  rw [e5] at f1 f2
  simp only [AppendUint16_length] at e2
  rw [e2] at f2
  obtain ⟨p2, w1, w2, w3⟩ := WriteUint16_field
    (AppendUint32 (AppendInt32 (AppendInt32 (AppendInt32
      (AppendUint32 m3.Packet rr.SOA.Serial) rr.SOA.Refresh) rr.SOA.Retry) rr.SOA.Expire)
      rr.SOA.Minimum) msg.off
    (((specWalk true d.keys (ls1.map ToLower)).1
      + (specWalk true (specWalk true d.keys (ls1.map ToLower)).2 (ls2.map ToLower)).1 + 20)
        % 65536)
    (by simp only [AppendUint32_length, AppendInt32_length, f2, hoff]; omega)
  unfold packSOA
  simp only [hn1, hn2, e1, f1, w1]
  refine ⟨_, rfl, ?_, fun hR => ?_⟩
  · simp only [w2, AppendUint32_length, AppendInt32_length, f2]; omega
  · have := w3 (Nat.mod_lt _ (by decide))
    rw [Nat.mod_eq_of_lt hR, hoff] at this
    exact this

/-! ### Independence of the dictionary without compression -/

theorem packFinish_shown (ne : Bool) (count n : Nat) (a b : Message)
    (hp : a.Packet = b.Packet) (ho : a.off = b.off) :
    shown (packFinish ne count n a) = shown (packFinish ne count n b) := by
  unfold packFinish shown
  rw [hp, ho]
  by_cases hc : 0 < count
  · simp only [hc, if_true]
    cases setByte b.Packet b.off count <;> cases ne <;> simp [ho]
  · simp only [hc, if_false]
    cases ne <;> simp [hp, ho]

theorem packLoop_shown (ne : Bool) (rest : List Nat) :
    ∀ (count n : Nat) (a b : Message), a.Packet = b.Packet → a.off = b.off →
      a.dnameOff.isSome = b.dnameOff.isSome →
      shown (packLoop false ne rest count n a) = shown (packLoop false ne rest count n b) := by
  induction rest with
  | nil =>
    intro count n a b hp ho _
    exact packFinish_shown ne count n a b hp ho
  | cons c rest ih =>
    intro count n a b hp ho hd
    rw [packLoop, packLoop]
    by_cases h46 : c = 46
    · by_cases h0 : count = 0
      · simp only [h46, h0, if_true]
        exact ih _ _ a b hp ho hd
      · simp only [h46, h0, if_true, if_false, compressIf, Bool.false_eq_true, hp, ho]
        cases hs : setByte b.Packet b.off count with
        | none => rfl
        | some p =>
          simp only [openLabel]
          cases ha : a.dnameOff with
          | none =>
            cases hb : b.dnameOff with
            | none => rfl
            | some db => rw [ha, hb] at hd; exact absurd hd (by simp)
          | some da =>
            cases hb : b.dnameOff with
            | none => rw [ha, hb] at hd; exact absurd hd (by simp)
            | some db =>
              simp only
              exact ih _ _ _ _ rfl rfl rfl
    · simp only [h46, if_false]
      exact ih _ _ _ _ (by simp [hp]) ho hd

/-- Without compression the bytes written, the cursor and the count do not
depend on what the dictionary holds. -/
theorem packDomainName_shown (a b : Message) (dname : List Nat)
    (hp : a.Packet = b.Packet) (ho : a.off = b.off)
    (hd : a.dnameOff.isSome = b.dnameOff.isSome) :
    shown (packDomainName a dname false) = shown (packDomainName b dname false) := by
  unfold packDomainName
  simp only [compressIf, Bool.false_eq_true, if_false, openLabel]
  cases ha : a.dnameOff with
  | none =>
    cases hb : b.dnameOff with
    | none => rfl
    | some db => rw [ha, hb] at hd; exact absurd hd (by simp)
  | some da =>
    cases hb : b.dnameOff with
    | none => rw [ha, hb] at hd; exact absurd hd (by simp)
    | some db =>
      simp only
      exact packLoop_shown _ _ _ _ _ _ (by simp [hp]) ho rfl

theorem packSRV_dict_free (a b : Message) (rr : ResourceRecord)
    (hp : a.Packet = b.Packet) (ho : a.off = b.off)
    (hd : a.dnameOff.isSome = b.dnameOff.isSome) :
    (packSRV a rr).map (fun m => (m.Packet, m.off))
      = (packSRV b rr).map (fun m => (m.Packet, m.off)) := by
  unfold packSRV
  have h := packDomainName_shown
    { a with Packet := AppendUint16 (AppendUint16 (AppendUint16 (AppendUint16 a.Packet 0)
                 rr.SRV.Priority) rr.SRV.Weight) rr.SRV.Port,
             off := ((((a.off + 2) % 65536 + 2) % 65536 + 2) % 65536 + 2) % 65536 }
    { b with Packet := AppendUint16 (AppendUint16 (AppendUint16 (AppendUint16 b.Packet 0)
                 rr.SRV.Priority) rr.SRV.Weight) rr.SRV.Port,
             off := ((((b.off + 2) % 65536 + 2) % 65536 + 2) % 65536 + 2) % 65536 }
    rr.SRV.Target (by simp [hp]) (by simp [ho]) hd
  simp only
  revert h
  cases packDomainName _ rr.SRV.Target false with
  | none =>
    cases packDomainName _ rr.SRV.Target false with
    | none => intro _; rfl
    | some y => intro h; simp [shown] at h
  | some x =>
    cases packDomainName _ rr.SRV.Target false with
    | none => intro h; simp [shown] at h
    | some y =>
      intro h
      simp only [shown, Option.map_some', Option.some.injEq, Prod.mk.injEq] at h
      obtain ⟨h1, h2, h3⟩ := h
      simp only [h1, h3, ho]
      cases WriteUint16 y.1.Packet b.off ((y.2 + 6) % 65536) <;> simp [h2]

/-! ### Exact bytes of the payload encoders -/

theorem be16_mod (v : Nat) : be16 (v % 65536) = be16 v := by
  unfold be16
  congr 1
  · omega
  · congr 1; omega

theorem AppendUint16_eq (p : List Nat) (v : Nat) : AppendUint16 p v = p ++ be16 v := rfl

theorem WriteUint16_reserved (P rest : List Nat) (a b v : Nat) :
    WriteUint16 (P ++ a :: b :: rest) P.length v = some (P ++ be16 v ++ rest) := by
  unfold WriteUint16
  rw [if_pos (by simp)]
  congr 1
  rw [List.set_append_right _ _ (Nat.le_refl _), Nat.sub_self,
    List.set_append_right _ _ (by omega)]
  simp [be16]

theorem wireName_length_join (ls : List (List Nat)) (hne : ls ≠ []) :
    (wireName ls).length = (joinLabels ls).length + 2 := by
  induction ls with
  | nil => exact absurd rfl hne
  | cons l ls ih =>
    cases ls with
    | nil => simp [wireName, joinLabels]
    | cons l2 ls =>
      have := ih (by simp)
      rw [joinLabels_length_cons]
      simp only [wireName, List.length_cons, List.length_append] at this ⊢
      omega

theorem Dict.get_cons_ne (d : Dict) (k0 k : List Nat) (v : Nat)
    (h : k0.length ≠ k.length) : Dict.get ((k0, v) :: d) k = d.get k := by
  have : k0 ≠ k := fun e => h (by rw [e])
  simp [Dict.get, this]

/-- When the first suffix of the name found in the dictionary is `t`, at offset
`o`, the compressing encoder writes the labels before `t` and the pointer. -/
theorem encodeLabels_pointer (t : List (List Nat)) (ht : t ≠ []) (o : Nat)
    (p : List (List Nat)) :
    ∀ (d : Dict) (pos : Nat), d.get (joinLabels t) = some o →
      (∀ q r : List (List Nat), p = q ++ r → r ≠ [] → d.get (joinLabels (r ++ t)) = none) →
      (encodeLabels true d pos (p ++ t)).1 = labelBytes p ++ pointerBytes o := by
  induction p with
  | nil =>
    intro d pos hg _
    cases t with
    | nil => exact absurd rfl ht
    | cons l t =>
      rw [List.nil_append, encodeLabels_cons]
      simp [probe, hg, labelBytes]
  | cons l p ih =>
    intro d pos hg hnone
    have hn0 := hnone [] (l :: p) rfl (by simp)
    have hpt : p ++ t ≠ [] := fun h => ht (List.append_eq_nil.1 h).2
    have hlen : (joinLabels (p ++ t)).length < (joinLabels (l :: (p ++ t))).length := by
      cases hq : p ++ t with
      | nil => exact absurd hq hpt
      | cons l2 ls => rw [joinLabels_length_cons]; omega
    rw [List.cons_append, encodeLabels_cons]
    simp only [probe, if_true]
    rw [List.cons_append] at hn0
    rw [hn0]
    simp only [labelBytes, List.cons_append, List.append_assoc]
    rw [ih]
    · rw [Dict.get_cons_ne, hg]
      have := joinLabels_length_suffix p t
      omega
    · intro q r he hr
      rw [Dict.get_cons_ne]
      · exact hnone (l :: q) r (by rw [he]; rfl) hr
      · have : (joinLabels (r ++ t)).length ≤ (joinLabels (p ++ t)).length := by
          rw [he, List.append_assoc]; exact joinLabels_length_suffix q (r ++ t)
        omega

theorem packSRV_exact (msg : Message) (d : Dict) (rr : ResourceRecord) (ls : List (List Nat))
    (hd : msg.dnameOff = some d) (hoff : msg.off = msg.Packet.length)
    (hne : ls ≠ []) (hls : ∀ l ∈ ls, LabelN 254 l) (hname : rr.SRV.Target = joinLabels ls)
    (hfit : msg.Packet.length + 8 + (joinLabels ls).length + 2 ≤ 65536) :
    ∃ m2, packSRV msg rr = some m2
      ∧ m2.Packet = msg.Packet ++ be16 ((wireName ls).length + 6) ++ be16 rr.SRV.Priority
          ++ be16 rr.SRV.Weight ++ be16 rr.SRV.Port ++ wireName (ls.map ToLower) := by
  have ho : ((((msg.off + 2) % 65536 + 2) % 65536 + 2) % 65536 + 2) % 65536
      = msg.Packet.length + 8 := by omega
  obtain ⟨m1, e1, e2, -, -⟩ := packDomainName_exact false ls
    { msg with Packet := AppendUint16 (AppendUint16 (AppendUint16 (AppendUint16 msg.Packet 0)
                 rr.SRV.Priority) rr.SRV.Weight) rr.SRV.Port,
               off := ((((msg.off + 2) % 65536 + 2) % 65536 + 2) % 65536 + 2) % 65536 }
    d hne hls hd (by simp only [AppendUint16_length]; omega)
    (by simp only [AppendUint16_length]; omega)
  rw [encodeLabels_plain] at e1 e2
  rw [wireName_length_map] at e1
  unfold packSRV
  simp only [hname, e1]
  have hp : m1.Packet = msg.Packet ++ 0 :: 0 :: (be16 rr.SRV.Priority ++ be16 rr.SRV.Weight
      ++ be16 rr.SRV.Port ++ wireName (ls.map ToLower)) := by
    rw [e2]; simp [AppendUint16, be16]
  rw [hp, hoff, WriteUint16_reserved, be16_mod]
  exact ⟨_, rfl, by simp⟩

theorem packTextAsDomain_exact (msg : Message) (d : Dict) (rr : ResourceRecord)
    (ls : List (List Nat))
    (hd : msg.dnameOff = some d) (hoff : msg.off = msg.Packet.length)
    (hne : ls ≠ []) (hls : ∀ l ∈ ls, LabelN 254 l) (hname : rr.Text.v = joinLabels ls)
    (hfit : msg.Packet.length + 2 + (joinLabels ls).length + 2 ≤ 65536) :
    ∃ m2, packTextAsDomain msg rr = some m2
      ∧ m2.Packet = msg.Packet
          ++ be16 (encodeLabels true d (msg.Packet.length + 2) (ls.map ToLower)).1.length
          ++ (encodeLabels true d (msg.Packet.length + 2) (ls.map ToLower)).1 := by
  have ho : (msg.off + 2) % 65536 = msg.Packet.length + 2 := by omega
  obtain ⟨m1, e1, e2, -, -⟩ := packDomainName_exact true ls
    { msg with Packet := AppendUint16 msg.Packet 0, off := (msg.off + 2) % 65536 }
    d hne hls hd (by simp only [AppendUint16_length]; omega)
    (by simp only [AppendUint16_length]; omega)
  simp only [AppendUint16_length] at e1 e2
  unfold packTextAsDomain
  simp only [hname, e1]
  have hp : m1.Packet = msg.Packet ++ 0 :: 0 ::
      (encodeLabels true d (msg.Packet.length + 2) (ls.map ToLower)).1 := by
    rw [e2]; simp [AppendUint16]
  rw [hp, hoff, WriteUint16_reserved, be16_mod]
  exact ⟨_, rfl, by simp⟩

/-! ### Frame of the record encoders -/

theorem Frame.of_eq {a b c : Message} (h : Frame a b) (hh : c.Header = b.Header)
    (hq : c.Question = b.Question) (h1 : c.Answer = b.Answer) (h2 : c.Authority = b.Authority)
    (h3 : c.Additional = b.Additional) : Frame a c :=
  ⟨h.1.trans hh.symm, h.2.1.trans hq.symm, h.2.2.1.trans h1.symm, h.2.2.2.1.trans h2.symm,
    h.2.2.2.2.trans h3.symm⟩

theorem packTextAsDomain_frame {msg m2 : Message} {rr : ResourceRecord}
    (h : packTextAsDomain msg rr = some m2) : Frame msg m2 := by
  unfold packTextAsDomain at h
  simp only at h
  split at h
  · exact absurd h (by simp)
  · rename_i m1 n hp
    have f := packDomainName_frame hp
    split at h
    · exact absurd h (by simp)
    · simp only [Option.some.injEq] at h
      subst h
      exact f

theorem packMX_frame {msg m2 : Message} {rr : ResourceRecord}
    (h : packMX msg rr = some m2) : Frame msg m2 := by
  unfold packMX at h
  simp only at h
  split at h
  · exact absurd h (by simp)
  · rename_i m1 n hp
    have f := packDomainName_frame hp
    split at h
    · exact absurd h (by simp)
    · simp only [Option.some.injEq] at h
      subst h
      exact f

theorem packSRV_frame {msg m2 : Message} {rr : ResourceRecord}
    (h : packSRV msg rr = some m2) : Frame msg m2 := by
  unfold packSRV at h
  simp only at h
  split at h
  · exact absurd h (by simp)
  · rename_i m1 n hp
    have f := packDomainName_frame hp
    split at h
    · exact absurd h (by simp)
    · simp only [Option.some.injEq] at h
      subst h
      exact f

theorem packMINFO_frame {msg m2 : Message} {rr : ResourceRecord}
    (h : packMINFO msg rr = some m2) : Frame msg m2 := by
  unfold packMINFO at h
  simp only at h
  split at h
  · exact absurd h (by simp)
  · rename_i m1 n hp
    have f := packDomainName_frame hp
    split at h
    · exact absurd h (by simp)
    · rename_i m3 n3 hp3
      have f3 := packDomainName_frame hp3
      split at h
      · exact absurd h (by simp)
      · simp only [Option.some.injEq] at h
        subst h
        exact Frame.trans f f3

theorem packSOA_frame {msg m2 : Message} {rr : ResourceRecord}
    (h : packSOA msg rr = some m2) : Frame msg m2 := by
  unfold packSOA at h
  simp only at h
  split at h
  · exact absurd h (by simp)
  · rename_i m1 n hp
    have f := packDomainName_frame hp
    split at h
    · exact absurd h (by simp)
    · rename_i m3 n3 hp3
      have f3 := packDomainName_frame hp3
      split at h
      · exact absurd h (by simp)
      · simp only [Option.some.injEq] at h
        subst h
        exact Frame.trans f f3

theorem packA_frame {env : Collab} {msg m2 : Message} {rr : ResourceRecord}
    (h : packA env msg rr = some m2) : Frame msg m2 := by
  unfold packA at h
  simp only at h
  split at h
  · exact absurd h (by simp)
  · simp only [Option.some.injEq] at h
    subst h
    exact ⟨rfl, rfl, rfl, rfl, rfl⟩

theorem packAAAA_frame {env : Collab} {msg m2 : Message} {rr : ResourceRecord}
    (h : packAAAA env msg rr = some m2) : Frame msg m2 := by
  unfold packAAAA at h
  simp only at h
  split at h
  · exact absurd h (by simp)
  · simp only [Option.some.injEq] at h
    subst h
    exact ⟨rfl, rfl, rfl, rfl, rfl⟩

theorem packWKS_frame {msg m2 : Message} {rr : ResourceRecord}
    (h : packWKS msg rr = some m2) : Frame msg m2 := by
  unfold packWKS at h
  simp only at h
  split at h
  · exact absurd h (by simp)
  · simp only [Option.some.injEq] at h
    subst h
    exact ⟨rfl, rfl, rfl, rfl, rfl⟩

theorem packHINFO_frame {msg m2 : Message} {rr : ResourceRecord}
    (h : packHINFO msg rr = some m2) : Frame msg m2 := by
  unfold packHINFO at h
  simp only [Option.some.injEq] at h
  subst h
  exact ⟨rfl, rfl, rfl, rfl, rfl⟩

theorem packTXT_frame {msg m2 : Message} {rr : ResourceRecord}
    (h : packTXT msg rr = some m2) : Frame msg m2 := by
  unfold packTXT at h
  simp only [Option.some.injEq] at h
  subst h
  exact ⟨rfl, rfl, rfl, rfl, rfl⟩

theorem packOPT_frame {msg m2 : Message} {rr : ResourceRecord}
    (h : packOPT msg rr = some m2) : Frame msg m2 := by
  unfold packOPT at h
  simp only at h
  split at h
  · simp only [Option.some.injEq] at h
    subst h
    exact ⟨rfl, rfl, rfl, rfl, rfl⟩
  · split at h
    · exact absurd h (by simp)
    · split at h
      · exact absurd h (by simp)
      · simp only [Option.some.injEq] at h
        subst h
        exact ⟨rfl, rfl, rfl, rfl, rfl⟩

theorem Frame.of_some {msg m2 : Message} (h : some msg = some m2) : Frame msg m2 := by
  simp only [Option.some.injEq] at h
  subst h
  exact Frame.refl _

theorem frame_ite {c : Prop} [Decidable c] {x y : Option Message} {msg m2 : Message}
    (hx : x = some m2 → Frame msg m2) (hy : y = some m2 → Frame msg m2)
    (h : (if c then x else y) = some m2) : Frame msg m2 := by
  split at h
  · exact hx h
  · exact hy h

theorem packRData_frame {env : Collab} {msg m2 : Message} {rr : ResourceRecord}
    (h : packRData env msg rr = some m2) : Frame msg m2 := by
  unfold packRData at h
  exact (frame_ite (fun e => packA_frame e)
    (frame_ite (fun e => packTextAsDomain_frame e)
    (frame_ite Frame.of_some
    (frame_ite Frame.of_some
    (frame_ite (fun e => packTextAsDomain_frame e)
    (frame_ite (fun e => packSOA_frame e)
    (frame_ite (fun e => packTextAsDomain_frame e)
    (frame_ite (fun e => packTextAsDomain_frame e)
    (frame_ite (fun e => packTextAsDomain_frame e)
    (frame_ite (fun e => packTextAsDomain_frame e)
    (frame_ite (fun e => packWKS_frame e)
    (frame_ite (fun e => packTextAsDomain_frame e)
    (frame_ite (fun e => packHINFO_frame e)
    (frame_ite (fun e => packMINFO_frame e)
    (frame_ite (fun e => packMX_frame e)
    (frame_ite (fun e => packTXT_frame e)
    (frame_ite (fun e => packSRV_frame e)
    (frame_ite (fun e => packAAAA_frame e)
    (frame_ite (fun e => packOPT_frame e)
    (Frame.of_some)))))))))))))))))))) h

theorem packRR_frame {env : Collab} {msg m2 : Message} {rr : ResourceRecord}
    (h : packRR env msg rr = some m2) : Frame msg m2 := by
  unfold packRR at h
  simp only at h
  split at h
  · exact absurd h (by simp)
  · rename_i m1 hn
    have f1 : Frame msg m1 := by
      split at hn
      · simp only [Option.some.injEq] at hn
        subst hn
        exact ⟨rfl, rfl, rfl, rfl, rfl⟩
      · split at hn
        · exact absurd hn (by simp)
        · rename_i m n hp
          simp only [Option.some.injEq] at hn
          subst hn
          exact packDomainName_frame hp
    refine Frame.trans ?_ (packRData_frame h)
    exact f1

theorem packRRs_frame {env : Collab} (rrs : List ResourceRecord) :
    ∀ {msg m2 : Message}, packRRs env msg rrs = some m2 → Frame msg m2 := by
  induction rrs with
  | nil =>
    intro msg m2 h
    simp only [packRRs, Option.some.injEq] at h
    subst h
    exact Frame.refl _
  | cons rr rrs ih =>
    intro msg m2 h
    rw [packRRs] at h
    split at h
    · exact absurd h (by simp)
    · rename_i m1 h1
      exact Frame.trans (packRR_frame h1) (ih h)

/-- Whenever `MarshalBinary` returns, the header it leaves is the caller's header
with the three record counts replaced by the list lengths, and the lists keep
their lengths. -/
theorem MarshalBinary_header {env : Collab} {msg msg2 : Message} {r : Option (List Nat)}
    (h : MarshalBinary env msg = some (msg2, r)) :
    msg2.Header = countedHeader msg ∧ msg2.Answer.length = msg.Answer.length
      ∧ msg2.Authority.length = msg.Authority.length
      ∧ msg2.Additional.length = msg.Additional.length := by
  rw [MarshalBinary_eq] at h
  split at h
  · simp only [Option.some.injEq, Prod.mk.injEq] at h
    obtain ⟨h, -⟩ := h
    subst h
    exact ⟨rfl, rfl, rfl, rfl⟩
  · rename_i header hh
    split at h
    · exact absurd h (by simp)
    · rename_i mq hq
      have fq : Frame (headerState msg header) mq := packQuestion_frame hq
      simp only at h
      split at h
      · simp only [Option.some.injEq, Prod.mk.injEq] at h
        obtain ⟨h, -⟩ := h
        subst h
        exact ⟨fq.1.symm, by rw [← fq.2.2.1]; rfl, by rw [← fq.2.2.2.1]; rfl,
          by rw [← fq.2.2.2.2]; rfl⟩
      · split at h
        · exact absurd h (by simp)
        · rename_i m4 h4
          have f4 := packRRs_frame _ h4
          split at h
          · exact absurd h (by simp)
          · rename_i m5 h5
            have f5 := packRRs_frame _ h5
            split at h
            · exact absurd h (by simp)
            · rename_i m6 h6
              have f6 := packRRs_frame _ h6
              simp only [Option.some.injEq, Prod.mk.injEq] at h
              obtain ⟨h, -⟩ := h
              subst h
              have f : Frame m4 m6 := Frame.trans f5 f6
              refine ⟨?_, ?_, ?_, ?_⟩
              · exact (f.1.symm.trans f4.1.symm).trans fq.1.symm
              · simp only [List.length_map]
                rw [← f.2.2.1, ← f4.2.2.1, ← fq.2.2.1]; rfl
              · simp only [List.length_map]
                rw [← f.2.2.2.1, ← f4.2.2.2.1, ← fq.2.2.2.1]; rfl
              · simp only [List.length_map]
                rw [← f.2.2.2.2, ← f4.2.2.2.2, ← fq.2.2.2.2]; rfl

theorem WriteUint16_drop (p : List Nat) (x v k : Nat) (hx : x + 1 < p.length) (hk : x + 1 < k) :
    ∃ p2, WriteUint16 p x v = some p2 ∧ p2.length = p.length ∧ p2.drop k = p.drop k := by
  unfold WriteUint16
  rw [if_pos hx]
  refine ⟨_, rfl, by simp, ?_⟩
  rw [List.drop_set_of_lt _ _ hk, List.drop_set_of_lt _ _ (by omega)]

/-! ### Suffix closure is kept -/

theorem plain_split (l l2 r r2 : List Nat) (hl : ∀ c ∈ l, PlainByte c)
    (hl2 : ∀ c ∈ l2, PlainByte c) (hr : r = [] ∨ ∃ x, r = 46 :: x)
    (hr2 : r2 = [] ∨ ∃ x, r2 = 46 :: x) (h : l ++ r = l2 ++ r2) : l = l2 ∧ r = r2 := by
  induction l generalizing l2 with
  | nil =>
    cases l2 with
    | nil => exact ⟨rfl, by simpa using h⟩
    | cons c l2 =>
      exfalso
      have hc := (hl2 c (List.mem_cons_self _ _)).1
      rcases hr with hr | ⟨x, hr⟩
      · rw [hr] at h; simp at h
      · rw [hr] at h
        simp only [List.nil_append, List.cons_append, List.cons.injEq] at h
        exact hc h.1.symm
  | cons c l ih =>
    cases l2 with
    | nil =>
      exfalso
      have hc := (hl c (List.mem_cons_self _ _)).1
      rcases hr2 with hr2 | ⟨x, hr2⟩
      · rw [hr2] at h; simp at h
      · rw [hr2] at h
        simp only [List.nil_append, List.cons_append, List.cons.injEq] at h
        exact hc h.1
    | cons c2 l2 =>
      simp only [List.cons_append, List.cons.injEq] at h
      obtain ⟨e1, e2⟩ := ih l2 (fun x hx => hl x (List.mem_cons_of_mem _ hx))
        (fun x hx => hl2 x (List.mem_cons_of_mem _ hx)) h.2
      exact ⟨by rw [h.1, e1], e2⟩

theorem joinLabels_cons_eq (l : List Nat) (ls : List (List Nat)) :
    ∃ r, joinLabels (l :: ls) = l ++ r ∧ (r = [] ∨ ∃ x, r = 46 :: x)
      ∧ (ls = [] → r = []) ∧ (ls ≠ [] → r = 46 :: joinLabels ls) := by
  cases ls with
  | nil => exact ⟨[], by simp [joinLabels], Or.inl rfl, fun _ => rfl, fun h => absurd rfl h⟩
  | cons l2 ls =>
    exact ⟨46 :: joinLabels (l2 :: ls), rfl, Or.inr ⟨_, rfl⟩, fun h => absurd h (by simp),
      fun _ => rfl⟩

/-- Names of well-formed labels are determined by their text. -/
theorem joinLabels_injective (a : List (List Nat)) :
    ∀ b : List (List Nat), (∀ x ∈ a, PlainLabel x) → (∀ x ∈ b, PlainLabel x) →
      joinLabels a = joinLabels b → a = b := by
  induction a with
  | nil =>
    intro b _ hb h
    cases b with
    | nil => rfl
    | cons l b =>
      exfalso
      obtain ⟨r, e, -, -, -⟩ := joinLabels_cons_eq l b
      have hpos := (hb l (List.mem_cons_self _ _)).1
      rw [e] at h
      have hnil : l = [] := (List.append_eq_nil.1 h.symm).1
      rw [hnil] at hpos
      exact absurd hpos (by decide)
  | cons l a ih =>
    intro b ha hb h
    cases b with
    | nil =>
      exfalso
      obtain ⟨r, e, -, -, -⟩ := joinLabels_cons_eq l a
      have hpos := (ha l (List.mem_cons_self _ _)).1
      rw [e] at h
      have hnil : l = [] := (List.append_eq_nil.1 h).1
      rw [hnil] at hpos
      exact absurd hpos (by decide)
    | cons l2 b =>
      obtain ⟨r, e, hr, hr0, hr1⟩ := joinLabels_cons_eq l a
      obtain ⟨r2, e2, hr2, hr20, hr21⟩ := joinLabels_cons_eq l2 b
      rw [e, e2] at h
      obtain ⟨k1, k2⟩ := plain_split l l2 r r2 (ha l (List.mem_cons_self _ _)).2.2
        (hb l2 (List.mem_cons_self _ _)).2.2 hr hr2 h
      subst k1
      by_cases hane : a = []
      · by_cases hbne : b = []
        · rw [hane, hbne]
        · exfalso
          rw [hr0 hane, hr21 hbne] at k2
          exact absurd k2 (by simp)
      · by_cases hbne : b = []
        · exfalso
          rw [hr1 hane, hr20 hbne] at k2
          exact absurd k2 (by simp)
        · rw [hr1 hane, hr21 hbne] at k2
          simp only [List.cons.injEq, true_and] at k2
          rw [ih b (fun x hx => ha x (List.mem_cons_of_mem _ hx))
            (fun x hx => hb x (List.mem_cons_of_mem _ hx)) k2]

/-- Keys added by the walk are texts of non-empty label suffixes of the name. -/
theorem specWalk_new (dc : Bool) (ls : List (List Nat)) :
    ∀ (keys : List (List Nat)) (k : List Nat), k ∈ (specWalk dc keys ls).2 →
      k ∈ keys ∨ ∃ q t : List (List Nat), t ≠ [] ∧ ls = q ++ t ∧ k = joinLabels t := by
  induction ls with
  | nil => intro keys k hk; exact Or.inl hk
  | cons l ls ih =>
    intro keys k hk
    rw [specWalk_cons] at hk
    split at hk
    · exact Or.inl hk
    · rcases ih _ k hk with h | ⟨q, t, ht, he, hj⟩
      · rcases List.mem_cons.1 h with h | h
        · exact Or.inr ⟨[], l :: ls, by simp, rfl, h⟩
        · exact Or.inl h
      · exact Or.inr ⟨l :: q, t, ht, by rw [he]; rfl, hj⟩

/-- The walk over a well-formed name keeps the keys suffix-closed. -/
theorem specWalk_closed (dc : Bool) (ls keys : List (List Nat))
    (hls : ∀ x ∈ ls, PlainLabel x) (hcl : SuffixClosed keys) :
    SuffixClosed (specWalk dc keys ls).2 := by
  have hcov := specWalk_covers dc ls keys (by
    intro q p t ht he hm
    refine hcl p t ?_ ht hm
    intro x hx
    exact hls x (by rw [he]; exact List.mem_append_right _ hx))
  intro p t hpt ht hm
  rcases specWalk_new dc ls keys _ hm with h | ⟨q, u, hu, he, hj⟩
  · exact specWalk_mono dc ls keys _ (hcl p t hpt ht h)
  · have huw : ∀ x ∈ u, PlainLabel x := fun x hx =>
      hls x (by rw [he]; exact List.mem_append_right _ hx)
    have := joinLabels_injective (p ++ t) u hpt huw hj
    exact hcov (q ++ p) t ht (by rw [he, ← this, List.append_assoc])

/-! ### Count-driven decoding -/

theorem unpackSection_eq (env : Decoders) (packet : List Nat) (k : Nat) :
    ∀ (idx : Nat) (acc : List ResourceRecord),
      unpackSection env packet k idx acc
        = (acc ++ (decodeRecords env packet k idx).1, (decodeRecords env packet k idx).2) := by
  induction k with
  | zero => intro idx acc; simp [unpackSection, decodeRecords]
  | succ k ih =>
    intro idx acc
    rw [unpackSection, decodeRecords]
    rcases h : env.rrUnpack packet idx with ⟨rr, i, e⟩
    cases e with
    | none => simp [ih]
    | some err => simp

theorem decodeRecords_length (env : Decoders) (packet : List Nat) (n : Nat) :
    ∀ idx, (decodeRecords env packet n idx).1.length ≤ n
      ∧ ((decodeRecords env packet n idx).2.2 = none →
          (decodeRecords env packet n idx).1.length = n) := by
  induction n with
  | zero => intro idx; simp [decodeRecords]
  | succ n ih =>
    intro idx
    rw [decodeRecords]
    split
    · have := ih (env.rrUnpack packet idx).2.1
      simp only [List.length_cons]
      exact ⟨by omega, fun h => by rw [this.2 h]⟩
    · rename_i hne
      exact ⟨by simp, fun h => absurd h hne⟩

theorem decodeRecords_add (env : Decoders) (packet : List Nat) (a b : Nat) :
    ∀ idx, decodeRecords env packet (a + b) idx
      = if (decodeRecords env packet a idx).2.2 = none then
          ((decodeRecords env packet a idx).1
              ++ (decodeRecords env packet b (decodeRecords env packet a idx).2.1).1,
            (decodeRecords env packet b (decodeRecords env packet a idx).2.1).2)
        else decodeRecords env packet a idx := by
  induction a with
  | zero => intro idx; simp [decodeRecords]
  | succ a ih =>
    intro idx
    rw [show a + 1 + b = (a + b) + 1 by omega, decodeRecords, decodeRecords]
    by_cases h : (env.rrUnpack packet idx).2.2 = none
    · simp only [h, if_true]
      rw [ih]
      split <;> simp
    · simp [h]

theorem unpackSection_congr (e1 e2 : Decoders) (h : e1.rrUnpack = e2.rrUnpack)
    (packet : List Nat) (k : Nat) :
    ∀ (idx : Nat) (acc : List ResourceRecord),
      unpackSection e1 packet k idx acc = unpackSection e2 packet k idx acc := by
  induction k with
  | zero => intro idx acc; rfl
  | succ k ih =>
    intro idx acc
    rw [unpackSection, unpackSection, h]
    rcases env : e2.rrUnpack packet idx with ⟨rr, i, e⟩
    cases e with
    | none => simp [ih]
    | some err => simp

/-- What `UnmarshalBinary` returns, in terms of the three runs of the record
decoder. -/
theorem UnmarshalBinary_eq (env : Decoders) (msg : Message) (packet : List Nat) :
    UnmarshalBinary env msg packet =
      (let m1 := UnpackHeaderQuestion env { msg with Packet := packet }
       let a := decodeRecords env packet m1.Header.ANCount (recordsStart env msg packet)
       let b := decodeRecords env packet m1.Header.NSCount a.2.1
       let c := decodeRecords env packet m1.Header.ARCount b.2.1
       if a.2.2 = none then
         if b.2.2 = none then
           ({ m1 with Answer := m1.Answer ++ a.1, Authority := m1.Authority ++ b.1
                      Additional := m1.Additional ++ c.1 }, c.2.2)
         else ({ m1 with Answer := m1.Answer ++ a.1, Authority := m1.Authority ++ b.1 }, b.2.2)
       else ({ m1 with Answer := m1.Answer ++ a.1 }, a.2.2)) := by
  unfold UnmarshalBinary recordsStart
  simp only [unpackSection_eq]
  rcases ha : decodeRecords env packet
    (UnpackHeaderQuestion env { msg with Packet := packet }).Header.ANCount
    (sectionHeaderSize
      + env.questionSize (UnpackHeaderQuestion env { msg with Packet := packet }).Question)
    with ⟨ra, ia, ea⟩
  cases ea with
  | some e => simp
  | none =>
    simp only [if_true]
    rcases hb : decodeRecords env packet
      (UnpackHeaderQuestion env { msg with Packet := packet }).Header.NSCount ia
      with ⟨rb, ib, eb⟩
    cases eb with
    | some e => simp
    | none =>
      simp only [if_true]
      rcases hc : decodeRecords env packet
        (UnpackHeaderQuestion env { msg with Packet := packet }).Header.ARCount ib
        with ⟨rc, ic, ec⟩
      cases ec <;> simp

theorem take_drop_three {α : Type} (a b c : List α) (x y : Nat) (ha : a.length = x)
    (hb : b.length ≤ y) (hc : b.length < y → c = []) :
    (a ++ b ++ c).take x = a ∧ ((a ++ b ++ c).drop x).take y = b
      ∧ (a ++ b ++ c).drop (x + y) = c := by
  subst ha
  have h1 : (a ++ b ++ c).take a.length = a := by
    rw [List.append_assoc, List.take_left]
  have h2 : (a ++ b ++ c).drop a.length = b ++ c := by
    rw [List.append_assoc, List.drop_left]
  refine ⟨h1, ?_, ?_⟩
  · rw [h2]
    rcases Nat.lt_or_ge b.length y with h | h
    · rw [hc h, List.append_nil, List.take_of_length_le (by omega)]
    · have : b.length = y := by omega
      rw [← this, List.take_left]
  · rw [← List.drop_drop, h2]
    rcases Nat.lt_or_ge b.length y with h | h
    · rw [hc h, List.append_nil, List.drop_of_length_le (by omega)]
    · have : b.length = y := by omega
      rw [← this, List.drop_left]

/-- The three lists and the error that `UnmarshalBinary` leaves, read off the one
run of records that the header counts call for. -/
theorem UnmarshalBinary_stream (env : Decoders) (msg : Message) (packet : List Nat) :
    (UnmarshalBinary env msg packet).1.Header = decodedHeader env msg packet
      ∧ (UnmarshalBinary env msg packet).2 = (recordStream env msg packet).2.2
      ∧ (UnmarshalBinary env msg packet).1.Answer
          = msg.Answer ++ (recordStream env msg packet).1.take
              (decodedHeader env msg packet).ANCount
      ∧ (UnmarshalBinary env msg packet).1.Authority
          = msg.Authority ++ ((recordStream env msg packet).1.drop
              (decodedHeader env msg packet).ANCount).take
                (decodedHeader env msg packet).NSCount
      ∧ (UnmarshalBinary env msg packet).1.Additional
          = msg.Additional ++ (recordStream env msg packet).1.drop
              ((decodedHeader env msg packet).ANCount
                + (decodedHeader env msg packet).NSCount) := by
  have hA : (UnpackHeaderQuestion env { msg with Packet := packet }).Answer = msg.Answer := by
    unfold UnpackHeaderQuestion; simp only; split <;> rfl
  have hB : (UnpackHeaderQuestion env { msg with Packet := packet }).Authority
      = msg.Authority := by
    unfold UnpackHeaderQuestion; simp only; split <;> rfl
  have hC : (UnpackHeaderQuestion env { msg with Packet := packet }).Additional
      = msg.Additional := by
    unfold UnpackHeaderQuestion; simp only; split <;> rfl
  rw [UnmarshalBinary_eq]
  unfold recordStream decodedHeader
  generalize hm : UnpackHeaderQuestion env { msg with Packet := packet } = m1 at hA hB hC ⊢
  generalize recordsStart env msg packet = start
  simp only
  rw [decodeRecords_add, decodeRecords_add]
  have la := decodeRecords_length env packet m1.Header.ANCount start
  have lb := decodeRecords_length env packet m1.Header.NSCount
    (decodeRecords env packet m1.Header.ANCount start).2.1
  have lc := decodeRecords_length env packet m1.Header.ARCount
    (decodeRecords env packet m1.Header.NSCount
      (decodeRecords env packet m1.Header.ANCount start).2.1).2.1
  generalize decodeRecords env packet m1.Header.ANCount start = a at la lb lc ⊢
  generalize decodeRecords env packet m1.Header.NSCount a.2.1 = b at lb lc ⊢
  by_cases ha : a.2.2 = none
  · by_cases hb : b.2.2 = none
    · simp only [ha, hb, if_true]
      generalize decodeRecords env packet m1.Header.ARCount b.2.1 = c at lc ⊢
      obtain ⟨t1, t2, t3⟩ := take_drop_three a.1 b.1 c.1 _ _ (la.2 ha) lb.1
        (fun h => absurd (lb.2 hb) (by omega))
      rw [t1, t2, t3, hA, hB, hC]
      simp
    · simp only [ha, hb, if_true, if_false]
      obtain ⟨t1, t2, t3⟩ := take_drop_three a.1 b.1 [] m1.Header.ANCount
        m1.Header.NSCount (la.2 ha) lb.1 (fun _ => rfl)
      rw [List.append_nil] at t1 t2 t3
      rw [t1, t2, t3, hA, hB, hC]
      simp
  · simp only [ha, if_false]
    rw [List.take_of_length_le la.1, List.drop_of_length_le la.1,
      List.drop_of_length_le (by omega), hA, hB, hC]
    simp

theorem decodeRecords_short (env : Decoders) (packet : List Nat) (n : Nat) :
    ∀ idx, (decodeRecords env packet n idx).2.2 ≠ none →
      (decodeRecords env packet n idx).1.length < n := by
  induction n with
  | zero => intro idx h; simp [decodeRecords] at h
  | succ n ih =>
    intro idx h
    rw [decodeRecords] at h ⊢
    split
    · rename_i hok
      simp only [hok, if_true] at h
      have := ih _ h
      simp only [List.length_cons]
      omega
    · simp

theorem UnpackHeaderQuestion_quiet (env : Decoders) (msg : Message) :
    UnpackHeaderQuestion (Decoders.quiet env) msg = UnpackHeaderQuestion env msg := rfl

/-! ### The dictionary only grows -/

theorem grows_refl (a : Message) : Grows a a := fun _ hd => ⟨[], hd⟩

theorem grows_of_eq {a b : Message} (h : b.dnameOff = a.dnameOff) : Grows a b :=
  fun d hd => ⟨[], by rw [h, hd]; rfl⟩

theorem grows_trans {a b c : Message} (h1 : Grows a b) (h2 : Grows b c) : Grows a c := by
  intro d hd
  obtain ⟨e1, k1⟩ := h1 d hd
  obtain ⟨e2, k2⟩ := h2 _ k1
  exact ⟨e2 ++ e1, by rw [k2, List.append_assoc]⟩

theorem grows_keys {a b : Message} {d d2 : Dict} (h : Grows a b) (hd : a.dnameOff = some d)
    (hd2 : b.dnameOff = some d2) : ∀ k ∈ d.keys, k ∈ d2.keys := by
  obtain ⟨ext, he⟩ := h d hd
  rw [hd2, Option.some.injEq] at he
  subst he
  intro k hk
  simp only [Dict.keys, List.map_append, List.mem_append]
  exact Or.inr hk

theorem compressIf_grows (dc : Bool) {a msg : Message} (h : Grows a msg) :
    Grows a (compressIf dc msg).1 := by
  rw [compressIf_eq]
  cases probe dc (msg.dnameOff.getD []) msg.dname <;> exact h

theorem openLabel_grows {a msg msg2 : Message} (hf : Grows a msg)
    (h : openLabel msg = some msg2) : Grows a msg2 := by
  unfold openLabel at h
  cases hd : msg.dnameOff with
  | none => simp [hd] at h
  | some d =>
    simp only [hd, Option.some.injEq] at h
    subst h
    intro d0 hd0
    obtain ⟨ext, he⟩ := hf d0 hd0
    rw [hd, Option.some.injEq] at he
    exact ⟨(msg.dname, msg.off) :: ext, by simp [he]⟩

theorem packFinish_grows {ne : Bool} {count n : Nat} {msg : Message} {r : Message × Nat}
    (h : packFinish ne count n msg = some r) : Grows msg r.1 := by
  unfold packFinish at h
  by_cases hc : 0 < count
  · simp only [hc, if_true] at h
    cases hs : setByte msg.Packet msg.off count with
    | none => simp [hs] at h
    | some p =>
      simp only [hs] at h
      cases ne <;> simp at h <;> subst h <;> exact grows_of_eq rfl
  · simp only [hc, if_false] at h
    cases ne <;> simp at h <;> subst h <;> exact grows_of_eq rfl

theorem packLoop_grows (dc ne : Bool) (rest : List Nat) :
    ∀ (count n : Nat) (a msg : Message) (r : Message × Nat), Grows a msg →
      packLoop dc ne rest count n msg = some r → Grows a r.1 := by
  induction rest with
  | nil =>
    intro count n a msg r hf h
    exact grows_trans hf (packFinish_grows h)
  | cons c rest ih =>
    intro count n a msg r hf h
    rw [packLoop] at h
    by_cases hc : c = 46
    · simp only [hc, if_true] at h
      by_cases h0 : count = 0
      · simp only [h0, if_true] at h
        exact ih _ _ _ _ _ hf h
      · simp only [h0, if_false] at h
        split at h
        · exact absurd h (by simp)
        · split at h
          · simp only [Option.some.injEq] at h
            subst h
            exact compressIf_grows dc (by exact hf)
          · split at h
            · exact absurd h (by simp)
            · rename_i m2 ho
              exact ih _ _ _ _ _ (openLabel_grows (compressIf_grows dc (by exact hf)) ho) h
    · simp only [hc, if_false] at h
      exact ih _ _ _ _ _ (by exact hf) h

theorem packDomainName_grows {msg : Message} {dname : List Nat} {dc : Bool} {r : Message × Nat}
    (h : packDomainName msg dname dc = some r) : Grows msg r.1 := by
  unfold packDomainName at h
  have hf : Grows msg { msg with dname := ToLower dname } := grows_of_eq rfl
  simp only at h
  split at h
  · simp only [Option.some.injEq] at h
    subst h
    exact compressIf_grows dc hf
  · split at h
    · exact absurd h (by simp)
    · rename_i m2 ho
      exact packLoop_grows _ _ _ _ _ _ _ _ (openLabel_grows (compressIf_grows dc hf) ho) h

theorem packQuestion_grows {msg m2 : Message} (h : packQuestion msg = some m2) :
    Grows msg m2 := by
  unfold packQuestion at h
  split at h
  · exact absurd h (by simp)
  · rename_i m1 n hp
    simp only [Option.some.injEq] at h
    subst h
    exact packDomainName_grows hp

theorem packTextAsDomain_grows {msg m2 : Message} {rr : ResourceRecord}
    (h : packTextAsDomain msg rr = some m2) : Grows msg m2 := by
  unfold packTextAsDomain at h
  simp only at h
  split at h
  · exact absurd h (by simp)
  · rename_i m1 n hp
    have f := packDomainName_grows hp
    split at h
    · exact absurd h (by simp)
    · simp only [Option.some.injEq] at h
      subst h
      exact f

theorem packMX_grows {msg m2 : Message} {rr : ResourceRecord}
    (h : packMX msg rr = some m2) : Grows msg m2 := by
  unfold packMX at h
  simp only at h
  split at h
  · exact absurd h (by simp)
  · rename_i m1 n hp
    have f := packDomainName_grows hp
    split at h
    · exact absurd h (by simp)
    · simp only [Option.some.injEq] at h
      subst h
      exact f

theorem packSRV_grows {msg m2 : Message} {rr : ResourceRecord}
    (h : packSRV msg rr = some m2) : Grows msg m2 := by
  unfold packSRV at h
  simp only at h
  split at h
  · exact absurd h (by simp)
  · rename_i m1 n hp
    have f := packDomainName_grows hp
    split at h
    · exact absurd h (by simp)
    · simp only [Option.some.injEq] at h
      subst h
      exact f

theorem packMINFO_grows {msg m2 : Message} {rr : ResourceRecord}
    (h : packMINFO msg rr = some m2) : Grows msg m2 := by
  unfold packMINFO at h
  simp only at h
  split at h
  · exact absurd h (by simp)
  · rename_i m1 n hp
    have f := packDomainName_grows hp
    split at h
    · exact absurd h (by simp)
    · rename_i m3 n3 hp3
      have f3 := packDomainName_grows hp3
      split at h
      · exact absurd h (by simp)
      · simp only [Option.some.injEq] at h
        subst h
        exact grows_trans f f3

theorem packSOA_grows {msg m2 : Message} {rr : ResourceRecord}
    (h : packSOA msg rr = some m2) : Grows msg m2 := by
  unfold packSOA at h
  simp only at h
  split at h
  · exact absurd h (by simp)
  · rename_i m1 n hp
    have f := packDomainName_grows hp
    split at h
    · exact absurd h (by simp)
    · rename_i m3 n3 hp3
      have f3 := packDomainName_grows hp3
      split at h
      · exact absurd h (by simp)
      · simp only [Option.some.injEq] at h
        subst h
        exact grows_trans f f3

theorem packA_grows {env : Collab} {msg m2 : Message} {rr : ResourceRecord}
    (h : packA env msg rr = some m2) : Grows msg m2 := by
  unfold packA at h
  simp only at h
  split at h
  · exact absurd h (by simp)
  · simp only [Option.some.injEq] at h
    subst h
    exact grows_of_eq rfl

theorem packAAAA_grows {env : Collab} {msg m2 : Message} {rr : ResourceRecord}
    (h : packAAAA env msg rr = some m2) : Grows msg m2 := by
  unfold packAAAA at h
  simp only at h
  split at h
  · exact absurd h (by simp)
  · simp only [Option.some.injEq] at h
    subst h
    exact grows_of_eq rfl

theorem packWKS_grows {msg m2 : Message} {rr : ResourceRecord}
    (h : packWKS msg rr = some m2) : Grows msg m2 := by
  unfold packWKS at h
  simp only at h
  split at h
  · exact absurd h (by simp)
  · simp only [Option.some.injEq] at h
    subst h
    exact grows_of_eq rfl

theorem packHINFO_grows {msg m2 : Message} {rr : ResourceRecord}
    (h : packHINFO msg rr = some m2) : Grows msg m2 := by
  unfold packHINFO at h
  simp only [Option.some.injEq] at h
  subst h
  exact grows_of_eq rfl

theorem packTXT_grows {msg m2 : Message} {rr : ResourceRecord}
    (h : packTXT msg rr = some m2) : Grows msg m2 := by
  unfold packTXT at h
  simp only [Option.some.injEq] at h
  subst h
  exact grows_of_eq rfl

theorem packOPT_grows {msg m2 : Message} {rr : ResourceRecord}
    (h : packOPT msg rr = some m2) : Grows msg m2 := by
  unfold packOPT at h
  simp only at h
  split at h
  · simp only [Option.some.injEq] at h
    subst h
    exact grows_of_eq rfl
  · split at h
    · exact absurd h (by simp)
    · split at h
      · exact absurd h (by simp)
      · simp only [Option.some.injEq] at h
        subst h
        exact grows_of_eq rfl

theorem grows_of_some {msg m2 : Message} (h : some msg = some m2) : Grows msg m2 := by
  simp only [Option.some.injEq] at h
  subst h
  exact grows_refl _

theorem grows_ite {c : Prop} [Decidable c] {x y : Option Message} {msg m2 : Message}
    (hx : x = some m2 → Grows msg m2) (hy : y = some m2 → Grows msg m2)
    (h : (if c then x else y) = some m2) : Grows msg m2 := by
  split at h
  · exact hx h
  · exact hy h

theorem packRData_grows {env : Collab} {msg m2 : Message} {rr : ResourceRecord}
    (h : packRData env msg rr = some m2) : Grows msg m2 := by
  unfold packRData at h
  exact (grows_ite (fun e => packA_grows e)
    (grows_ite (fun e => packTextAsDomain_grows e)
    (grows_ite grows_of_some
    (grows_ite grows_of_some
    (grows_ite (fun e => packTextAsDomain_grows e)
    (grows_ite (fun e => packSOA_grows e)
    (grows_ite (fun e => packTextAsDomain_grows e)
    (grows_ite (fun e => packTextAsDomain_grows e)
    (grows_ite (fun e => packTextAsDomain_grows e)
    (grows_ite (fun e => packTextAsDomain_grows e)
    (grows_ite (fun e => packWKS_grows e)
    (grows_ite (fun e => packTextAsDomain_grows e)
    (grows_ite (fun e => packHINFO_grows e)
    (grows_ite (fun e => packMINFO_grows e)
    (grows_ite (fun e => packMX_grows e)
    (grows_ite (fun e => packTXT_grows e)
    (grows_ite (fun e => packSRV_grows e)
    (grows_ite (fun e => packAAAA_grows e)
    (grows_ite (fun e => packOPT_grows e)
    (grows_of_some)))))))))))))))))))) h

theorem packRR_grows {env : Collab} {msg m2 : Message} {rr : ResourceRecord}
    (h : packRR env msg rr = some m2) : Grows msg m2 := by
  unfold packRR at h
  simp only at h
  split at h
  · exact absurd h (by simp)
  · rename_i m1 hn
    have f1 : Grows msg m1 := by
      split at hn
      · simp only [Option.some.injEq] at hn
        subst hn
        exact grows_of_eq rfl
      · split at hn
        · exact absurd hn (by simp)
        · rename_i m n hp
          simp only [Option.some.injEq] at hn
          subst hn
          exact packDomainName_grows hp
    refine grows_trans ?_ (packRData_grows h)
    exact f1

theorem packRRs_grows {env : Collab} (rrs : List ResourceRecord) :
    ∀ {msg m2 : Message}, packRRs env msg rrs = some m2 → Grows msg m2 := by
  induction rrs with
  | nil =>
    intro msg m2 h
    simp only [packRRs, Option.some.injEq] at h
    subst h
    exact grows_refl _
  | cons rr rrs ih =>
    intro msg m2 h
    rw [packRRs] at h
    split at h
    · exact absurd h (by simp)
    · rename_i m1 h1
      exact grows_trans (packRR_grows h1) (ih h)

/-! ### The dictionary between operations -/

theorem MarshalBinary_dict {env : Collab} {msg m2 : Message} {r : Option (List Nat)}
    (h : MarshalBinary env msg = some (m2, r)) : m2.dnameOff = none := by
  rw [MarshalBinary_eq] at h
  split at h
  · simp only [Option.some.injEq, Prod.mk.injEq] at h
    obtain ⟨h, -⟩ := h
    subst h
    rfl
  · split at h
    · exact absurd h (by simp)
    · simp only at h
      split at h
      · simp only [Option.some.injEq, Prod.mk.injEq] at h
        obtain ⟨h, -⟩ := h
        subst h
        rfl
      · split at h
        · exact absurd h (by simp)
        · split at h
          · exact absurd h (by simp)
          · split at h
            · exact absurd h (by simp)
            · simp only [Option.some.injEq, Prod.mk.injEq] at h
              obtain ⟨h, -⟩ := h
              subst h
              rfl

theorem ResetRR_dict (m : Message) : (ResetRR m).dnameOff = m.dnameOff := by
  unfold ResetRR
  simp only
  split <;> split <;> split <;> rfl

theorem UnpackHeaderQuestion_dict (env : Decoders) (m : Message) :
    (UnpackHeaderQuestion env m).dnameOff = m.dnameOff := by
  unfold UnpackHeaderQuestion
  simp only
  split <;> rfl

theorem UnmarshalBinary_dict (env : Decoders) (m : Message) (packet : List Nat) :
    (UnmarshalBinary env m packet).1.dnameOff = m.dnameOff := by
  rw [UnmarshalBinary_eq]
  simp only
  split
  · split
    · exact UnpackHeaderQuestion_dict env _
    · exact UnpackHeaderQuestion_dict env _
  · exact UnpackHeaderQuestion_dict env _

theorem SetID_dict {m m2 : Message} {id : Nat} (h : SetID m id = some m2) :
    m2.dnameOff = m.dnameOff := by
  unfold SetID at h
  simp only at h
  split at h
  · split at h
    · exact absurd h (by simp)
    · simp only [Option.some.injEq] at h
      subst h
      rfl
  · simp only [Option.some.injEq] at h
    subst h
    rfl

theorem Reachable.dict {enc : Collab} {dec : Decoders} {rs : Resets} {m : Message}
    (h : Reachable enc dec rs m) : m.dnameOff = none := by
  induction h with
  | zero => rfl
  | assign _ _ _ _ _ _ _ ih => exact ih
  | reset _ _ => rfl
  | resetRR _ ih => rw [ResetRR_dict]; exact ih
  | marshal _ hm _ => exact MarshalBinary_dict hm
  | unmarshal _ _ ih => rw [UnmarshalBinary_dict]; exact ih
  | unpackHeaderQuestion _ ih => rw [UnpackHeaderQuestion_dict]; exact ih
  | setID _ _ hs ih => rw [SetID_dict hs]; exact ih

theorem MarshalBinary_of_nil (env : Collab) (m : Message) (h : m.dnameOff = none) :
    MarshalBinary env m = MarshalBinary env { m with dnameOff := some [] } := by
  obtain ⟨hd, q, an, au, ad, p, o, d, dn⟩ := m
  simp only at h
  subst h
  rfl

/-! ### The name encoder returns from every state of an encode pass -/

theorem packFinish_returns (ne : Bool) (count n : Nat) (msg : Message)
    (hI : msg.off + count + 1 ≤ msg.Packet.length) :
    ∃ m2 n2, packFinish ne count n msg = some (m2, n2)
      ∧ m2.off ≤ m2.Packet.length ∧ m2.dnameOff = msg.dnameOff := by
  unfold packFinish setByte
  have hlt : msg.off < msg.Packet.length := by omega
  have hm : (msg.off + (count + 1) % 256) % 65536 ≤ msg.off + count + 1 :=
    Nat.le_trans (Nat.mod_le _ _) (by have := Nat.mod_le (count + 1) 256; omega)
  have h1 : (msg.off + 1) % 65536 ≤ msg.off + 1 := Nat.mod_le _ _
  have h2 : ((msg.off + (count + 1) % 256) % 65536 + 1) % 65536
      ≤ (msg.off + (count + 1) % 256) % 65536 + 1 := Nat.mod_le _ _
  by_cases hc : 0 < count <;> cases ne <;> simp only [hc, hlt, if_true, if_false]
  all_goals exact ⟨_, _, rfl, by first | omega | (simp; omega), rfl⟩

theorem packLoop_returns (dc ne : Bool) (rest : List Nat) :
    ∀ (count n : Nat) (msg : Message), msg.dnameOff.isSome = true →
      msg.off + count + 1 ≤ msg.Packet.length →
      ∃ m2 n2, packLoop dc ne rest count n msg = some (m2, n2)
        ∧ m2.off ≤ m2.Packet.length ∧ m2.dnameOff.isSome = true := by
  induction rest with
  | nil =>
    intro count n msg hd hI
    obtain ⟨m2, n2, h1, h2, h3⟩ := packFinish_returns ne count n msg hI
    exact ⟨m2, n2, h1, h2, by rw [h3]; exact hd⟩
  | cons c rest ih =>
    intro count n msg hd hI
    rw [packLoop]
    by_cases h46 : c = 46
    · by_cases h0 : count = 0
      · simp only [h46, h0, if_true]
        subst h0
        exact ih 0 n msg hd hI
      · have hlt : msg.off < msg.Packet.length := by omega
        obtain ⟨d, hd2⟩ := Option.isSome_iff_exists.1 hd
        have hm : (msg.off + (count + 1) % 256) % 65536 ≤ msg.off + count + 1 :=
          Nat.le_trans (Nat.mod_le _ _) (by have := Nat.mod_le (count + 1) 256; omega)
        simp only [h46, h0, if_true, if_false, setByte, hlt, compressIf_eq, hd2,
          Option.getD_some]
        cases hp : probe dc d rest with
        | some o =>
          simp only [if_true]
          refine ⟨_, _, rfl, ?_, by simp [hd2]⟩
          have := Nat.mod_le ((msg.off + (count + 1) % 256) % 65536 + 2) 65536
          simp [pointerBytes]
          omega
        | none =>
          simp only [Bool.false_eq_true, if_false, openLabel, hd2]
          exact ih 0 _ _ rfl (by simp; omega)
    · simp only [h46, if_false]
      exact ih ((count + 1) % 256) n _ hd
        (by simp; have := Nat.mod_le (count + 1) 256; omega)

theorem packDomainName_returns (msg : Message) (dname : List Nat) (dc : Bool)
    (hd : msg.dnameOff.isSome = true) (hoff : msg.off ≤ msg.Packet.length) :
    ∃ m2 n2, packDomainName msg dname dc = some (m2, n2)
      ∧ m2.off ≤ m2.Packet.length ∧ m2.dnameOff.isSome = true := by
  obtain ⟨d, hd2⟩ := Option.isSome_iff_exists.1 hd
  unfold packDomainName
  simp only [compressIf_eq, hd2, Option.getD_some]
  cases hp : probe dc d (ToLower dname) with
  | some o =>
    simp only [if_true]
    refine ⟨_, _, rfl, ?_, by simp [hd2]⟩
    have := Nat.mod_le (msg.off + 2) 65536
    simp [pointerBytes]
    omega
  | none =>
    simp only [Bool.false_eq_true, if_false, openLabel, hd2]
    exact packLoop_returns dc _ _ 0 0 _ rfl (by simp; omega)

/-! ### Empty labels before content -/

theorem lowerByte_eq_dot (c : Nat) : lowerByte c = 46 ↔ c = 46 := by
  unfold lowerByte
  split <;> omega

theorem hasLabel_ToLower (s : List Nat) : hasLabel (ToLower s) = hasLabel s := by
  induction s with
  | nil => rfl
  | cons c s ih =>
    unfold hasLabel at ih ⊢
    simp only [ToLower, List.map_cons, List.any_cons] at ih ⊢
    rw [ih]
    congr 1
    simp only [decide_eq_decide]
    exact not_congr (lowerByte_eq_dot c)

theorem ToLower_squeezeFrom (s : List Nat) :
    ∀ start, ToLower (squeezeFrom start s) = squeezeFrom start (ToLower s) := by
  induction s with
  | nil => intro start; rfl
  | cons c s ih =>
    intro start
    rw [ToLower_cons, squeezeFrom, squeezeFrom, hasLabel_ToLower]
    by_cases h : c = 46
    · have h2 : lowerByte c = 46 := (lowerByte_eq_dot c).2 h
      simp only [h, h2, if_true]
      split
      · exact ih true
      · rw [ToLower_cons, ih true]; rfl
    · have h2 : ¬ lowerByte c = 46 := fun e => h ((lowerByte_eq_dot c).1 e)
      simp only [h, h2, if_false]
      rw [ToLower_cons, ih false]

theorem squeezeFrom_of_hasLabel (s : List Nat) :
    ∀ start, hasLabel s = true → squeezeFrom start s ≠ [] := by
  induction s with
  | nil => intro start h; simp [hasLabel] at h
  | cons c s ih =>
    intro start h
    rw [squeezeFrom]
    by_cases hc : c = 46
    · simp only [hc, if_true]
      split
      · rename_i hs
        simp only [Bool.and_eq_true] at hs
        exact ih true hs.2
      · simp
    · simp [hc]

theorem squeezeFrom_eq_nil (s : List Nat) (start : Bool) :
    squeezeFrom start s = [] ↔ s = [] := by
  cases s with
  | nil => simp [squeezeFrom]
  | cons c s =>
    rw [squeezeFrom]
    by_cases hc : c = 46
    · simp only [hc, if_true]
      split
      · rename_i hs
        simp only [Bool.and_eq_true] at hs
        simp [squeezeFrom_of_hasLabel s true hs.2]
      · simp
    · simp [hc]

theorem packLoop_squeeze (ne : Bool) (s : List Nat) :
    ∀ (start : Bool) (count n : Nat) (a b : Message), (start = true → count = 0) →
      a.Packet = b.Packet → a.off = b.off → a.dnameOff.isSome = b.dnameOff.isSome →
      shown (packLoop false ne (squeezeFrom start s) count n a)
        = shown (packLoop false ne s count n b) := by
  induction s with
  | nil =>
    intro start count n a b _ hp ho _
    exact packFinish_shown ne count n a b hp ho
  | cons c rest ih =>
    intro start count n a b hst hp ho hd
    rw [squeezeFrom]
    by_cases h46 : c = 46
    · simp only [h46, if_true]
      by_cases hs : (start && hasLabel rest) = true
      · simp only [hs, if_true]
        simp only [Bool.and_eq_true] at hs
        have h0 : count = 0 := hst hs.1
        subst h0
        rw [packLoop]
        simp only [if_true]
        exact ih true 0 n a b (fun _ => rfl) hp ho hd
      · simp only [hs, Bool.false_eq_true, if_false]
        rw [packLoop, packLoop]
        by_cases h0 : count = 0
        · simp only [h0, if_true]
          exact ih true _ _ a b (fun _ => rfl) hp ho hd
        · simp only [h0, if_true, if_false, compressIf, Bool.false_eq_true, hp, ho]
          cases hsb : setByte b.Packet b.off count with
          | none => rfl
          | some p =>
            simp only [openLabel]
            cases ha : a.dnameOff with
            | none =>
              cases hb : b.dnameOff with
              | none => rfl
              | some db => rw [ha, hb] at hd; exact absurd hd (by simp)
            | some da =>
              cases hb : b.dnameOff with
              | none => rw [ha, hb] at hd; exact absurd hd (by simp)
              | some db =>
                simp only
                exact ih true _ _ _ _ (fun _ => rfl) rfl rfl rfl
    · simp only [h46, if_false]
      rw [packLoop, packLoop]
      simp only [h46, if_false]
      exact ih false _ _ _ _ (fun h => absurd h (by simp)) (by simp [hp]) ho hd

/-- Without compression a name and the name without its empty labels that precede
content give the same packet, cursor and count, from any two states that agree
on packet and cursor. -/
theorem packDomainName_squeeze (a b : Message) (dname : List Nat)
    (hp : a.Packet = b.Packet) (ho : a.off = b.off)
    (hd : a.dnameOff.isSome = b.dnameOff.isSome) :
    shown (packDomainName a (squeeze dname) false) = shown (packDomainName b dname false) := by
  unfold packDomainName
  have hne : decide (0 < (ToLower (squeeze dname)).length)
      = decide (0 < (ToLower dname).length) := by
    rw [ToLower_length, ToLower_length]
    have := squeezeFrom_eq_nil dname true
    unfold squeeze
    cases hq : squeezeFrom true dname with
    | nil =>
      rw [this.1 hq]
    | cons x xs =>
      cases hn : dname with
      | nil => rw [hn] at hq; simp [squeezeFrom] at hq
      | cons y ys => simp
  simp only [compressIf, Bool.false_eq_true, if_false, openLabel]
  rw [hne]
  cases ha : a.dnameOff with
  | none =>
    cases hb : b.dnameOff with
    | none => rfl
    | some db => rw [ha, hb] at hd; exact absurd hd (by simp)
  | some da =>
    cases hb : b.dnameOff with
    | none => rw [ha, hb] at hd; exact absurd hd (by simp)
    | some db =>
      simp only
      unfold squeeze
      rw [ToLower_squeezeFrom]
      exact packLoop_squeeze _ _ true 0 0 _ _ (fun _ => rfl) (by simp [hp]) ho rfl

theorem shown_eq_some {r : Option (Message × Nat)} {p : List Nat} {o n : Nat}
    (h : shown r = some (p, o, n)) : ∃ m, r = some (m, n) ∧ m.Packet = p ∧ m.off = o := by
  cases r with
  | none => simp [shown] at h
  | some x =>
    simp only [shown, Option.map_some', Option.some.injEq, Prod.mk.injEq] at h
    obtain ⟨h1, h2, h3⟩ := h
    exact ⟨x.1, by rw [← h3], h1, h2⟩

/-! ### Compressed writes keep the recorded offsets -/

theorem keeps_refl (a : Message) : Keeps a a := fun d hd => ⟨d, hd, fun _ _ h => h⟩

theorem keeps_of_eq {a b : Message} (h : b.dnameOff = a.dnameOff) : Keeps a b :=
  fun d hd => ⟨d, by rw [h, hd], fun _ _ h => h⟩

theorem keeps_trans {a b c : Message} (h1 : Keeps a b) (h2 : Keeps b c) : Keeps a c := by
  intro d hd
  obtain ⟨d1, k1, g1⟩ := h1 d hd
  obtain ⟨d2, k2, g2⟩ := h2 d1 k1
  exact ⟨d2, k2, fun k o h => g2 k o (g1 k o h)⟩

theorem keeps_cons {a msg m2 : Message} {d : Dict} {key : List Nat} {v : Nat}
    (hf : Keeps a msg) (hd : msg.dnameOff = some d) (hk : d.get key = none)
    (h2 : m2.dnameOff = some ((key, v) :: d)) : Keeps a m2 := by
  intro d0 hd0
  obtain ⟨d1, k1, g1⟩ := hf d0 hd0
  rw [hd, Option.some.injEq] at k1
  subst k1
  refine ⟨_, h2, fun k o h => ?_⟩
  have hg := g1 k o h
  have hne : key ≠ k := fun e => by rw [e, hg] at hk; exact absurd hk (by simp)
  simp [Dict.get, hne, hg]

theorem packFinish_keeps {ne : Bool} {count n : Nat} {msg : Message} {r : Message × Nat}
    (h : packFinish ne count n msg = some r) : Keeps msg r.1 := by
  unfold packFinish at h
  by_cases hc : 0 < count
  · simp only [hc, if_true] at h
    cases hs : setByte msg.Packet msg.off count with
    | none => simp [hs] at h
    | some p =>
      simp only [hs] at h
      cases ne <;> simp at h <;> subst h <;> exact keeps_of_eq rfl
  · simp only [hc, if_false] at h
    cases ne <;> simp at h <;> subst h <;> exact keeps_of_eq rfl

theorem packLoop_keeps (ne : Bool) (rest : List Nat) :
    ∀ (count n : Nat) (a msg : Message) (r : Message × Nat), Keeps a msg →
      packLoop true ne rest count n msg = some r → Keeps a r.1 := by
  induction rest with
  | nil =>
    intro count n a msg r hf h
    exact keeps_trans hf (packFinish_keeps h)
  | cons c rest ih =>
    intro count n a msg r hf h
    rw [packLoop] at h
    by_cases hc : c = 46
    · simp only [hc, if_true] at h
      by_cases h0 : count = 0
      · simp only [h0, if_true] at h
        exact ih _ _ _ _ _ hf h
      · simp only [h0, if_false] at h
        cases hs : setByte msg.Packet msg.off count with
        | none => simp [hs] at h
        | some p =>
          cases hd : msg.dnameOff with
          | none => simp [hs, compressIf_eq, hd, probe, Dict.get, openLabel] at h
          | some d =>
            simp only [hs, compressIf_eq, hd, Option.getD_some] at h
            cases hp : probe true d rest with
            | some o =>
              simp only [hp, if_true, Option.some.injEq] at h
              subst h
              exact keeps_trans hf (keeps_of_eq hd.symm)
            | none =>
              simp only [hp, Bool.false_eq_true, if_false, openLabel, hd] at h
              refine ih _ _ _ _ _ (keeps_cons hf hd ?_ rfl) h
              simpa [probe] using hp
    · simp only [hc, if_false] at h
      refine ih _ _ a _ r ?_ h
      exact keeps_trans hf (keeps_of_eq rfl)

theorem packDomainName_keeps {msg : Message} {dname : List Nat} {r : Message × Nat}
    (h : packDomainName msg dname true = some r) : Keeps msg r.1 := by
  unfold packDomainName at h
  cases hd : msg.dnameOff with
  | none => simp [compressIf_eq, hd, probe, Dict.get, openLabel] at h
  | some d =>
    simp only [compressIf_eq, hd, Option.getD_some] at h
    cases hp : probe true d (ToLower dname) with
    | some o =>
      simp only [hp, if_true, Option.some.injEq] at h
      subst h
      exact keeps_of_eq hd.symm
    | none =>
      simp only [hp, Bool.false_eq_true, if_false, openLabel, hd] at h
      refine packLoop_keeps _ _ _ _ _ _ _ (keeps_cons (keeps_refl msg) hd ?_ rfl) h
      simpa [probe] using hp

theorem packTextAsDomain_keeps {msg m2 : Message} {rr : ResourceRecord}
    (h : packTextAsDomain msg rr = some m2) : Keeps msg m2 := by
  unfold packTextAsDomain at h
  simp only at h
  split at h
  · exact absurd h (by simp)
  · rename_i m1 n hp
    have f := packDomainName_keeps hp
    split at h
    · exact absurd h (by simp)
    · simp only [Option.some.injEq] at h
      subst h
      exact f

theorem packMX_keeps {msg m2 : Message} {rr : ResourceRecord}
    (h : packMX msg rr = some m2) : Keeps msg m2 := by
  unfold packMX at h
  simp only at h
  split at h
  · exact absurd h (by simp)
  · rename_i m1 n hp
    have f := packDomainName_keeps hp
    split at h
    · exact absurd h (by simp)
    · simp only [Option.some.injEq] at h
      subst h
      exact f

theorem packMINFO_keeps {msg m2 : Message} {rr : ResourceRecord}
    (h : packMINFO msg rr = some m2) : Keeps msg m2 := by
  unfold packMINFO at h
  simp only at h
  split at h
  · exact absurd h (by simp)
  · rename_i m1 n hp
    have f := packDomainName_keeps hp
    split at h
    · exact absurd h (by simp)
    · rename_i m3 n3 hp3
      have f3 := packDomainName_keeps hp3
      split at h
      · exact absurd h (by simp)
      · simp only [Option.some.injEq] at h
        subst h
        exact keeps_trans f f3

theorem packSOA_keeps {msg m2 : Message} {rr : ResourceRecord}
    (h : packSOA msg rr = some m2) : Keeps msg m2 := by
  unfold packSOA at h
  simp only at h
  split at h
  · exact absurd h (by simp)
  · rename_i m1 n hp
    have f := packDomainName_keeps hp
    split at h
    · exact absurd h (by simp)
    · rename_i m3 n3 hp3
      have f3 := packDomainName_keeps hp3
      split at h
      · exact absurd h (by simp)
      · simp only [Option.some.injEq] at h
        subst h
        exact keeps_trans f f3

theorem packA_keeps {env : Collab} {msg m2 : Message} {rr : ResourceRecord}
    (h : packA env msg rr = some m2) : Keeps msg m2 := by
  unfold packA at h
  simp only at h
  split at h
  · exact absurd h (by simp)
  · simp only [Option.some.injEq] at h
    subst h
    exact keeps_of_eq rfl

theorem packAAAA_keeps {env : Collab} {msg m2 : Message} {rr : ResourceRecord}
    (h : packAAAA env msg rr = some m2) : Keeps msg m2 := by
  unfold packAAAA at h
  simp only at h
  split at h
  · exact absurd h (by simp)
  · simp only [Option.some.injEq] at h
    subst h
    exact keeps_of_eq rfl

theorem packWKS_keeps {msg m2 : Message} {rr : ResourceRecord}
    (h : packWKS msg rr = some m2) : Keeps msg m2 := by
  unfold packWKS at h
  simp only at h
  split at h
  · exact absurd h (by simp)
  · simp only [Option.some.injEq] at h
    subst h
    exact keeps_of_eq rfl

theorem packHINFO_keeps {msg m2 : Message} {rr : ResourceRecord}
    (h : packHINFO msg rr = some m2) : Keeps msg m2 := by
  unfold packHINFO at h
  simp only [Option.some.injEq] at h
  subst h
  exact keeps_of_eq rfl

theorem packTXT_keeps {msg m2 : Message} {rr : ResourceRecord}
    (h : packTXT msg rr = some m2) : Keeps msg m2 := by
  unfold packTXT at h
  simp only [Option.some.injEq] at h
  subst h
  exact keeps_of_eq rfl

theorem packOPT_keeps {msg m2 : Message} {rr : ResourceRecord}
    (h : packOPT msg rr = some m2) : Keeps msg m2 := by
  unfold packOPT at h
  simp only at h
  split at h
  · simp only [Option.some.injEq] at h
    subst h
    exact keeps_of_eq rfl
  · split at h
    · exact absurd h (by simp)
    · split at h
      · exact absurd h (by simp)
      · simp only [Option.some.injEq] at h
        subst h
        exact keeps_of_eq rfl

theorem keeps_of_some {msg m2 : Message} (h : some msg = some m2) : Keeps msg m2 := by
  simp only [Option.some.injEq] at h
  subst h
  exact keeps_refl _

theorem keeps_ite {c : Prop} [Decidable c] {x y : Option Message} {msg m2 : Message}
    (hx : c → x = some m2 → Keeps msg m2) (hy : y = some m2 → Keeps msg m2)
    (h : (if c then x else y) = some m2) : Keeps msg m2 := by
  split at h
  · rename_i hc
    exact hx hc h
  · exact hy h

theorem packRData_keeps {env : Collab} {msg m2 : Message} {rr : ResourceRecord}
    (hsrv : rr.Typ ≠ QueryTypeSRV) (h : packRData env msg rr = some m2) : Keeps msg m2 := by
  unfold packRData at h
  exact (keeps_ite (fun _ e => packA_keeps e)
    (keeps_ite (fun _ e => packTextAsDomain_keeps e)
    (keeps_ite (fun _ e => keeps_of_some e)
    (keeps_ite (fun _ e => keeps_of_some e)
    (keeps_ite (fun _ e => packTextAsDomain_keeps e)
    (keeps_ite (fun _ e => packSOA_keeps e)
    (keeps_ite (fun _ e => packTextAsDomain_keeps e)
    (keeps_ite (fun _ e => packTextAsDomain_keeps e)
    (keeps_ite (fun _ e => packTextAsDomain_keeps e)
    (keeps_ite (fun _ e => packTextAsDomain_keeps e)
    (keeps_ite (fun _ e => packWKS_keeps e)
    (keeps_ite (fun _ e => packTextAsDomain_keeps e)
    (keeps_ite (fun _ e => packHINFO_keeps e)
    (keeps_ite (fun _ e => packMINFO_keeps e)
    (keeps_ite (fun _ e => packMX_keeps e)
    (keeps_ite (fun _ e => packTXT_keeps e)
    (keeps_ite (fun hc _ => absurd hc hsrv)
    (keeps_ite (fun _ e => packAAAA_keeps e)
    (keeps_ite (fun _ e => packOPT_keeps e)
    (keeps_of_some)))))))))))))))))))) h

theorem packRR_keeps {env : Collab} {msg m2 : Message} {rr : ResourceRecord}
    (hsrv : rr.Typ ≠ QueryTypeSRV) (h : packRR env msg rr = some m2) : Keeps msg m2 := by
  unfold packRR at h
  simp only at h
  split at h
  · exact absurd h (by simp)
  · rename_i m1 hn
    have f1 : Keeps msg m1 := by
      split at hn
      · simp only [Option.some.injEq] at hn
        subst hn
        exact keeps_of_eq rfl
      · split at hn
        · exact absurd hn (by simp)
        · rename_i m n hp
          simp only [Option.some.injEq] at hn
          subst hn
          exact packDomainName_keeps hp
    refine keeps_trans ?_ (packRData_keeps (by exact hsrv) h)
    exact f1

/-! ### The suffix a name write records -/

theorem Dict.get_append_ne (ext d : Dict) (k : List Nat) (h : ∀ kv ∈ ext, kv.1 ≠ k) :
    Dict.get (ext ++ d) k = Dict.get d k := by
  induction ext with
  | nil => rfl
  | cons kv ext ih =>
    obtain ⟨k0, v⟩ := kv
    have h0 : k0 ≠ k := h (k0, v) (List.mem_cons_self _ _)
    simp only [List.cons_append, Dict.get, h0, if_false]
    exact ih (fun x hx => h x (List.mem_cons_of_mem _ hx))

theorem packFinish_dict {ne : Bool} {count n : Nat} {msg : Message} {r : Message × Nat}
    (h : packFinish ne count n msg = some r) : r.1.dnameOff = msg.dnameOff := by
  unfold packFinish at h
  by_cases hc : 0 < count
  · simp only [hc, if_true] at h
    cases hs : setByte msg.Packet msg.off count with
    | none => simp [hs] at h
    | some p =>
      simp only [hs] at h
      cases ne <;> simp at h <;> subst h <;> rfl
  · simp only [hc, if_false] at h
    cases ne <;> simp at h <;> subst h <;> rfl

/-- The bindings that the loop adds are for texts shorter than the text it
walks. -/
theorem packLoop_adds (dc ne : Bool) (s : List Nat) :
    ∀ (count n : Nat) (msg : Message) (r : Message × Nat) (d : Dict),
      msg.dnameOff = some d → packLoop dc ne s count n msg = some r →
      ∃ ext : Dict, r.1.dnameOff = some (ext ++ d) ∧ ∀ kv ∈ ext, kv.1.length < s.length := by
  induction s with
  | nil =>
    intro count n msg r d hd h
    exact ⟨[], by rw [packFinish_dict h, hd]; rfl, fun _ hk => absurd hk (by simp)⟩
  | cons c rest ih =>
    intro count n msg r d hd h
    rw [packLoop] at h
    by_cases hc : c = 46
    · simp only [hc, if_true] at h
      by_cases h0 : count = 0
      · simp only [h0, if_true] at h
        obtain ⟨ext, e1, e2⟩ := ih _ _ _ _ _ hd h
        exact ⟨ext, e1, fun kv hk => by have := e2 kv hk; simp only [List.length_cons]; omega⟩
      · simp only [h0, if_false] at h
        cases hs : setByte msg.Packet msg.off count with
        | none => simp [hs] at h
        | some p =>
          simp only [hs, compressIf_eq, hd, Option.getD_some] at h
          cases hp : probe dc d rest with
          | some o =>
            simp only [hp, if_true, Option.some.injEq] at h
            subst h
            exact ⟨[], rfl, fun _ hk => absurd hk (by simp)⟩
          | none =>
            simp only [hp, Bool.false_eq_true, if_false, openLabel, hd] at h
            obtain ⟨ext, e1, e2⟩ := ih _ _ _ _ _ rfl h
            refine ⟨ext ++ [(rest, (msg.off + (count + 1) % 256) % 65536)], ?_, ?_⟩
            · rw [e1]; simp
            · intro kv hk
              simp only [List.length_cons]
              rcases List.mem_append.1 hk with hk | hk
              · have := e2 kv hk; omega
              · simp only [List.mem_singleton] at hk
                subst hk
                simp
    · simp only [hc, if_false] at h
      obtain ⟨ext, e1, e2⟩ := ih _ _ _ _ _ (by exact hd) h
      exact ⟨ext, e1, fun kv hk => by have := e2 kv hk; simp only [List.length_cons]; omega⟩

/-- After a name write the dictionary answers for the lower-cased name: with the
offset found, when the write began with a pointer, else with the cursor at which
the write began. -/
theorem packDomainName_records {msg m1 : Message} {dname : List Nat} {dc : Bool} {n : Nat}
    {d : Dict} (hd : msg.dnameOff = some d)
    (h : packDomainName msg dname dc = some (m1, n)) :
    ∃ o, lookupDict m1.dnameOff (ToLower dname) = some o
      ∧ (probe dc d (ToLower dname) = none → o = msg.off)
      ∧ (∀ o2, probe dc d (ToLower dname) = some o2 → o = o2) := by
  unfold packDomainName at h
  simp only [compressIf_eq, hd, Option.getD_some] at h
  cases hp : probe dc d (ToLower dname) with
  | some o =>
    simp only [hp, if_true, Option.some.injEq, Prod.mk.injEq] at h
    obtain ⟨h, -⟩ := h
    subst h
    refine ⟨o, ?_, fun e => absurd e (by simp), fun o2 e => by simpa using e⟩
    simp only [lookupDict]
    unfold probe at hp
    cases dc with
    | false => simp at hp
    | true => simpa using hp
  | none =>
    simp only [hp, Bool.false_eq_true, if_false, openLabel, hd] at h
    obtain ⟨ext, e1, e2⟩ := packLoop_adds _ _ _ _ _ _ _ _ rfl h
    refine ⟨msg.off, ?_, fun _ => rfl, fun o2 e => absurd e (by simp)⟩
    simp only at e1
    rw [e1]
    simp only [lookupDict]
    rw [Dict.get_append_ne _ _ _ (fun kv hk e => by
      have := e2 kv hk
      rw [e] at this
      exact Nat.lt_irrefl _ this)]
    simp [Dict.get]

/-- A name whose lower-cased text the dictionary holds is written, with
compression, as the pointer to the recorded offset. -/
theorem packDomainName_found (msg : Message) (dname : List Nat) (o : Nat)
    (h : lookupDict msg.dnameOff (ToLower dname) = some o) :
    packDomainName msg dname true
      = some ({ msg with Packet := msg.Packet ++ pointerBytes o, off := (msg.off + 2) % 65536
                         dname := ToLower dname }, 2) := by
  unfold packDomainName
  simp only [compressIf_eq]
  cases hd : msg.dnameOff with
  | none => rw [hd] at h; simp [lookupDict] at h
  | some d =>
    rw [hd] at h
    simp only [lookupDict] at h
    simp [probe, h]

/-! ### Packing does not depend on header, question and lists of the message -/

theorem reframe_mk (f m : Message) (p : List Nat) (o : Nat) (d : Option Dict) (dn : List Nat) :
    (⟨(reframe f m).Header, (reframe f m).Question, (reframe f m).Answer,
        (reframe f m).Authority, (reframe f m).Additional, p, o, d, dn⟩ : Message)
      = reframe f ⟨m.Header, m.Question, m.Answer, m.Authority, m.Additional, p, o, d, dn⟩ :=
  rfl

theorem reframe_Packet (f m : Message) : (reframe f m).Packet = m.Packet := rfl

theorem reframe_off (f m : Message) : (reframe f m).off = m.off := rfl

theorem reframe_dnameOff (f m : Message) : (reframe f m).dnameOff = m.dnameOff := rfl

theorem reframe_dname (f m : Message) : (reframe f m).dname = m.dname := rfl

theorem reframe_idem (f m : Message) : reframe f (reframe f m) = reframe f m := rfl

theorem compressIf_reframe (dc : Bool) (f m : Message) :
    compressIf dc (reframe f m) = (reframe f (compressIf dc m).1, (compressIf dc m).2) := by
  rw [compressIf_eq, compressIf_eq]
  simp only [reframe_dnameOff, reframe_dname]
  cases probe dc (m.dnameOff.getD []) m.dname <;> rfl

theorem openLabel_reframe (f m : Message) :
    openLabel (reframe f m) = (openLabel m).map (reframe f) := by
  unfold openLabel
  simp only [reframe_dnameOff]
  cases m.dnameOff <;> rfl

theorem packFinish_reframe (ne : Bool) (count n : Nat) (f m : Message) :
    packFinish ne count n (reframe f m)
      = (packFinish ne count n m).map (fun r => (reframe f r.1, r.2)) := by
  unfold packFinish
  simp only [reframe_Packet, reframe_off]
  by_cases hc : 0 < count
  · simp only [hc, if_true]
    cases setByte m.Packet m.off count <;> cases ne <;> rfl
  · simp only [hc, if_false]
    cases ne <;> rfl

theorem packLoop_reframe (dc ne : Bool) (f : Message) (rest : List Nat) :
    ∀ (count n : Nat) (m : Message),
      packLoop dc ne rest count n (reframe f m)
        = (packLoop dc ne rest count n m).map (fun r => (reframe f r.1, r.2)) := by
  induction rest with
  | nil => intro count n m; exact packFinish_reframe ne count n f m
  | cons c rest ih =>
    intro count n m
    rw [packLoop, packLoop]
    by_cases h46 : c = 46
    · by_cases h0 : count = 0
      · simp only [h46, h0, if_true]
        exact ih _ _ _
      · simp only [h46, h0, if_true, if_false, reframe_Packet, reframe_off]
        cases hs : setByte m.Packet m.off count with
        | none => rfl
        | some p =>
          simp only [reframe_mk, compressIf_reframe, reframe_dnameOff, reframe_dname]
          generalize compressIf dc
            { m with Packet := p, dname := rest,
                     off := (m.off + (count + 1) % 256) % 65536 } = r
          obtain ⟨r1, r2⟩ := r
          cases r2 with
          | true => rfl
          | false =>
            simp only [Bool.false_eq_true, if_false, openLabel_reframe]
            cases openLabel r1 with
            | none => rfl
            | some m2 => exact ih _ _ _
    · simp only [h46, if_false, reframe_Packet, reframe_mk]
      exact ih _ _ _

theorem packDomainName_reframe (f m : Message) (dname : List Nat) (dc : Bool) :
    packDomainName (reframe f m) dname dc
      = (packDomainName m dname dc).map (fun r => (reframe f r.1, r.2)) := by
  unfold packDomainName
  simp only [reframe_mk, compressIf_reframe, reframe_dnameOff, reframe_dname, reframe_Packet,
    reframe_off]
  generalize compressIf dc { m with dname := ToLower dname } = r
  obtain ⟨r1, r2⟩ := r
  cases r2 with
  | true => rfl
  | false =>
    simp only [Bool.false_eq_true, if_false, openLabel_reframe]
    cases openLabel r1 with
    | none => rfl
    | some m2 => exact packLoop_reframe _ _ _ _ _ _ _

/-- The pending name that a message carries into `packDomainName` is not read. -/
theorem packDomainName_dname (m : Message) (x dname : List Nat) (dc : Bool) :
    packDomainName { m with dname := x } dname dc = packDomainName m dname dc := rfl

theorem packDomainName_lower (m : Message) (dname : List Nat) (dc : Bool) :
    packDomainName m (ToLower dname) dc = packDomainName m dname dc := by
  unfold packDomainName
  simp only [ToLower_idem]

theorem packTextAsDomain_reframe (f m : Message) (rr : ResourceRecord) :
    packTextAsDomain (reframe f m) rr = (packTextAsDomain m rr).map (reframe f) := by
  unfold packTextAsDomain
  simp only [reframe_mk, reframe_Packet, reframe_off, reframe_dnameOff, reframe_dname,
    packDomainName_reframe]
  generalize packDomainName _ _ _ = x
  cases x with
  | none => rfl
  | some r =>
    simp only [Option.map_some', reframe_Packet]
    generalize WriteUint16 _ _ _ = y
    cases y <;> rfl

theorem packMX_reframe (f m : Message) (rr : ResourceRecord) :
    packMX (reframe f m) rr = (packMX m rr).map (reframe f) := by
  unfold packMX
  simp only [reframe_mk, reframe_Packet, reframe_off, reframe_dnameOff, reframe_dname,
    packDomainName_reframe]
  generalize packDomainName _ _ _ = x
  cases x with
  | none => rfl
  | some r =>
    simp only [Option.map_some', reframe_Packet]
    generalize WriteUint16 _ _ _ = y
    cases y <;> rfl

theorem packSRV_reframe (f m : Message) (rr : ResourceRecord) :
    packSRV (reframe f m) rr = (packSRV m rr).map (reframe f) := by
  unfold packSRV
  simp only [reframe_mk, reframe_Packet, reframe_off, reframe_dnameOff, reframe_dname,
    packDomainName_reframe]
  generalize packDomainName _ _ _ = x
  cases x with
  | none => rfl
  | some r =>
    simp only [Option.map_some', reframe_Packet]
    generalize WriteUint16 _ _ _ = y
    cases y <;> rfl

theorem packMINFO_reframe (f m : Message) (rr : ResourceRecord) :
    packMINFO (reframe f m) rr = (packMINFO m rr).map (reframe f) := by
  unfold packMINFO
  simp only [reframe_mk, reframe_Packet, reframe_off, reframe_dnameOff, reframe_dname,
    packDomainName_reframe]
  generalize packDomainName _ rr.MInfo.RMailBox _ = x
  cases x with
  | none => rfl
  | some r =>
    simp only [Option.map_some', packDomainName_reframe]
    generalize packDomainName _ rr.MInfo.EmailBox _ = x2
    cases x2 with
    | none => rfl
    | some r2 =>
      simp only [Option.map_some', reframe_Packet]
      generalize WriteUint16 _ _ _ = y
      cases y <;> rfl

theorem packSOA_reframe (f m : Message) (rr : ResourceRecord) :
    packSOA (reframe f m) rr = (packSOA m rr).map (reframe f) := by
  unfold packSOA
  simp only [reframe_mk, reframe_Packet, reframe_off, reframe_dnameOff, reframe_dname,
    packDomainName_reframe]
  generalize packDomainName _ rr.SOA.MName _ = x
  cases x with
  | none => rfl
  | some r =>
    simp only [Option.map_some', packDomainName_reframe]
    generalize packDomainName _ rr.SOA.RName _ = x2
    cases x2 with
    | none => rfl
    | some r2 =>
      simp only [Option.map_some', reframe_Packet, reframe_off]
      generalize WriteUint16 _ _ _ = y
      cases y <;> rfl

theorem packA_reframe (env : Collab) (f m : Message) (rr : ResourceRecord) :
    packA env (reframe f m) rr = (packA env m rr).map (reframe f) := by
  unfold packA
  simp only [reframe_mk, reframe_Packet, reframe_off, reframe_dnameOff, reframe_dname]
  split <;> rfl

theorem packAAAA_reframe (env : Collab) (f m : Message) (rr : ResourceRecord) :
    packAAAA env (reframe f m) rr = (packAAAA env m rr).map (reframe f) := by
  unfold packAAAA
  simp only [reframe_mk, reframe_Packet, reframe_off, reframe_dnameOff, reframe_dname]
  split <;> rfl

theorem packWKS_reframe (f m : Message) (rr : ResourceRecord) :
    packWKS (reframe f m) rr = (packWKS m rr).map (reframe f) := by
  unfold packWKS
  simp only [reframe_mk, reframe_Packet, reframe_off, reframe_dnameOff, reframe_dname]
  split <;> rfl

theorem packHINFO_reframe (f m : Message) (rr : ResourceRecord) :
    packHINFO (reframe f m) rr = (packHINFO m rr).map (reframe f) := rfl

theorem packTXT_reframe (f m : Message) (rr : ResourceRecord) :
    packTXT (reframe f m) rr = (packTXT m rr).map (reframe f) := rfl

theorem packOPT_reframe (f m : Message) (rr : ResourceRecord) :
    packOPT (reframe f m) rr = (packOPT m rr).map (reframe f) := by
  unfold packOPT
  simp only [reframe_mk, reframe_Packet, reframe_off, reframe_dnameOff, reframe_dname]
  split
  · rfl
  · split
    · rfl
    · generalize WriteUint16 _ _ _ = y
      cases y <;> rfl

theorem map_ite {α β : Type} {c : Prop} [Decidable c] (g : α → β) {x y : Option α}
    {u v : Option β} (hx : u = x.map g) (hy : v = y.map g) :
    (if c then u else v) = (if c then x else y).map g := by
  split
  · exact hx
  · exact hy

theorem packRData_reframe (env : Collab) (f m : Message) (rr : ResourceRecord) :
    packRData env (reframe f m) rr = (packRData env m rr).map (reframe f) := by
  unfold packRData
  exact map_ite _ (packA_reframe env f m rr)
    (map_ite _ (packTextAsDomain_reframe f m rr)
    (map_ite _ rfl
    (map_ite _ rfl
    (map_ite _ (packTextAsDomain_reframe f m rr)
    (map_ite _ (packSOA_reframe f m rr)
    (map_ite _ (packTextAsDomain_reframe f m rr)
    (map_ite _ (packTextAsDomain_reframe f m rr)
    (map_ite _ (packTextAsDomain_reframe f m rr)
    (map_ite _ (packTextAsDomain_reframe f m rr)
    (map_ite _ (packWKS_reframe f m rr)
    (map_ite _ (packTextAsDomain_reframe f m rr)
    (map_ite _ (packHINFO_reframe f m rr)
    (map_ite _ (packMINFO_reframe f m rr)
    (map_ite _ (packMX_reframe f m rr)
    (map_ite _ (packTXT_reframe f m rr)
    (map_ite _ (packSRV_reframe f m rr)
    (map_ite _ (packAAAA_reframe env f m rr)
    (map_ite _ (packOPT_reframe f m rr) rfl))))))))))))))))))

theorem packRR_reframe (env : Collab) (f m : Message) (rr : ResourceRecord) :
    packRR env (reframe f m) rr = (packRR env m rr).map (reframe f) := by
  unfold packRR
  simp only [reframe_mk, reframe_Packet, reframe_off, reframe_dnameOff, reframe_dname,
    packDomainName_reframe]
  by_cases h : rr.Typ = QueryTypeOPT
  · simp only [h, if_true, reframe_mk, reframe_Packet, reframe_off, reframe_dnameOff,
      reframe_dname]
    exact packRData_reframe _ _ _ _
  · simp only [h, if_false]
    generalize packDomainName m rr.Name true = x
    cases x with
    | none => rfl
    | some r =>
      simp only [Option.map_some', reframe_mk, reframe_Packet, reframe_off, reframe_dnameOff,
        reframe_dname]
      exact packRData_reframe _ _ _ _

theorem packRR_congr (env : Collab) (m : Message) (a b : ResourceRecord)
    (h1 : a.Typ = b.Typ) (h2 : ToLower a.Name = ToLower b.Name) (h3 : a.Class = b.Class)
    (h4 : ttlOf a = ttlOf b)
    (h5 : ∀ m2 : Message,
      packRData env m2 { a with TTL := ttlOf a } = packRData env m2 { b with TTL := ttlOf b }) :
    packRR env m a = packRR env m b := by
  have hn : packDomainName m a.Name true = packDomainName m b.Name true := by
    rw [← packDomainName_lower m a.Name, ← packDomainName_lower m b.Name, h2]
  unfold packRR
  simp only [hn, h5]
  simp only [h1, h3, h4]

theorem touchRR_Typ (rr : ResourceRecord) : (touchRR rr).Typ = rr.Typ := by
  unfold touchRR
  simp only
  split <;> split <;> (try rfl) <;> split <;> (try rfl) <;> split <;> (try rfl)
    <;> split <;> (try rfl) <;> split <;> rfl

theorem touchRR_Class (rr : ResourceRecord) : (touchRR rr).Class = rr.Class := by
  unfold touchRR
  simp only
  split <;> split <;> (try rfl) <;> split <;> (try rfl) <;> split <;> (try rfl)
    <;> split <;> (try rfl) <;> split <;> rfl

theorem touchRR_OPT (rr : ResourceRecord) : (touchRR rr).OPT = rr.OPT := by
  unfold touchRR
  simp only
  split <;> split <;> (try rfl) <;> split <;> (try rfl) <;> split <;> (try rfl)
    <;> split <;> (try rfl) <;> split <;> rfl

theorem touchRR_Name (rr : ResourceRecord) : ToLower (touchRR rr).Name = ToLower rr.Name := by
  unfold touchRR
  simp only
  split <;> split <;> (try rfl) <;> (try exact ToLower_idem _) <;> split <;> (try rfl)
    <;> (try exact ToLower_idem _) <;> split <;> (try rfl) <;> (try exact ToLower_idem _)
    <;> split <;> (try rfl) <;> (try exact ToLower_idem _) <;> split <;> (try rfl)
    <;> exact ToLower_idem _

theorem touchRR_TTL (rr : ResourceRecord) (h : rr.Typ ≠ QueryTypeOPT) :
    (touchRR rr).TTL = rr.TTL := by
  unfold touchRR
  simp only [h, if_false]
  split
  · rfl
  split
  · rfl
  split
  · rfl
  split
  · rfl
  split <;> rfl

theorem ttlOf_touchRR (rr : ResourceRecord) : ttlOf (touchRR rr) = ttlOf rr := by
  unfold ttlOf
  rw [touchRR_Typ, touchRR_OPT]
  split
  · rfl
  · rename_i h
    exact touchRR_TTL rr h

theorem packDomainName_same (m : Message) (a b : List Nat) (dc : Bool)
    (h : ToLower a = ToLower b) : packDomainName m a dc = packDomainName m b dc := by
  rw [← packDomainName_lower m a, ← packDomainName_lower m b, h]

theorem packTextAsDomain_text (m : Message) (a b : ResourceRecord)
    (h : ToLower a.Text.v = ToLower b.Text.v) :
    packTextAsDomain m a = packTextAsDomain m b := by
  unfold packTextAsDomain
  simp only [packDomainName_same _ _ _ _ h]

theorem packMX_exchange (m : Message) (a b : ResourceRecord)
    (h : ToLower a.MX.Exchange = ToLower b.MX.Exchange)
    (hp : a.MX.Preference = b.MX.Preference) : packMX m a = packMX m b := by
  unfold packMX
  simp only [packDomainName_same _ _ _ _ h, hp]

theorem packSRV_target (m : Message) (a b : ResourceRecord)
    (h : ToLower a.SRV.Target = ToLower b.SRV.Target)
    (h1 : a.SRV.Priority = b.SRV.Priority) (h2 : a.SRV.Weight = b.SRV.Weight)
    (h3 : a.SRV.Port = b.SRV.Port) : packSRV m a = packSRV m b := by
  unfold packSRV
  simp only [packDomainName_same _ _ _ _ h, h1, h2, h3]

theorem packMINFO_boxes (m : Message) (a b : ResourceRecord)
    (h1 : ToLower a.MInfo.RMailBox = ToLower b.MInfo.RMailBox)
    (h2 : ToLower a.MInfo.EmailBox = ToLower b.MInfo.EmailBox) :
    packMINFO m a = packMINFO m b := by
  unfold packMINFO
  simp only [packDomainName_same _ _ _ _ h1, packDomainName_same _ _ _ _ h2]

theorem packSOA_names (m : Message) (a b : ResourceRecord)
    (h1 : ToLower a.SOA.MName = ToLower b.SOA.MName)
    (h2 : ToLower a.SOA.RName = ToLower b.SOA.RName)
    (h3 : a.SOA.Serial = b.SOA.Serial) (h4 : a.SOA.Refresh = b.SOA.Refresh)
    (h5 : a.SOA.Retry = b.SOA.Retry) (h6 : a.SOA.Expire = b.SOA.Expire)
    (h7 : a.SOA.Minimum = b.SOA.Minimum) : packSOA m a = packSOA m b := by
  unfold packSOA
  simp only [packDomainName_same _ _ _ _ h1, packDomainName_same _ _ _ _ h2, h3, h4, h5, h6, h7]

/-- What `packRData` writes for a record is what it writes for the record as a
first `packRR` left it. -/
theorem packRData_touch (env : Collab) (m : Message) (rr : ResourceRecord) (t : Nat) :
    packRData env m { touchRR rr with TTL := t } = packRData env m { rr with TTL := t } := by
  obtain ⟨name, typ, cls, ttl, text, soa, wks, hinfo, minfo, mx, srv, opt⟩ := rr
  by_cases h1 : typ = QueryTypeOPT
  · subst h1; rfl
  by_cases h2 : typ = QueryTypeNS
  · subst h2; exact packTextAsDomain_text m _ _ (ToLower_idem _)
  by_cases h3 : typ = QueryTypeCNAME
  · subst h3; exact packTextAsDomain_text m _ _ (ToLower_idem _)
  by_cases h4 : typ = QueryTypeMB
  · subst h4; exact packTextAsDomain_text m _ _ (ToLower_idem _)
  by_cases h5 : typ = QueryTypeMG
  · subst h5; exact packTextAsDomain_text m _ _ (ToLower_idem _)
  by_cases h6 : typ = QueryTypeMR
  · subst h6; exact packTextAsDomain_text m _ _ (ToLower_idem _)
  by_cases h7 : typ = QueryTypeNULL
  · subst h7; exact packTextAsDomain_text m _ _ (ToLower_idem _)
  by_cases h8 : typ = QueryTypePTR
  · subst h8; exact packTextAsDomain_text m _ _ (ToLower_idem _)
  by_cases h9 : typ = QueryTypeSOA
  · subst h9
    exact packSOA_names m _ _ (ToLower_idem _) (ToLower_idem _) rfl rfl rfl rfl rfl
  by_cases h10 : typ = QueryTypeMINFO
  · subst h10; exact packMINFO_boxes m _ _ (ToLower_idem _) (ToLower_idem _)
  by_cases h11 : typ = QueryTypeMX
  · subst h11; exact packMX_exchange m _ _ (ToLower_idem _) rfl
  by_cases h12 : typ = QueryTypeSRV
  · subst h12; exact packSRV_target m _ _ (ToLower_idem _) rfl rfl rfl
  simp only [touchRR, h1, h2, h3, h4, h5, h6, h7, h8, h9, h10, h11, h12, if_false, or_self]
  rfl

theorem packRR_touch (env : Collab) (m : Message) (rr : ResourceRecord) :
    packRR env m (touchRR rr) = packRR env m rr :=
  packRR_congr env m _ _ (touchRR_Typ rr) (touchRR_Name rr) (touchRR_Class rr)
    (ttlOf_touchRR rr) (fun m2 => by rw [ttlOf_touchRR]; exact packRData_touch env m2 rr _)

theorem packRRs_reframe (env : Collab) (f : Message) (rrs : List ResourceRecord) :
    ∀ m : Message,
      packRRs env (reframe f m) (rrs.map touchRR) = (packRRs env m rrs).map (reframe f) := by
  induction rrs with
  | nil => intro m; rfl
  | cons rr rrs ih =>
    intro m
    rw [List.map_cons, packRRs, packRRs, packRR_touch, packRR_reframe]
    cases packRR env m rr with
    | none => rfl
    | some m1 => exact ih m1

theorem MarshalBinary_sections (env : Collab) (msg : Message) :
    MarshalBinary env msg =
      match env.headerMarshal (countedHeader msg) with
      | none => some ({ headerState msg [] with off := msg.off, dnameOff := none }, none)
      | some header => packSections env (headerState msg header) :=
  MarshalBinary_eq env msg

theorem packQuestion_reframe (f m : Message) (x : List Nat)
    (hn : ToLower f.Question.Name = ToLower m.Question.Name)
    (ht : f.Question.Typ = m.Question.Typ) (hc : f.Question.Class = m.Question.Class) :
    packQuestion { reframe f m with dname := x } = (packQuestion m).map (reframe f) := by
  unfold packQuestion
  have e : packDomainName { reframe f m with dname := x } (reframe f m).Question.Name false
      = (packDomainName m m.Question.Name false).map (fun r => (reframe f r.1, r.2)) := by
    rw [packDomainName_dname]
    show packDomainName (reframe f m) f.Question.Name false = _
    rw [packDomainName_same _ _ _ _ hn, packDomainName_reframe]
  simp only at e ⊢
  rw [e]
  cases hp : packDomainName m m.Question.Name false with
  | none => rfl
  | some r =>
    have hq : r.1.Question = m.Question := (packDomainName_frame hp).2.1.symm
    simp only [Option.map_some', Option.some.injEq, reframe, hq, ht, hc]

theorem packLists_reframe (env : Collab) (g m : Message)
    (h1 : g.Answer = m.Answer.map touchRR) (h2 : g.Authority = m.Authority.map touchRR)
    (h3 : g.Additional = m.Additional.map touchRR) :
    (packLists env (reframe g m)).map (fun r => r.2) = (packLists env m).map (fun r => r.2) := by
  unfold packLists
  have e4 : packRRs env (reframe g m) (reframe g m).Answer
      = (packRRs env m m.Answer).map (reframe g) := by
    rw [← packRRs_reframe, ← h1]; rfl
  rw [e4]
  cases h4 : packRRs env m m.Answer with
  | none => rfl
  | some m4 =>
    have f4 := packRRs_frame _ h4
    have e5 : packRRs env (reframe g m4) (reframe g m4).Authority
        = (packRRs env m4 m4.Authority).map (reframe g) := by
      rw [← packRRs_reframe, ← f4.2.2.2.1, ← h2]; rfl
    simp only [Option.map_some', e5]
    cases h5 : packRRs env m4 m4.Authority with
    | none => rfl
    | some m5 =>
      have f5 := packRRs_frame _ h5
      have e6 : packRRs env (reframe g m5) (reframe g m5).Additional
          = (packRRs env m5 m5.Additional).map (reframe g) := by
        rw [← packRRs_reframe, ← f5.2.2.2.2, ← f4.2.2.2.2, ← h3]; rfl
      simp only [Option.map_some', e6]
      cases h6 : packRRs env m5 m5.Additional with
      | none => rfl
      | some m6 => rfl

theorem packLists_frame {env : Collab} {m m2 : Message} {r : Option (List Nat)}
    (h : packLists env m = some (m2, r)) :
    m2.Header = m.Header ∧ m2.Question = m.Question ∧ m2.Answer = m.Answer.map touchRR
      ∧ m2.Authority = m.Authority.map touchRR ∧ m2.Additional = m.Additional.map touchRR := by
  unfold packLists at h
  split at h
  · exact absurd h (by simp)
  · rename_i m4 h4
    have f4 := packRRs_frame _ h4
    split at h
    · exact absurd h (by simp)
    · rename_i m5 h5
      have f5 := packRRs_frame _ h5
      split at h
      · exact absurd h (by simp)
      · rename_i m6 h6
        have f6 := packRRs_frame _ h6
        simp only [Option.some.injEq, Prod.mk.injEq] at h
        obtain ⟨h, -⟩ := h
        subst h
        have f := Frame.trans f4 (Frame.trans f5 f6)
        exact ⟨f.1.symm, f.2.1.symm, by rw [f.2.2.1], by rw [f.2.2.2.1], by rw [f.2.2.2.2]⟩

theorem packSections_frame {env : Collab} {s m2 : Message} {r : Option (List Nat)}
    (h : packSections env s = some (m2, r)) :
    m2.Header = s.Header
      ∧ m2.Question = { s.Question with Name := ToLower s.Question.Name }
      ∧ (s.Header.IsQuery = false →
          m2.Answer = s.Answer.map touchRR ∧ m2.Authority = s.Authority.map touchRR
            ∧ m2.Additional = s.Additional.map touchRR) := by
  unfold packSections at h
  split at h
  · exact absurd h (by simp)
  · rename_i q1 hq
    have fq := packQuestion_frame hq
    simp only at h
    split at h
    · rename_i hQ
      simp only [Option.some.injEq, Prod.mk.injEq] at h
      obtain ⟨h, -⟩ := h
      subst h
      refine ⟨fq.1.symm, by rw [fq.2.1], fun hf => ?_⟩
      rw [fq.1, hQ] at hf
      exact absurd hf (by simp)
    · obtain ⟨k1, k2, k3, k4, k5⟩ := packLists_frame h
      refine ⟨k1.trans fq.1.symm, by rw [k2, fq.2.1], fun _ => ⟨?_, ?_, ?_⟩⟩
      · rw [k3, fq.2.2.1]
      · rw [k4, fq.2.2.2.1]
      · rw [k5, fq.2.2.2.2]

theorem packSections_reframe (env : Collab) (f s : Message) (x : List Nat)
    (hn : ToLower f.Question.Name = ToLower s.Question.Name)
    (ht : f.Question.Typ = s.Question.Typ) (hc : f.Question.Class = s.Question.Class)
    (hH : f.Header.IsQuery = s.Header.IsQuery)
    (hl : s.Header.IsQuery = false →
      f.Answer = s.Answer.map touchRR ∧ f.Authority = s.Authority.map touchRR
        ∧ f.Additional = s.Additional.map touchRR) :
    (packSections env { reframe f s with dname := x }).map (fun r => r.2)
      = (packSections env s).map (fun r => r.2) := by
  unfold packSections
  rw [packQuestion_reframe f s x hn ht hc]
  cases hq : packQuestion s with
  | none => rfl
  | some q1 =>
    have fq := packQuestion_frame hq
    simp only [Option.map_some']
    have e1 : (reframe f q1).Header.IsQuery = s.Header.IsQuery := hH
    have e2 : q1.Header.IsQuery = s.Header.IsQuery := by rw [← fq.1]
    rw [e1, e2]
    cases hQ : s.Header.IsQuery with
    | true => rfl
    | false =>
      simp only [Bool.false_eq_true, if_false]
      obtain ⟨l1, l2, l3⟩ := hl hQ
      exact packLists_reframe env
        { reframe f q1 with
          Question := { (reframe f q1).Question with
                        Name := ToLower (reframe f q1).Question.Name } }
        { q1 with Question := { q1.Question with Name := ToLower q1.Question.Name } }
        (by show f.Answer = q1.Answer.map touchRR; rw [l1, fq.2.2.1])
        (by show f.Authority = q1.Authority.map touchRR; rw [l2, fq.2.2.2.1])
        (by show f.Additional = q1.Additional.map touchRR; rw [l3, fq.2.2.2.2])

/-- A second `MarshalBinary` on the message that a first one left returns the
packet of the first, whatever packet buffer, cursor and pending name the message
carries into it. -/
theorem MarshalBinary_again {env : Collab} {msg m2 : Message} {p : List Nat}
    (hnil : msg.dnameOff = none) (h : MarshalBinary env msg = some (m2, some p))
    (pk : List Nat) (o : Nat) (x : List Nat) :
    ∃ m3, MarshalBinary env { m2 with Packet := pk, off := o, dname := x }
      = some (m3, some p) := by
  obtain ⟨hh, ha, hb, hc⟩ := MarshalBinary_header h
  have hd2 := MarshalBinary_dict h
  have hcm : countedHeader m2 = m2.Header := by
    unfold countedHeader
    rw [ha, hb, hc, hh]
    rfl
  rw [MarshalBinary_sections] at h ⊢
  have hcx : countedHeader { m2 with Packet := pk, off := o, dname := x } = countedHeader msg := by
    rw [← hh, ← hcm]
    rfl
  rw [hcx]
  cases hm : env.headerMarshal (countedHeader msg) with
  | none => simp [hm] at h
  | some hdr =>
    simp only [hm] at h ⊢
    obtain ⟨k1, k2, k3⟩ := packSections_frame h
    have e : headerState { m2 with Packet := pk, off := o, dname := x } hdr
        = { reframe m2 (headerState msg hdr) with dname := x } := by
      unfold headerState reframe
      simp only [hd2, hnil]
      congr 1
    rw [e]
    have key := packSections_reframe env m2 (headerState msg hdr) x
      (by rw [k2]; exact ToLower_idem _) (by rw [k2]) (by rw [k2]) (by rw [k1]) k3
    rw [h] at key
    cases hr : packSections env { reframe m2 (headerState msg hdr) with dname := x } with
    | none => rw [hr] at key; simp at key
    | some r =>
      rw [hr] at key
      simp only [Option.map_some', Option.some.injEq] at key
      exact ⟨r.1, by rw [← key]⟩

theorem MarshalBinary_packet {env : Collab} {msg m2 : Message} {p : List Nat}
    (h : MarshalBinary env msg = some (m2, some p)) : m2.Packet = p := by
  rw [MarshalBinary_sections] at h
  split at h
  · simp at h
  · unfold packSections at h
    split at h
    · exact absurd h (by simp)
    · simp only at h
      split at h
      · simp only [Option.some.injEq, Prod.mk.injEq] at h
        obtain ⟨h1, h2⟩ := h
        subst h1
        exact h2
      · unfold packLists at h
        split at h
        · exact absurd h (by simp)
        · split at h
          · exact absurd h (by simp)
          · split at h
            · exact absurd h (by simp)
            · simp only [Option.some.injEq, Prod.mk.injEq] at h
              obtain ⟨h1, h2⟩ := h
              subst h1
              exact h2

theorem MarshalBinary_frame {env : Collab} {msg m2 : Message} {p : List Nat}
    (h : MarshalBinary env msg = some (m2, some p)) :
    m2.Question = { msg.Question with Name := ToLower msg.Question.Name }
      ∧ (msg.Header.IsQuery = false →
          m2.Answer = msg.Answer.map touchRR ∧ m2.Authority = msg.Authority.map touchRR
            ∧ m2.Additional = msg.Additional.map touchRR) := by
  rw [MarshalBinary_sections] at h
  split at h
  · simp at h
  · obtain ⟨-, k2, k3⟩ := packSections_frame h
    exact ⟨k2, k3⟩

/-! ### Payload encoders from a state whose cursor is at the end of the packet -/

/-- For every SRV record and every state with a dictionary, the packet and
the cursor that `packSRV` leaves are the same whatever the dictionary holds:
the target is never looked up, so never written as, or ended by, a pointer.
For a target of labels of 1..63 bytes (cursor at the end of the packet, packet
below the 16-bit cursor limit) the bytes appended are RDLENGTH, priority,
weight, port and the full sequence of length-prefixed lower-cased labels closed
by a zero octet. From the same state `packTextAsDomain`, when `t` is the first
suffix of the name found in the dictionary, at offset `o`, writes only the
labels before `t` and the 2-byte pointer to `o`. -/
theorem srv_target_uncompressed (msg : Message) (d : Dict) (rr : ResourceRecord)
    (hd : msg.dnameOff = some d) :
    (∀ d2 : Dict,
        (packSRV { msg with dnameOff := some d2 } rr).map (fun m => (m.Packet, m.off))
          = (packSRV msg rr).map (fun m => (m.Packet, m.off)))
    ∧ (∀ ls : List (List Nat), ls ≠ [] → (∀ l ∈ ls, LabelN 63 l) →
        msg.off = msg.Packet.length →
        msg.Packet.length + 8 + (joinLabels ls).length + 2 ≤ 65536 →
        (rr.SRV.Target = joinLabels ls →
          ∃ m2, packSRV msg rr = some m2
            ∧ m2.Packet = msg.Packet ++ be16 ((wireName ls).length + 6)
                ++ be16 rr.SRV.Priority ++ be16 rr.SRV.Weight ++ be16 rr.SRV.Port
                ++ wireName (ls.map ToLower))
        ∧ (∀ (p t : List (List Nat)) (o : Nat), ls.map ToLower = p ++ t → t ≠ [] →
            d.get (joinLabels t) = some o →
            (∀ q r : List (List Nat), p = q ++ r → r ≠ [] →
              d.get (joinLabels (r ++ t)) = none) →
            rr.Text.v = joinLabels ls →
            ∃ m3, packTextAsDomain msg rr = some m3
              ∧ m3.Packet = msg.Packet ++ be16 ((labelBytes p).length + 2) ++ labelBytes p
                  ++ pointerBytes o)) := by
  refine ⟨fun d2 => packSRV_dict_free _ _ rr rfl rfl (by simp [hd]), ?_⟩
  intro ls hne hls hoff hfit
  have hls2 : ∀ l ∈ ls, LabelN 254 l := fun l hl => (hls l hl).mono (by decide)
  refine ⟨fun hname => packSRV_exact msg d rr ls hd hoff hne hls2 hname hfit, ?_⟩
  intro p t o hsplit ht hg hfirst hname
  obtain ⟨m3, h1, h2⟩ := packTextAsDomain_exact msg d rr ls hd hoff hne hls2 hname
    (by omega)
  refine ⟨m3, h1, ?_⟩
  rw [h2, hsplit, encodeLabels_pointer t ht o p d _ hg hfirst]
  simp [pointerBytes]

/-- With `example.com` recorded at offset 16 and the cursor at the end of a
packet of 40 bytes: the SRV target `sip.example.com` is written in full (17 bytes ending in the zero octet), the same name as
NS text is written as the label `sip` and the pointer `C0 10`. -/
theorem srv_target_uncompressed_sip :
    (∃ m2, packSRV midState srvExample = some m2
      ∧ m2.Packet = midState.Packet ++ [0, 23, 0, 1, 0, 2, 19, 196]
          ++ [3, 115, 105, 112, 7, 101, 120, 97, 109, 112, 108, 101, 3, 99, 111, 109, 0])
    ∧ (∃ m3, packTextAsDomain midState srvExample = some m3
      ∧ m3.Packet = midState.Packet ++ [0, 6] ++ [3, 115, 105, 112] ++ [192, 16]) := by
  obtain ⟨h1, h3⟩ := (srv_target_uncompressed midState
    [([99, 111, 109], 24), (joinLabels exampleCom, 16)] srvExample rfl).2 sipExampleCom
    (by decide) (by decide) (by decide) (by decide)
  constructor
  · obtain ⟨m2, k1, k2⟩ := h1 rfl
    exact ⟨m2, k1, by rw [k2]; decide⟩
  · obtain ⟨m3, k1, k2⟩ := h3 [[115, 105, 112]] exampleCom 16 (by decide) (by decide)
      (by decide) (by
        intro q r he hr
        have hq : q = [] ∧ r = [[115, 105, 112]] := by
          cases q with
          | nil => exact ⟨rfl, he.symm⟩
          | cons a q =>
            simp only [List.cons_append, List.cons.injEq] at he
            exact absurd (List.append_eq_nil.1 he.2.symm).2 hr
        rw [hq.2]; decide) rfl
    exact ⟨m3, k1, by rw [k2]; decide⟩

/-- For an OPT record whose option data holds at least `OPT.Length` bytes,
from a state whose cursor is not beyond the end of the packet, `packOPT` returns;
after the two reserved RDLENGTH bytes it writes, for `0 < OPT.Length < 512`, the
option code, the option length field 512 and the first `OPT.Length` bytes of the
option data; for `OPT.Length ≥ 512` the field is `OPT.Length`; for `OPT.Length = 0`
it writes nothing after the two reserved bytes. -/
theorem packOPT_clamp (msg : Message) (rr : ResourceRecord)
    (hcur : msg.off ≤ msg.Packet.length) (hdata : rr.OPT.Length ≤ rr.OPT.Data.length) :
    ∃ m2, packOPT msg rr = some m2
      ∧ (rr.OPT.Length = 0 → m2.Packet = msg.Packet ++ [0, 0])
      ∧ (0 < rr.OPT.Length → rr.OPT.Length < 512 →
          m2.Packet.drop (msg.Packet.length + 2)
            = be16 rr.OPT.Code ++ be16 512 ++ rr.OPT.Data.take rr.OPT.Length)
      ∧ (512 ≤ rr.OPT.Length →
          m2.Packet.drop (msg.Packet.length + 2)
            = be16 rr.OPT.Code ++ be16 rr.OPT.Length ++ rr.OPT.Data.take rr.OPT.Length)
      ∧ (0 < rr.OPT.Length → m2.Packet.length = msg.Packet.length + 2 + 4 + rr.OPT.Length)
      ∧ (rr.OPT.Data.take rr.OPT.Length).length = rr.OPT.Length := by
  have htake : (rr.OPT.Data.take rr.OPT.Length).length = rr.OPT.Length := by
    rw [List.length_take]; omega
  unfold packOPT
  by_cases h0 : rr.OPT.Length = 0
  · simp only [h0, if_true]
    refine ⟨_, rfl, fun _ => rfl, fun h => absurd h (by omega), fun h => absurd h (by omega),
      fun h => absurd h (by omega), by simp⟩
  · simp only [h0, if_false, sliceTo_of_le _ _ _ hdata]
    have hlenp : ∀ w, ((if rr.OPT.Length < 512
          then AppendUint16 (AppendUint16 (AppendUint16 msg.Packet 0) rr.OPT.Code) 512
          else AppendUint16 (AppendUint16 (AppendUint16 msg.Packet 0) rr.OPT.Code) w)
        ++ rr.OPT.Data.take rr.OPT.Length).length
          = msg.Packet.length + 2 + 4 + rr.OPT.Length := by
      intro w
      split <;> simp only [List.length_append, AppendUint16_length, htake]
    obtain ⟨p3, w1, w2, w3⟩ := WriteUint16_drop
      ((if rr.OPT.Length < 512
          then AppendUint16 (AppendUint16 (AppendUint16 msg.Packet 0) rr.OPT.Code) 512
          else AppendUint16 (AppendUint16 (AppendUint16 msg.Packet 0) rr.OPT.Code)
            rr.OPT.Length)
        ++ rr.OPT.Data.take rr.OPT.Length) msg.off ((4 + rr.OPT.Length) % 65536)
      (msg.Packet.length + 2) (by rw [hlenp]; omega) (by omega)
    rw [w1]
    refine ⟨_, rfl, fun h => h.elim, fun _ hlt => ?_, fun hge => ?_, fun _ => ?_, htake⟩
    · simp only
      rw [w3, if_pos hlt]
      simp [AppendUint16, be16]
    · simp only
      rw [w3, if_neg (by omega)]
      simp [AppendUint16, be16]
    · simp only
      rw [w2, hlenp]

/-- Right after a 12-byte header, at option length 100 (with 120 bytes of option
data at hand): the option length field is 512 and exactly the first 100 data bytes follow. -/
theorem packOPT_clamp_100 :
    ∃ m2, packOPT freshState (optRecord 100 20) = some m2
      ∧ m2.Packet.drop 14 = [0, 10, 2, 0] ++ List.replicate 100 7
      ∧ m2.Packet.length = 12 + 2 + 4 + 100 := by
  obtain ⟨m2, h1, -, h3, -, h5, -⟩ := packOPT_clamp freshState (optRecord 100 20)
    (by decide) (by decide)
  refine ⟨m2, h1, ?_, h5 (by decide)⟩
  rw [show 14 = freshState.Packet.length + 2 from rfl, h3 (by decide) (by decide)]
  decide

/-! ### Bytes written by the name encoder are never upper-case -/

theorem labelsWithin_le (k : Nat) (s : List Nat) :
    ∀ count, labelsWithin k s count = true → count ≤ k := by
  induction s with
  | nil =>
    intro count h
    simpa [labelsWithin] using h
  | cons c rest ih =>
    intro count h
    rw [labelsWithin] at h
    by_cases hc : c = 46
    · simp only [hc, if_true, Bool.and_eq_true, decide_eq_true_eq] at h
      exact h.1
    · simp only [hc, if_false] at h
      have := ih _ h
      omega

theorem lowerFrom_append {start : Nat} {p q : List Nat} (hp : LowerFrom start p)
    (hs : start ≤ p.length) (hq : ∀ c ∈ q, ¬ (65 ≤ c ∧ c ≤ 90)) :
    LowerFrom start (p ++ q) := by
  intro c hc
  rw [List.drop_append_of_le_length hs, List.mem_append] at hc
  rcases hc with hc | hc
  · exact hp c hc
  · exact hq c hc

theorem lowerFrom_set {start : Nat} {p : List Nat} (hp : LowerFrom start p) (i v : Nat)
    (hv : ¬ (65 ≤ v ∧ v ≤ 90)) : LowerFrom start (p.set i v) := by
  intro c hc
  rw [List.drop_set] at hc
  split at hc
  · exact hp c hc
  · rcases List.mem_or_eq_of_mem_set hc with h | h
    · exact hp c h
    · rw [h]; exact hv

theorem lowerFrom_of_length (p : List Nat) : LowerFrom p.length p := by
  intro c hc
  rw [List.drop_length] at hc
  exact absurd hc (List.not_mem_nil c)

theorem setByte_lower {start : Nat} {p p2 : List Nat} {i v : Nat} (hp : LowerFrom start p)
    (hs : start ≤ p.length) (hv : ¬ (65 ≤ v ∧ v ≤ 90)) (h : setByte p i v = some p2) :
    LowerFrom start p2 ∧ start ≤ p2.length := by
  unfold setByte at h
  split at h
  · simp only [Option.some.injEq] at h
    subst h
    exact ⟨lowerFrom_set hp i v hv, by rw [List.length_set]; exact hs⟩
  · exact absurd h (by simp)

/-- What a name write leaves in the packet from index `start` on: bytes that are
not upper-case letters, closed by nothing more or, with compression enabled, by
the two bytes of a pointer. -/
theorem packFinish_lower {ne : Bool} {count n start : Nat} {msg : Message} {r : Message × Nat}
    (hp : LowerFrom start msg.Packet) (hs : start ≤ msg.Packet.length) (hc : count ≤ 63)
    (h : packFinish ne count n msg = some r) :
    LowerFrom start r.1.Packet ∧ start ≤ r.1.Packet.length := by
  unfold packFinish at h
  simp only at h
  by_cases h0 : 0 < count
  · simp only [h0, if_true] at h
    cases hsb : setByte msg.Packet msg.off count with
    | none => rw [hsb] at h; exact absurd h (by simp)
    | some p =>
      rw [hsb] at h
      obtain ⟨k1, k2⟩ := setByte_lower hp hs (by omega) hsb
      simp only at h
      split at h
      · simp only [Option.some.injEq] at h
        subst h
        exact ⟨lowerFrom_append k1 k2 (by simp), by simp; omega⟩
      · simp only [Option.some.injEq] at h
        subst h
        exact ⟨k1, k2⟩
  · simp only [h0, if_false] at h
    split at h
    · simp only [Option.some.injEq] at h
      subst h
      exact ⟨lowerFrom_append hp hs (by simp), by simp; omega⟩
    · simp only [Option.some.injEq] at h
      subst h
      exact ⟨hp, hs⟩

theorem compressIf_lower (dc : Bool) (msg : Message) :
    ((compressIf dc msg).2 = true →
        dc = true ∧ ∃ o, lookupDict msg.dnameOff msg.dname = some o
          ∧ (compressIf dc msg).1.Packet = msg.Packet ++ pointerBytes o)
      ∧ ((compressIf dc msg).2 = false → (compressIf dc msg).1 = msg) := by
  unfold compressIf compress
  cases dc with
  | false => simp
  | true =>
    simp only [if_true]
    cases hl : lookupDict msg.dnameOff msg.dname with
    | none => simp
    | some o => simp [pointerBytes]

theorem openLabel_lower {start : Nat} {msg m2 : Message} (hp : LowerFrom start msg.Packet)
    (hs : start ≤ msg.Packet.length) (h : openLabel msg = some m2) :
    LowerFrom start m2.Packet ∧ start ≤ m2.Packet.length := by
  unfold openLabel at h
  split at h
  · exact absurd h (by simp)
  · simp only [Option.some.injEq] at h
    subst h
    exact ⟨lowerFrom_append hp hs (by simp), by simp; omega⟩

theorem packLoop_lower (dc ne : Bool) (start : Nat) (s : List Nat) :
    ∀ (count n : Nat) (msg : Message) (r : Message × Nat),
      LowerFrom start msg.Packet → start ≤ msg.Packet.length →
      labelsWithin 63 s count = true →
      packLoop dc ne s count n msg = some r →
      ∃ body tail, r.1.Packet = body ++ tail ∧ LowerFrom start body ∧ start ≤ body.length
        ∧ (tail = [] ∨ (dc = true ∧ ∃ o, tail = pointerBytes o)) := by
  induction s with
  | nil =>
    intro count n msg r hp hs hw h
    obtain ⟨k1, k2⟩ := packFinish_lower hp hs (labelsWithin_le _ _ _ hw) h
    exact ⟨r.1.Packet, [], by simp, k1, k2, Or.inl rfl⟩
  | cons c rest ih =>
    intro count n msg r hp hs hw h
    have hcount := labelsWithin_le _ _ _ hw
    rw [labelsWithin] at hw
    rw [packLoop] at h
    by_cases hc : c = 46
    · simp only [hc, if_true, Bool.and_eq_true, decide_eq_true_eq] at hw h
      by_cases h0 : count = 0
      · simp only [h0, if_true] at h
        exact ih _ _ _ _ hp hs (by rw [h0] at hw; exact hw.2) h
      · simp only [h0, if_false] at h
        cases hsb : setByte msg.Packet msg.off count with
        | none => rw [hsb] at h; exact absurd h (by simp)
        | some p =>
          rw [hsb] at h
          obtain ⟨k1, k2⟩ := setByte_lower hp hs (by omega) hsb
          simp only at h
          obtain ⟨c1, c2⟩ := compressIf_lower dc
            { msg with Packet := p, dname := rest, off := (msg.off + (count + 1) % 256) % 65536 }
          split at h
          · rename_i ht
            simp only [Option.some.injEq] at h
            subst h
            obtain ⟨e1, o, -, e2⟩ := c1 ht
            exact ⟨p, pointerBytes o, e2, k1, k2, Or.inr ⟨e1, o, rfl⟩⟩
          · rename_i hf
            have hf2 := c2 (by simpa using hf)
            rw [hf2] at h
            split at h
            · exact absurd h (by simp)
            · rename_i m2 ho
              obtain ⟨q1, q2⟩ := openLabel_lower (by exact k1) (by exact k2) ho
              exact ih _ _ _ _ q1 q2 hw.2 h
    · simp only [hc, if_false] at hw h
      refine ih _ _ _ _ ?_ ?_ ?_ h
      · refine lowerFrom_append hp hs ?_
        intro x hx
        simp only [List.mem_singleton] at hx
        subst hx
        split <;> omega
      · simp; omega
      · have := labelsWithin_le _ _ _ hw
        rw [Nat.mod_eq_of_lt (by omega)]
        exact hw

theorem packDomainName_lower_bytes {msg : Message} {dname : List Nat} {dc : Bool}
    {r : Message × Nat} (hw : labelsWithin 63 (ToLower dname) 0 = true)
    (h : packDomainName msg dname dc = some r) :
    ∃ body tail, r.1.Packet = body ++ tail ∧ LowerFrom msg.Packet.length body
      ∧ msg.Packet.length ≤ body.length
      ∧ (tail = [] ∨ (dc = true ∧ ∃ o, tail = pointerBytes o)) := by
  unfold packDomainName at h
  simp only at h
  obtain ⟨c1, c2⟩ := compressIf_lower dc { msg with dname := ToLower dname }
  split at h
  · rename_i ht
    simp only [Option.some.injEq] at h
    subst h
    obtain ⟨e1, o, -, e2⟩ := c1 ht
    exact ⟨msg.Packet, pointerBytes o, e2, lowerFrom_of_length _, Nat.le_refl _,
      Or.inr ⟨e1, o, rfl⟩⟩
  · rename_i hf
    have hf2 := c2 (by simpa using hf)
    rw [hf2] at h
    split at h
    · exact absurd h (by simp)
    · rename_i m2 ho
      have hp0 : LowerFrom msg.Packet.length
          ({ msg with dname := ToLower dname } : Message).Packet := lowerFrom_of_length msg.Packet
      obtain ⟨q1, q2⟩ := openLabel_lower hp0 (Nat.le_refl _) ho
      exact packLoop_lower dc _ _ _ _ _ _ _ q1 q2 hw h

theorem encodeLabels_shape (dc : Bool) (ls : List (List Nat)) :
    ∀ (d : Dict) (pos : Nat), ∃ p t, ls = p ++ t
      ∧ ((t = [] ∧ (encodeLabels dc d pos ls).1 = labelBytes p ++ [0])
        ∨ (t ≠ [] ∧ dc = true
            ∧ ∃ o, (encodeLabels dc d pos ls).1 = labelBytes p ++ pointerBytes o)) := by
  induction ls with
  | nil =>
    intro d pos
    exact ⟨[], [], rfl, Or.inl ⟨rfl, rfl⟩⟩
  | cons l ls ih =>
    intro d pos
    rw [encodeLabels_cons]
    cases hp : probe dc d (joinLabels (l :: ls)) with
    | some o =>
      have hdc : dc = true := by
        unfold probe at hp
        cases dc with
        | false => simp at hp
        | true => rfl
      exact ⟨[], l :: ls, rfl, Or.inr ⟨by simp, hdc, o, by simp [labelBytes]⟩⟩
    | none =>
      obtain ⟨p, t, e, hcase⟩ := ih ((joinLabels (l :: ls), pos) :: d) (pos + l.length + 1)
      refine ⟨l :: p, t, by rw [e]; rfl, ?_⟩
      rcases hcase with ⟨h1, h2⟩ | ⟨h1, h2, o, h3⟩
      · exact Or.inl ⟨h1, by simp only [h2, labelBytes, List.cons_append, List.append_assoc]⟩
      · exact Or.inr ⟨h1, h2, o, by
          simp only [h3, labelBytes, List.cons_append, List.append_assoc]⟩

/-! ### The record loops behind the question -/

/-- What `MarshalBinary` does to reach a packet: the header codec encodes the
header with the counts taken from the lists, the question is packed behind it,
and then either the call returns (query) or every record of the three lists is
packed in order. -/
theorem MarshalBinary_records {env : Collab} {msg m2 : Message} {p : List Nat}
    (h : MarshalBinary env msg = some (m2, some p)) :
    ∃ header q, env.headerMarshal (countedHeader msg) = some header
      ∧ packQuestion (headerState msg header) = some q
      ∧ (msg.Header.IsQuery = true → p = q.Packet)
      ∧ (msg.Header.IsQuery = false →
          ∃ m4 m5 m6,
            packRRs env { q with Question := { q.Question with Name := ToLower q.Question.Name } }
                msg.Answer = some m4
              ∧ packRRs env m4 msg.Authority = some m5
              ∧ packRRs env m5 msg.Additional = some m6
              ∧ p = m6.Packet) := by
  rw [MarshalBinary_eq] at h
  cases hh : env.headerMarshal (countedHeader msg) with
  | none => rw [hh] at h; simp at h
  | some header =>
    rw [hh] at h
    simp only at h
    cases hq : packQuestion (headerState msg header) with
    | none => rw [hq] at h; simp at h
    | some q =>
      rw [hq] at h
      simp only at h
      obtain ⟨f1, -, f3, f4, f5⟩ := packQuestion_frame hq
      have e1 : q.Header.IsQuery = msg.Header.IsQuery := by rw [← f1]; rfl
      have e3 : q.Answer = msg.Answer := f3.symm
      have e4 : q.Authority = msg.Authority := f4.symm
      have e5 : q.Additional = msg.Additional := f5.symm
      refine ⟨header, q, rfl, hq, ?_, ?_⟩
      · intro hQ
        rw [e1, hQ] at h
        simp only [if_true, Option.some.injEq, Prod.mk.injEq] at h
        exact h.2.symm
      · intro hQ
        rw [e1, hQ] at h
        simp only [Bool.false_eq_true, if_false] at h
        split at h
        · exact absurd h (by simp)
        · rename_i m4 h4
          obtain ⟨-, -, -, g4, g5⟩ := packRRs_frame _ h4
          split at h
          · exact absurd h (by simp)
          · rename_i m5 h5
            obtain ⟨-, -, -, -, k5⟩ := packRRs_frame _ h5
            split at h
            · exact absurd h (by simp)
            · rename_i m6 h6
              simp only [Option.some.injEq, Prod.mk.injEq] at h
              refine ⟨m4, m5, m6, ?_, ?_, ?_, h.2.symm⟩
              · rw [← e3]; exact h4
              · rw [← e4, g4]; exact h5
              · rw [← e5, g5, k5]; exact h6

/-! ## Claims -/

/-- C1: a message flagged as a query, whose header the codec encodes in 12
bytes, is packed into the header state followed by the question: the name as
`packDomainName` writes it without compression, then type and class, and nothing
from the record lists. While the name leaves the packet below the 16-bit cursor
limit the first 12 bytes are the header bytes, and for a name of well-formed
labels the packet is header, length-prefixed labels, zero octet, type, class.
The same message with the three lists emptied packs to the same length. -/
theorem marshalBinary_query (env : Collab) (msg : Message) (h h0 : List Nat)
    (hq : msg.Header.IsQuery = true)
    (hh : env.headerMarshal (countedHeader msg) = some h) (hlen : h.length = 12)
    (hh0 : env.headerMarshal (countedHeader (dropRecords msg)) = some h0)
    (hlen0 : h0.length = 12) :
    ∃ msg2 m1 n msg0 pkt0,
      packDomainName (headerState msg h) msg.Question.Name false = some (m1, n)
      ∧ MarshalBinary env msg
          = some (msg2, some (m1.Packet ++ be16 msg.Question.Typ ++ be16 msg.Question.Class))
      ∧ msg2.Packet = m1.Packet ++ be16 msg.Question.Typ ++ be16 msg.Question.Class
      ∧ (msg.Question.Name.length + 14 ≤ 65536 → m1.Packet.take 12 = h)
      ∧ (∀ ls : List (List Nat), ls ≠ [] → (∀ l ∈ ls, LabelN 63 l) →
          msg.Question.Name = joinLabels ls → msg.Question.Name.length + 14 ≤ 65536 →
          m1.Packet = h ++ wireName (ls.map ToLower))
      ∧ MarshalBinary env (dropRecords msg) = some (msg0, some pkt0)
      ∧ pkt0.length
          = (m1.Packet ++ be16 msg.Question.Typ ++ be16 msg.Question.Class).length := by
  obtain ⟨msg2, m1, n, h1, h2, h3, h4, h5⟩ := marshalBinary_query_core env msg h hq hh hlen
  obtain ⟨msg0, m0, n0, -, k2, -, k4, -⟩ :=
    marshalBinary_query_core env (dropRecords msg) h0 hq hh0 hlen0
  refine ⟨msg2, m1, n, msg0, _, h1, h2, h3, h5, ?_, k2, ?_⟩
  · intro ls hne hls hname hfit
    obtain ⟨m2, e1, e2, -, -⟩ := packDomainName_exact false ls (headerState msg h)
      (msg.dnameOff.getD []) hne (fun l hl => (hls l hl).mono (by decide)) rfl
      (by simp [headerState, sectionHeaderSize, hlen])
      (by rw [← hname]; simp [headerState, hlen]; omega)
    rw [← hname, h1] at e1
    simp only [Option.some.injEq, Prod.mk.injEq] at e1
    rw [e1.1, e2, encodeLabels_plain]
    rfl
  · simp only [List.length_append, h4, k4]
    rfl

/-- C1 at the query for `kilabit.info` carrying four placeholder records: the
packet is the 12 header bytes and the 18 bytes of the question. -/
theorem marshalBinary_query_kilabit :
    ∃ msg2, MarshalBinary rawEnv kilabitRequest
        = some (msg2, some (headerBytes (countedHeader kilabitRequest)
            ++ [7, 107, 105, 108, 97, 98, 105, 116, 4, 105, 110, 102, 111, 0, 0, 1, 0, 1]))
      ∧ msg2.Packet.length = 30 := by
  obtain ⟨msg2, m1, n, msg0, pkt0, -, h2, h3, -, h5, -, -⟩ :=
    marshalBinary_query rawEnv kilabitRequest (headerBytes (countedHeader kilabitRequest))
      (headerBytes (countedHeader (dropRecords kilabitRequest))) rfl rfl rfl rfl rfl
  have e := h5 kilabitInfo (by decide) (by decide) rfl (by decide)
  rw [e] at h2 h3
  have eb : headerBytes (countedHeader kilabitRequest) ++ wireName (kilabitInfo.map ToLower)
      ++ be16 kilabitRequest.Question.Typ ++ be16 kilabitRequest.Question.Class
      = headerBytes (countedHeader kilabitRequest)
        ++ [7, 107, 105, 108, 97, 98, 105, 116, 4, 105, 110, 102, 111, 0, 0, 1, 0, 1] := by
    decide
  rw [eb] at h2 h3
  exact ⟨msg2, h2, by rw [h3]; decide⟩

/-- C2: for a question name made of `k ≥ 1` labels of 1..63 bytes joined by single
dots, `packQuestion` (dictionary present, cursor at the end of the packet, the
name fitting below the 16-bit cursor limit) appends exactly, for each label in
order, its length octet and its lower-cased bytes, then one zero octet, then type
and class as big-endian 16-bit integers. -/
theorem packQuestion_wire (ls : List (List Nat)) (msg : Message) (d : Dict)
    (hne : ls ≠ []) (hls : ∀ l ∈ ls, LabelN 63 l)
    (hname : msg.Question.Name = joinLabels ls)
    (hd : msg.dnameOff = some d) (hoff : msg.off = msg.Packet.length)
    (hfit : msg.Packet.length + (joinLabels ls).length + 2 ≤ 65536) :
    ∃ msg2, packQuestion msg = some msg2
      ∧ msg2.Packet = msg.Packet ++ wireName (ls.map ToLower)
          ++ be16 msg.Question.Typ ++ be16 msg.Question.Class := by
  obtain ⟨m2, h1, h2, -, -⟩ := packDomainName_exact false ls msg d hne
    (fun l hl => (hls l hl).mono (by decide)) hd hoff hfit
  have hq : m2.Question = msg.Question := (packDomainName_frame h1).2.1.symm
  unfold packQuestion
  rw [hname, h1]
  refine ⟨_, rfl, ?_⟩
  simp [AppendUint16, h2, encodeLabels_plain, hq, be16]

/-- C2, the example of the package: for `kilabit.info`, type A (1), class IN (1)
the appended bytes are 07 kilabit 04 info 00 00 01 00 01. -/
theorem packQuestion_wire_kilabit :
    ∃ msg2, packQuestion kilabitQuery = some msg2
      ∧ msg2.Packet = kilabitQuery.Packet
          ++ [7, 107, 105, 108, 97, 98, 105, 116, 4, 105, 110, 102, 111, 0, 0, 1, 0, 1] := by
  have h := packQuestion_wire kilabitInfo kilabitQuery [] (by decide) (by decide) rfl rfl rfl
    (by decide)
  obtain ⟨m, h1, h2⟩ := h
  exact ⟨m, h1, by rw [h2]; decide⟩

/-- C3 (amended): when the pending suffix is in the dictionary at an offset `o`
below 2^14, `compress`, and `packDomainName` with compression enabled both at
the start of a name and at a label boundary inside it, append exactly the two
bytes `b0 = 0xC0 + o / 256`, `b1 = o % 256`, for which the top two bits of `b0`
are set and `((b0 & 0x3F) << 8) | b1 = o`, and write nothing further for that
name. -/
theorem packDomainName_pointer (msg : Message) (d : Dict) (o : Nat)
    (hd : msg.dnameOff = some d) (ho : o < 16384) :
    (192 + o / 256) &&& 192 = 192
      ∧ (((192 + o / 256) &&& 63) <<< 8) ||| (o % 256) = o
      ∧ (d.get msg.dname = some o →
          compress msg = ({ msg with Packet := msg.Packet ++ [192 + o / 256, o % 256],
                                     off := (msg.off + 2) % 65536 }, true))
      ∧ (∀ dname, d.get (ToLower dname) = some o →
          ∃ m2, packDomainName msg dname true = some (m2, 2)
            ∧ m2.Packet = msg.Packet ++ [192 + o / 256, o % 256]
            ∧ m2.off = (msg.off + 2) % 65536)
      ∧ (∀ ne rest count n p, count ≠ 0 → setByte msg.Packet msg.off count = some p →
          d.get rest = some o →
          ∃ m2, packLoop true ne (46 :: rest) count n msg = some (m2, n + (count + 1) % 256 + 2)
            ∧ m2.Packet = p ++ [192 + o / 256, o % 256]) := by
  obtain ⟨e, h2, h3⟩ := pointerBytes_near ho
  refine ⟨h2, h3, ?_, ?_, ?_⟩
  · intro hg
    unfold compress lookupDict
    simp only [hd, hg]
    rw [← e]
    rfl
  · intro dname hg
    unfold packDomainName
    simp only [compressIf_eq, hd, Option.getD_some, probe, if_true, hg, e]
    exact ⟨_, rfl, rfl, rfl⟩
  · intro ne rest count n p hc hs hg
    rw [packLoop]
    simp only [if_true, if_neg hc, hs, compressIf_eq, hd, Option.getD_some, probe, hg, e]
    exact ⟨_, rfl, rfl⟩

/-- C3 at a concrete state: with the suffix `com` recorded at offset 12, the name
`COM` is written as the two bytes `C0 0C`. -/
theorem packDomainName_pointer_com :
    ∃ m2, packDomainName comState [67, 79, 77] true = some (m2, 2)
      ∧ m2.Packet = comState.Packet ++ [192, 12] :=
  match (packDomainName_pointer comState [([99, 111, 109], 12)] 12 rfl (by decide)).2.2.2.1
      [67, 79, 77] (by decide) with
  | ⟨m2, k1, k2, _⟩ => ⟨m2, k1, k2⟩

/-- C3 as stated fails at offset 16384: the name `a` is first written at offset
16384 and recorded there; its next occurrence is replaced by the pointer bytes
`C0 00`, which decode to offset 0. -/
theorem packDomainName_pointer_far :
    ∃ m1 n1 m2, packDomainName farState [97] true = some (m1, n1)
      ∧ lookupDict m1.dnameOff [97] = some 16384
      ∧ packDomainName m1 [97] true = some (m2, 2)
      ∧ m2.Packet = m1.Packet ++ [192, 0]
      ∧ ((192 &&& 63) <<< 8) ||| 0 ≠ 16384 := by
  have hl : farState.Packet.length = 16384 := List.length_replicate _ _
  obtain ⟨m1, h1, -, -, h4⟩ := packDomainName_exact true [[97]] farState [] (by decide)
    (by decide) rfl hl.symm (by rw [hl]; decide)
  have he : (encodeLabels true [] 16384 ([[97]].map ToLower)).2 = [([97], 16384)] := by decide
  rw [hl, he] at h4
  have hj : joinLabels [[97]] = [97] := rfl
  rw [hj] at h1
  have h2 : ∃ m2, packDomainName m1 [97] true = some (m2, 2)
      ∧ m2.Packet = m1.Packet ++ [192, 0] := by
    unfold packDomainName
    simp only [compressIf_eq, h4, Option.getD_some]
    have hp : probe true [([97], 16384)] (ToLower [97]) = some 16384 := by decide
    simp only [hp, if_true]
    have hb : pointerBytes 16384 = [192, 0] := by decide
    exact ⟨_, rfl, by simp only [hb]⟩
  obtain ⟨m2, k1, k2⟩ := h2
  exact ⟨m1, _, m2, h1, by rw [h4]; decide, k1, k2, by decide⟩

/-- C4 fails on the code: in the packet of a response with a TXT record followed
by an NS record `b.c -> d.c`, the name server `d.c` is written as label `d`
and a pointer for the suffix `c` (bytes 52, 53: `C0 24`). The pointer holds
offset 36, but the bytes at 36 do not decode to `c`: after `packTXT` the cursor
is one short of `len(Packet)`, so length octets and dictionary offsets of the
following names are one byte off. -/
theorem marshalBinary_pointer_off_by_one :
    ∃ msg2 pkt, MarshalBinary rawEnv txtThenNs = some (msg2, some pkt)
      ∧ pkt = [0, 0, 128, 0, 0, 0, 0, 2, 0, 0, 0, 0, 1, 113, 0, 0, 1, 0, 1,
               1, 116, 0, 0, 16, 0, 1, 0, 0, 0, 0, 0, 3, 2, 104, 1,
               0, 1, 0, 99, 0, 0, 2, 0, 1, 0, 0, 0, 0, 4,
               1, 0, 100, 192, 36]
      ∧ pkt.drop 52 = pointerBytes 36
      ∧ decodeName pkt 16 36 ≠ some [[99]] := by
  refine ⟨_, _, rfl, ?_, ?_, ?_⟩ <;> decide

/-- C5 (amended): for two names made of non-empty labels of at most 254 bytes
joined by single dots that share the label suffix `ss`, in an encode pass
(dictionary present and suffix-closed, cursor not beyond the end of the packet):
after the first name has been encoded (with or without compression), encoding
the second with compression enabled appends strictly fewer bytes than encoding
it from the same state with compression disabled: at most the labels before the
shared suffix and a 2-byte pointer, against all labels and the zero octet. The
state after the first name is again one of an encode pass. -/
theorem compress_saves (m0 : Message) (d0 : Dict) (c1 : Bool) (p1 p2 ss : List (List Nat))
    (hd : m0.dnameOff = some d0) (hoff : m0.off ≤ m0.Packet.length)
    (hcl : SuffixClosed d0.keys)
    (h1 : ∀ l ∈ p1 ++ ss, LabelN 254 l) (h2 : ∀ l ∈ p2 ++ ss, LabelN 254 l) (hss : ss ≠ []) :
    ∃ m1 n1 d1 mc nc mu nu,
      packDomainName m0 (joinLabels (p1 ++ ss)) c1 = some (m1, n1)
      ∧ m1.dnameOff = some d1 ∧ SuffixClosed d1.keys ∧ m1.off ≤ m1.Packet.length
      ∧ packDomainName m1 (joinLabels (p2 ++ ss)) true = some (mc, nc)
      ∧ packDomainName m1 (joinLabels (p2 ++ ss)) false = some (mu, nu)
      ∧ mc.Packet.length < mu.Packet.length
      ∧ mc.Packet.length + 1 ≤ m1.Packet.length + (wireName p2).length + 2
      ∧ mu.Packet.length = m1.Packet.length + (wireName (p2 ++ ss)).length := by
  have hne1 : p1 ++ ss ≠ [] := fun h => hss (List.append_eq_nil.1 h).2
  have hne2 : p2 ++ ss ≠ [] := fun h => hss (List.append_eq_nil.1 h).2
  obtain ⟨m1, d1, r1, -, ro, rd, rk⟩ := packDomainName_wf c1 (p1 ++ ss) m0 d0 hne1 h1 hd hoff
  obtain ⟨mc, dc2, c1e, c2, -, -, -⟩ := packDomainName_wf true (p2 ++ ss) m1 d1 hne2 h2 rd ro
  obtain ⟨mu, du2, u1e, u2, -, -, -⟩ := packDomainName_wf false (p2 ++ ss) m1 d1 hne2 h2 rd ro
  have hsl : ss.map ToLower ≠ [] := fun h => hss (List.map_eq_nil_iff.1 h)
  have hpl : ∀ x ∈ (p1 ++ ss).map ToLower, PlainLabel x := by
    intro x hx
    obtain ⟨a, ha, rfl⟩ := List.mem_map.1 hx
    exact plainLabel_of_labelN (h1 a ha)
  have hcl1 : SuffixClosed d1.keys := by
    rw [rk]; exact specWalk_closed c1 _ _ hpl hcl
  have hcov : joinLabels (ss.map ToLower) ∈ d1.keys := by
    rw [rk]
    refine specWalk_covers c1 _ d0.keys ?_ (p1.map ToLower) (ss.map ToLower) hsl
      (List.map_append _ _ _)
    intro q p t ht he hm
    refine hcl p t ?_ ht hm
    intro x hx
    exact hpl x (by rw [he]; exact List.mem_append_right _ hx)
  have hle := specWalk_le (ss.map ToLower) hsl (p2.map ToLower) d1.keys hcov
  rw [← List.map_append, wireName_length_map] at hle
  have hu := specWalk_plain ((p2 ++ ss).map ToLower) d1.keys
  rw [wireName_length_map] at hu
  have hap := wireName_length_append p2 ss
  have hge := wireName_length_ge ss hss (fun x hx => (h1 x (List.mem_append_right _ hx)).1)
  refine ⟨m1, _, d1, mc, _, mu, _, r1, rd, hcl1, ro, c1e, u1e, ?_, ?_, ?_⟩
  · rw [c2, u2, hu]; omega
  · rw [c2]; omega
  · rw [u2, hu]

/-- C5 at `www.example.com` then `mail.example.com`, right after the header. -/
theorem compress_saves_example :
    ∃ m1 n1 d1 mc nc mu nu,
      packDomainName freshState (joinLabels ([[119, 119, 119]] ++ exampleCom)) true
        = some (m1, n1)
      ∧ m1.dnameOff = some d1 ∧ SuffixClosed d1.keys ∧ m1.off ≤ m1.Packet.length
      ∧ packDomainName m1 (joinLabels ([[109, 97, 105, 108]] ++ exampleCom)) true
        = some (mc, nc)
      ∧ packDomainName m1 (joinLabels ([[109, 97, 105, 108]] ++ exampleCom)) false
        = some (mu, nu)
      ∧ mc.Packet.length < mu.Packet.length
      ∧ mc.Packet.length + 1 ≤ m1.Packet.length + (wireName [[109, 97, 105, 108]]).length + 2
      ∧ mu.Packet.length
        = m1.Packet.length + (wireName ([[109, 97, 105, 108]] ++ exampleCom)).length :=
  compress_saves freshState [] true [[119, 119, 119]] [[109, 97, 105, 108]] exampleCom rfl
    (by decide) suffixClosed_nil (by decide) (by decide) (by decide)

/-- C5 as stated fails when the first name has a doubled dot: after `x..com` the
text `com` is not in the dictionary (the empty label is skipped without a
dictionary entry), so `y.com` takes 7 bytes with compression as without. -/
theorem compress_saves_not_after_doubled_dot :
    ∃ m1 n1 mc nc mu nu,
      packDomainName freshState [120, 46, 46, 99, 111, 109] true = some (m1, n1)
      ∧ packDomainName m1 [121, 46, 99, 111, 109] true = some (mc, nc)
      ∧ packDomainName m1 [121, 46, 99, 111, 109] false = some (mu, nu)
      ∧ mc.Packet.length = mu.Packet.length
      ∧ mc.Packet = mu.Packet := by
  refine ⟨_, _, _, _, _, _, rfl, rfl, rfl, ?_, ?_⟩ <;> decide

/-- C6 (amended): for the payload encoders that write domain names (NS, CNAME,
MB, MG, MR, NULL, PTR through `packTextAsDomain`; SOA; MINFO; MX; SRV), for
every dictionary, when the cursor equals `len(Packet)` on entry and each name
is made of at least one label, the labels of 1..254 bytes joined by single
dots: the encoder returns, and the 16-bit RDLENGTH field at the entry cursor
holds the number `R` of bytes appended after it whenever `R` is below 65536.
`R` is the compressed size: the bytes of the walk for NS-like records (2 when
the whole name is in the dictionary), the two walks plus 20 for SOA, the two
walks for MINFO, the walk plus 2 for MX, the full name plus 6 for SRV. -/
theorem rdlength_counts_appended (env : Collab) (msg : Message) (d : Dict)
    (rr : ResourceRecord)
    (hd : msg.dnameOff = some d) (hoff : msg.off = msg.Packet.length) :
    (∀ ls : List (List Nat), ls ≠ [] → (∀ l ∈ ls, LabelN 254 l) → rr.Text.v = joinLabels ls →
      ∃ m2 R, packTextAsDomain msg rr = some m2
        ∧ ((rr.Typ = QueryTypeNS ∨ rr.Typ = QueryTypeCNAME ∨ rr.Typ = QueryTypeMB
            ∨ rr.Typ = QueryTypeMG ∨ rr.Typ = QueryTypeMR ∨ rr.Typ = QueryTypeNULL
            ∨ rr.Typ = QueryTypePTR) → packRData env msg rr = some m2)
        ∧ m2.Packet.length = msg.Packet.length + 2 + R
        ∧ (R < 65536 → rdField m2.Packet msg.Packet.length = R)
        ∧ R = (specWalk true d.keys (ls.map ToLower)).1
        ∧ (joinLabels (ls.map ToLower) ∈ d.keys → R = 2))
    ∧ (∀ ls1 ls2 : List (List Nat), ls1 ≠ [] → (∀ l ∈ ls1, LabelN 254 l) →
        rr.SOA.MName = joinLabels ls1 → ls2 ≠ [] → (∀ l ∈ ls2, LabelN 254 l) →
        rr.SOA.RName = joinLabels ls2 →
      ∃ m2 R, packSOA msg rr = some m2
        ∧ (rr.Typ = QueryTypeSOA → packRData env msg rr = some m2)
        ∧ m2.Packet.length = msg.Packet.length + 2 + R
        ∧ (R < 65536 → rdField m2.Packet msg.Packet.length = R)
        ∧ R = (specWalk true d.keys (ls1.map ToLower)).1
            + (specWalk true (specWalk true d.keys (ls1.map ToLower)).2 (ls2.map ToLower)).1
            + 20)
    ∧ (∀ ls1 ls2 : List (List Nat), ls1 ≠ [] → (∀ l ∈ ls1, LabelN 254 l) →
        rr.MInfo.RMailBox = joinLabels ls1 → ls2 ≠ [] → (∀ l ∈ ls2, LabelN 254 l) →
        rr.MInfo.EmailBox = joinLabels ls2 →
      ∃ m2 R, packMINFO msg rr = some m2
        ∧ (rr.Typ = QueryTypeMINFO → packRData env msg rr = some m2)
        ∧ m2.Packet.length = msg.Packet.length + 2 + R
        ∧ (R < 65536 → rdField m2.Packet msg.Packet.length = R)
        ∧ R = (specWalk true d.keys (ls1.map ToLower)).1
            + (specWalk true (specWalk true d.keys (ls1.map ToLower)).2 (ls2.map ToLower)).1)
    ∧ (∀ ls : List (List Nat), ls ≠ [] → (∀ l ∈ ls, LabelN 254 l) →
        rr.MX.Exchange = joinLabels ls →
      ∃ m2 R, packMX msg rr = some m2
        ∧ (rr.Typ = QueryTypeMX → packRData env msg rr = some m2)
        ∧ m2.Packet.length = msg.Packet.length + 2 + R
        ∧ (R < 65536 → rdField m2.Packet msg.Packet.length = R)
        ∧ R = (specWalk true d.keys (ls.map ToLower)).1 + 2)
    ∧ (∀ ls : List (List Nat), ls ≠ [] → (∀ l ∈ ls, LabelN 254 l) →
        rr.SRV.Target = joinLabels ls →
      ∃ m2 R, packSRV msg rr = some m2
        ∧ (rr.Typ = QueryTypeSRV → packRData env msg rr = some m2)
        ∧ m2.Packet.length = msg.Packet.length + 2 + R
        ∧ (R < 65536 → rdField m2.Packet msg.Packet.length = R)
        ∧ R = (wireName ls).length + 6) := by
  refine ⟨?_, ?_, ?_, ?_, ?_⟩
  · intro ls hne hls hname
    obtain ⟨m2, h1, h2, h3⟩ := packTextAsDomain_rdlength msg d rr ls hd hoff hne hls hname
    refine ⟨m2, _, h1, ?_, h2, h3, rfl, fun hk => ?_⟩
    · intro ht
      rw [← h1]
      unfold packRData
      rcases ht with h | h | h | h | h | h | h <;> rw [h] <;> rfl
    · exact specWalk_found _ _ (fun h => hne (List.map_eq_nil_iff.1 h)) hk
  · intro ls1 ls2 hne1 hls1 hn1 hne2 hls2 hn2
    obtain ⟨m2, h1, h2, h3⟩ :=
      packSOA_rdlength msg d rr ls1 ls2 hd hoff hne1 hls1 hn1 hne2 hls2 hn2
    refine ⟨m2, _, h1, fun ht => ?_, h2, h3, rfl⟩
    rw [← h1]; unfold packRData; rw [ht]; rfl
  · intro ls1 ls2 hne1 hls1 hn1 hne2 hls2 hn2
    obtain ⟨m2, h1, h2, h3⟩ :=
      packMINFO_rdlength msg d rr ls1 ls2 hd hoff hne1 hls1 hn1 hne2 hls2 hn2
    refine ⟨m2, _, h1, fun ht => ?_, h2, h3, rfl⟩
    rw [← h1]; unfold packRData; rw [ht]; rfl
  · intro ls hne hls hname
    obtain ⟨m2, h1, h2, h3⟩ := packMX_rdlength msg d rr ls hd hoff hne hls hname
    refine ⟨m2, _, h1, fun ht => ?_, h2, h3, rfl⟩
    rw [← h1]; unfold packRData; rw [ht]; rfl
  · intro ls hne hls hname
    obtain ⟨m2, h1, h2, h3⟩ := packSRV_rdlength msg d rr ls hd hoff hne hls hname
    refine ⟨m2, _, h1, fun ht => ?_, h2, h3, rfl⟩
    rw [← h1]; unfold packRData; rw [ht]; rfl

/-- C6 at the NS record `ns.example.com` with `example.com` in the dictionary: the
name is written as the label `ns` and a pointer, and RDLENGTH is 5. -/
theorem rdlength_counts_appended_ns :
    ∃ m2, packTextAsDomain midState nsExample = some m2
      ∧ m2.Packet.length = midState.Packet.length + 2 + 5
      ∧ rdField m2.Packet midState.Packet.length = 5 := by
  obtain ⟨m2, R, h1, -, h3, h4, h5, -⟩ :=
    (rdlength_counts_appended rawEnv midState
      [([99, 111, 109], 24), (joinLabels exampleCom, 16)] nsExample rfl (by decide)).1
      ([[110, 115]] ++ exampleCom) (by decide) (by decide) (by decide)
  have hR : R = 5 := by rw [h5]; decide
  subst hR
  exact ⟨m2, h1, h3, h4 (by decide)⟩

set_option maxRecDepth 100000 in
/-- C6 as stated fails for a label of 255 bytes: the byte counter wraps when the
label is closed, so for an NS record whose name is one such label the RDLENGTH
field holds 1 while 257 bytes follow it. -/
theorem rdlength_wrong_for_long_label :
    ∃ m2, packTextAsDomain freshState nsLongLabel = some m2
      ∧ m2.Packet.length = freshState.Packet.length + 2 + 257
      ∧ rdField m2.Packet freshState.Packet.length = 1 := by
  refine ⟨_, rfl, ?_, ?_⟩ <;> decide

set_option maxRecDepth 100000 in
/-- C7 fails on the code: in a response whose answers are a TXT record followed
by an SRV record with target `sip.example.com`, `packTXT` leaves the cursor at 34
for a packet of 35 bytes, so in the SRV record every length octet of the target
is stored one byte before its place: the 17 bytes written for the target are
`00 s i 07 00 e x a m p l 03 00 c o m 00` in place of
`03 s i p 07 e x a m p l e 03 c o m 00`, and the octet 3 of the first label has
replaced the low byte of the port, which reads 4867 for 5060. The same record as
the only answer is written with its port and the full label sequence. -/
theorem srv_target_misplaced_after_txt :
    ∃ mq m1 m2 pkt m3 pkt3,
      packQuestion (headerState txtThenSrv (headerBytes (countedHeader txtThenSrv))) = some mq
      ∧ packRR rawEnv mq txtRecord = some m1
      ∧ m1.off = 34 ∧ m1.Packet.length = 35
      ∧ MarshalBinary rawEnv txtThenSrv = some (m2, some pkt)
      ∧ pkt.length = 54 + 17
      ∧ srvExample.SRV.Target = joinLabels sipExampleCom
      ∧ wireName sipExampleCom
          = [3, 115, 105, 112, 7, 101, 120, 97, 109, 112, 108, 101, 3, 99, 111, 109, 0]
      ∧ pkt.drop 54
          = [0, 115, 105, 7, 0, 101, 120, 97, 109, 112, 108, 3, 0, 99, 111, 109, 0]
      ∧ pkt.drop 54 ≠ wireName sipExampleCom
      ∧ srvExample.SRV.Port = 5060 ∧ rdField pkt 52 = 4867
      ∧ MarshalBinary rawEnv { txtThenSrv with Answer := [srvExample] } = some (m3, some pkt3)
      ∧ pkt3.drop 38 = wireName sipExampleCom
      ∧ rdField pkt3 36 = 5060 := by
  refine ⟨_, _, _, _, _, _, rfl, rfl, ?_, ?_, rfl, ?_, rfl, ?_, ?_, ?_, rfl, ?_, rfl, ?_, ?_⟩
    <;> decide

set_option maxRecDepth 100000 in
/-- C8 fails on the code: in a response with an AAAA answer and an OPT record of
option length 100 among the additional records, `packAAAA` leaves the cursor at 64
for a packet of 48 bytes, so `packOPT` backfills RDLENGTH at indices 72 and 73,
inside the option data: after the option code and the length field 512 the
packet holds 9 data bytes, then `00 68`, then 89 data bytes, not the first 100
bytes of the option data, and the RDLENGTH field stays 0. With option length 4
the backfill lies beyond the packet and the encode has no result. Without the
AAAA answer the 100 data bytes are written as they are. -/
theorem opt_data_overwritten_after_aaaa :
    ∃ mq m1 m2 pkt m3 pkt3,
      packQuestion (headerState (aaaaThenOpt 100)
          (headerBytes (countedHeader (aaaaThenOpt 100)))) = some mq
      ∧ packRR rawEnv mq aaaaRecord = some m1
      ∧ m1.off = 64 ∧ m1.Packet.length = 48
      ∧ MarshalBinary rawEnv (aaaaThenOpt 100) = some (m2, some pkt)
      ∧ pkt.length = 63 + 100
      ∧ (pkt.drop 59).take 4 = be16 10 ++ be16 512
      ∧ (optRecord 100 0).OPT.Data.take 100 = List.replicate 100 7
      ∧ pkt.drop 63 = List.replicate 9 7 ++ [0, 104] ++ List.replicate 89 7
      ∧ pkt.drop 63 ≠ (optRecord 100 0).OPT.Data.take 100
      ∧ rdField pkt 57 = 0
      ∧ MarshalBinary rawEnv (aaaaThenOpt 4) = none
      ∧ MarshalBinary rawEnv { aaaaThenOpt 100 with Answer := [] } = some (m3, some pkt3)
      ∧ pkt3.drop 34 = (optRecord 100 0).OPT.Data.take 100 := by
  refine ⟨_, _, _, _, _, _, rfl, rfl, ?_, ?_, rfl, ?_, ?_, ?_, ?_, ?_, ?_, ?_, rfl, ?_⟩
    <;> decide

set_option maxRecDepth 100000 in
/-- C9 fails on the code: `packRR` appends the zero octet of the OPT name without
moving the cursor, so `packOPT` backfills RDLENGTH one byte early, on the last
TTL byte and the first RDLENGTH byte. For option length 100 (RDATA of 104 bytes)
the RDLENGTH field reads 26624; for option length 300 (RDATA of 304 bytes) it
reads 12288 and the TTL field, written as 32768, reads 32769. -/
theorem packRR_opt_rdlength_misplaced :
    ∃ m2 m3, packRR rawEnv freshState (optRecord 100 0) = some m2
      ∧ m2.Packet.take 21 = freshState.Packet ++ [0, 0, 41, 16, 0, 0, 0, 128, 0]
      ∧ m2.Packet.length = 21 + 2 + 104
      ∧ rdField m2.Packet 21 = 26624
      ∧ packRR rawEnv freshState (optRecord 300 0) = some m3
      ∧ m3.Packet.length = 21 + 2 + 304
      ∧ ttlOf (optRecord 300 0) = 32768
      ∧ ttlField m3.Packet 17 = 32769
      ∧ rdField m3.Packet 21 = 12288 := by
  refine ⟨_, _, rfl, ?_, ?_, ?_, rfl, ?_, ?_, ?_, ?_⟩ <;> decide

/-- C10 (amended): whenever `MarshalBinary` returns (with a packet or with the
header codec's error), the header holds the three record counts recomputed from
the lists, `ANCount = len(Answer)`, `NSCount = len(Authority)`,
`ARCount = len(Additional)` modulo 65536, whatever the caller had put there,
while `QDCount` and the other header fields are the caller's; the lengths of
the lists are unchanged. -/
theorem marshalBinary_counts (env : Collab) (msg msg2 : Message) (r : Option (List Nat))
    (h : MarshalBinary env msg = some (msg2, r)) :
    msg2.Header.ANCount = msg.Answer.length % 65536
      ∧ msg2.Header.NSCount = msg.Authority.length % 65536
      ∧ msg2.Header.ARCount = msg.Additional.length % 65536
      ∧ (msg.Answer.length < 65536 → msg2.Header.ANCount = msg2.Answer.length)
      ∧ (msg.Authority.length < 65536 → msg2.Header.NSCount = msg2.Authority.length)
      ∧ (msg.Additional.length < 65536 → msg2.Header.ARCount = msg2.Additional.length)
      ∧ msg2.Header.QDCount = msg.Header.QDCount
      ∧ msg2.Header.ID = msg.Header.ID ∧ msg2.Header.IsQuery = msg.Header.IsQuery := by
  obtain ⟨hh, h1, h2, h3⟩ := MarshalBinary_header h
  rw [hh, h1, h2, h3]
  refine ⟨rfl, rfl, rfl, fun hl => ?_, fun hl => ?_, fun hl => ?_, rfl, rfl, rfl⟩
  · exact Nat.mod_eq_of_lt hl
  · exact Nat.mod_eq_of_lt hl
  · exact Nat.mod_eq_of_lt hl

/-- C10 at the `kilabit.info` request, whose header arrives with all counts 0 and
whose lists hold 1, 2 and 1 records. -/
theorem marshalBinary_counts_kilabit :
    ∃ msg2 r, MarshalBinary rawEnv kilabitRequest = some (msg2, r)
      ∧ msg2.Header.ANCount = 1 ∧ msg2.Header.NSCount = 2 ∧ msg2.Header.ARCount = 1
      ∧ msg2.Header.QDCount = 0 := by
  have hr : ∃ msg2 r, MarshalBinary rawEnv kilabitRequest = some (msg2, r) := ⟨_, _, rfl⟩
  obtain ⟨msg2, r, h⟩ := hr
  obtain ⟨h1, h2, h3, -, -, -, h7, -, -⟩ := marshalBinary_counts rawEnv kilabitRequest msg2 r h
  exact ⟨msg2, r, h, h1, h2, h3, h7⟩

/-- C10 as stated fails for `QDCount`: two requests that differ only in the
`QDCount` the caller supplied (0 and 7) come back with `QDCount` 0 and 7, and the
header bytes 4 and 5 of the two packets carry 0 and 7: the field is not
recomputed from the presence of the question. -/
theorem marshalBinary_qdcount_kept :
    ∃ a b pa pb,
      MarshalBinary rawEnv kilabitRequest = some (a, some pa)
      ∧ MarshalBinary rawEnv
          { kilabitRequest with Header := { kilabitRequest.Header with QDCount := 7 } }
          = some (b, some pb)
      ∧ a.Header.QDCount = 0 ∧ b.Header.QDCount = 7
      ∧ rdField pa 4 = 0 ∧ rdField pb 4 = 7 := by
  refine ⟨_, _, _, _, rfl, rfl, ?_, ?_, ?_, ?_⟩ <;> decide

/-- C11 fails on the code: in a response whose only answer is an AAAA record the
cursor equals `len(Packet)` after the question, but `packAAAA` adds
`rdataIPv6Size` to the cursor twice: the record appends 29 bytes and moves the
cursor by 45, and `MarshalBinary` returns a packet of 48 bytes with the cursor
at 64. After a TXT answer the cursor is one short of `len(Packet)` (34 for 35
bytes), and for the question name `a.` it is one short after `packQuestion`
(19 for 20 bytes). -/
theorem cursor_leaves_packet_end :
    ∃ mq m2 msg2 pkt msg3 pkt3 msg4 pkt4,
      packQuestion (headerState aaaaResponse (headerBytes (countedHeader aaaaResponse)))
          = some mq
      ∧ mq.off = 19 ∧ mq.Packet.length = 19
      ∧ packRR rawEnv mq aaaaRecord = some m2
      ∧ m2.Packet.length = mq.Packet.length + 29 ∧ m2.off = mq.off + 45
      ∧ MarshalBinary rawEnv aaaaResponse = some (msg2, some pkt)
      ∧ msg2.Packet = pkt ∧ pkt.length = 48 ∧ msg2.off = 64
      ∧ MarshalBinary rawEnv { aaaaResponse with Answer := [txtRecord] } = some (msg3, some pkt3)
      ∧ pkt3.length = 35 ∧ msg3.off = 34
      ∧ MarshalBinary rawEnv
          { aaaaResponse with
            Header := { aaaaResponse.Header with IsQuery := true }
            Question := { aaaaResponse.Question with Name := [97, 46] } }
          = some (msg4, some pkt4)
      ∧ pkt4.length = 20 ∧ msg4.off = 19 := by
  refine ⟨_, _, _, _, _, _, _, _, rfl, ?_, ?_, rfl, ?_, ?_, rfl, ?_, ?_, ?_, rfl, ?_, ?_, rfl,
    ?_, ?_⟩ <;> decide

/-- C12: with the three lists empty before the call, `UnmarshalBinary` leaves the
header as decoded and reads the records that its counts call for in one run from
behind the question, `ANCount + NSCount + ARCount` of them, up to the first that
fails: the error returned is the error of that record (`nil` when none fails),
Answer holds the first `ANCount` records read, Authority the next `NSCount`,
Additional the rest. When no record fails the lengths of the lists are
`ANCount`, `NSCount` and `ARCount`; when one fails the lists together hold
exactly the records read before it, fewer than the counts call for. -/
theorem unmarshalBinary_count_driven (env : Decoders) (msg : Message) (packet : List Nat)
    (han : msg.Answer = []) (hns : msg.Authority = []) (har : msg.Additional = []) :
    (UnmarshalBinary env msg packet).1.Header = decodedHeader env msg packet
      ∧ (UnmarshalBinary env msg packet).2 = (recordStream env msg packet).2.2
      ∧ (UnmarshalBinary env msg packet).1.Answer
          = (recordStream env msg packet).1.take (decodedHeader env msg packet).ANCount
      ∧ (UnmarshalBinary env msg packet).1.Authority
          = ((recordStream env msg packet).1.drop (decodedHeader env msg packet).ANCount).take
              (decodedHeader env msg packet).NSCount
      ∧ (UnmarshalBinary env msg packet).1.Additional
          = (recordStream env msg packet).1.drop
              ((decodedHeader env msg packet).ANCount + (decodedHeader env msg packet).NSCount)
      ∧ ((UnmarshalBinary env msg packet).2 = none →
          (UnmarshalBinary env msg packet).1.Answer.length
              = (decodedHeader env msg packet).ANCount
            ∧ (UnmarshalBinary env msg packet).1.Authority.length
              = (decodedHeader env msg packet).NSCount
            ∧ (UnmarshalBinary env msg packet).1.Additional.length
              = (decodedHeader env msg packet).ARCount)
      ∧ ((UnmarshalBinary env msg packet).2 ≠ none →
          (UnmarshalBinary env msg packet).1.Answer.length
              + (UnmarshalBinary env msg packet).1.Authority.length
              + (UnmarshalBinary env msg packet).1.Additional.length
              = (recordStream env msg packet).1.length
            ∧ (recordStream env msg packet).1.length
              < (decodedHeader env msg packet).ANCount + (decodedHeader env msg packet).NSCount
                + (decodedHeader env msg packet).ARCount) := by
  obtain ⟨h0, h1, h2, h3, h4⟩ := UnmarshalBinary_stream env msg packet
  rw [han, List.nil_append] at h2
  rw [hns, List.nil_append] at h3
  rw [har, List.nil_append] at h4
  refine ⟨h0, h1, h2, h3, h4, fun hn => ?_, fun he => ?_⟩
  · rw [h1] at hn
    have hl := (decodeRecords_length env packet _ (recordsStart env msg packet)).2 hn
    change (recordStream env msg packet).1.length = _ at hl
    rw [h2, h3, h4]
    simp only [List.length_take, List.length_drop, hl]
    omega
  · rw [h1] at he
    have hl := decodeRecords_short env packet _ (recordsStart env msg packet) he
    change (recordStream env msg packet).1.length < _ at hl
    rw [h2, h3, h4]
    simp only [List.length_take, List.length_drop]
    omega

/-- C12 on a packet whose header claims two answers and which is cut after the
first: the call returns the error of the second record, Answer holds exactly the
one record read (an A record of TTL 30), Authority and Additional are empty. -/
theorem unmarshalBinary_count_driven_cut :
    (decodedHeader wireDecoders blankMessage cutPacket).ANCount = 2
      ∧ (UnmarshalBinary wireDecoders blankMessage cutPacket).2 = some UnpackError.truncated
      ∧ (UnmarshalBinary wireDecoders blankMessage cutPacket).1.Answer.map
          (fun rr => (rr.Typ, rr.TTL)) = [(QueryTypeA, 30)]
      ∧ (UnmarshalBinary wireDecoders blankMessage cutPacket).1.Authority = []
      ∧ (UnmarshalBinary wireDecoders blankMessage cutPacket).1.Additional = [] := by
  obtain ⟨-, h1, h2, h3, h4, -, -⟩ :=
    unmarshalBinary_count_driven wireDecoders blankMessage cutPacket rfl rfl rfl
  rw [h1, h2, h3, h4]
  refine ⟨?_, ?_, ?_, ?_, ?_⟩ <;> decide

/-- C13 (amended): the error that `UnmarshalBinary` returns is the error of the
first record that fails to decode among those the header counts call for, and
`nil` when none fails. The errors reported by header and question decoding are
discarded: with decoders that report `nil` there instead, `UnmarshalBinary`
leaves the same message and returns the same result. -/
theorem unmarshalBinary_errors (env : Decoders) (msg : Message) (packet : List Nat) :
    (UnmarshalBinary env msg packet).2 = (recordStream env msg packet).2.2
      ∧ UnmarshalBinary (Decoders.quiet env) msg packet = UnmarshalBinary env msg packet
      ∧ UnpackHeaderQuestion (Decoders.quiet env) msg = UnpackHeaderQuestion env msg := by
  refine ⟨(UnmarshalBinary_stream env msg packet).2.1, ?_, rfl⟩
  unfold UnmarshalBinary
  simp only [UnpackHeaderQuestion_quiet,
    unpackSection_congr (Decoders.quiet env) env rfl]
  rfl

/-- C13 as stated fails, with the decoders of the spec's wire format: on twelve
zero bytes followed by a question name cut inside its first label, header
decoding reports nothing, question decoding reports a truncated packet, the
header counts are 0, and `UnmarshalBinary` returns `nil` with the question left
as it was. So it is not the case that, whatever the decoders, an error reported
for the question of a packet longer than the header makes `UnmarshalBinary`
return an error. -/
theorem unmarshalBinary_question_error_dropped :
    (wireDecoders.headerUnmarshal blankMessage.Header cutQuestionPacket).2 = none
      ∧ sectionHeaderSize < cutQuestionPacket.length
      ∧ (wireDecoders.questionUnmarshal blankMessage.Question
          (cutQuestionPacket.drop sectionHeaderSize)).2 = some UnpackError.truncated
      ∧ (UnmarshalBinary wireDecoders blankMessage cutQuestionPacket).2 = none
      ∧ (UnmarshalBinary wireDecoders blankMessage cutQuestionPacket).1.Question
          = blankMessage.Question
      ∧ ¬ (∀ (env : Decoders) (msg : Message) (packet : List Nat),
            sectionHeaderSize < packet.length →
            (env.questionUnmarshal msg.Question (packet.drop sectionHeaderSize)).2 ≠ none →
            (UnmarshalBinary env msg packet).2 ≠ none) := by
  refine ⟨by decide, by decide, by decide, by decide, by decide, ?_⟩
  intro H
  exact H wireDecoders blankMessage cutQuestionPacket (by decide) (by decide) (by decide)

/-- C14: `IsExpired(elapsed)` is true exactly when some record of the Answer list
has `TTL <= elapsed`; it is false for an empty Answer list, and does not depend
on the Authority and Additional lists. With a single answer of TTL 30 (and
records of TTL 5 in the other lists) it is true for 30 and false for 29, as it
is on the message decoded from a response with a single A record of TTL 30. -/
theorem isExpired_iff (msg : Message) (elapsed : Nat) :
    (IsExpired msg elapsed = true ↔ ∃ rr ∈ msg.Answer, rr.TTL ≤ elapsed)
      ∧ IsExpired { msg with Answer := [] } elapsed = false
      ∧ (∀ ns ar : List ResourceRecord,
          IsExpired { msg with Authority := ns, Additional := ar } elapsed
            = IsExpired msg elapsed)
      ∧ IsExpired ttlMessage 30 = true ∧ IsExpired ttlMessage 29 = false
      ∧ (UnmarshalBinary wireDecoders blankMessage oneAnswerPacket).2 = none
      ∧ (UnmarshalBinary wireDecoders blankMessage oneAnswerPacket).1.Answer.map
          (fun rr => (rr.Typ, rr.TTL)) = [(QueryTypeA, 30)]
      ∧ IsExpired (UnmarshalBinary wireDecoders blankMessage oneAnswerPacket).1 30 = true
      ∧ IsExpired (UnmarshalBinary wireDecoders blankMessage oneAnswerPacket).1 29 = false := by
  refine ⟨?_, rfl, fun _ _ => rfl, by decide, by decide, by decide, by decide, by decide,
    by decide⟩
  unfold IsExpired
  induction msg.Answer with
  | nil => simp [isExpiredFrom]
  | cons rr rest ih =>
    rw [isExpiredFrom]
    by_cases h : rr.TTL ≤ elapsed
    · simp [h]
    · simp [h, ih]

/-- C15 (amended): `SetID(id)` always returns and sets `Header.ID` to `id`; for a
packet longer than 2 bytes it overwrites bytes 0 and 1 with `id` in big-endian
order and leaves the length and every other byte as they are; a packet of at most
2 bytes is left untouched. The other header fields, the question, the three
lists, the cursor and the dictionary are unchanged. -/
theorem setID_patches (msg : Message) (id : Nat) :
    ∃ m2, SetID msg id = some m2
      ∧ m2.Header = { msg.Header with ID := id }
      ∧ (2 < msg.Packet.length → m2.Packet = be16 id ++ msg.Packet.drop 2)
      ∧ (msg.Packet.length ≤ 2 → m2.Packet = msg.Packet)
      ∧ m2.Packet.length = msg.Packet.length
      ∧ m2.Question = msg.Question ∧ m2.Answer = msg.Answer
      ∧ m2.Authority = msg.Authority ∧ m2.Additional = msg.Additional
      ∧ m2.off = msg.off ∧ m2.dnameOff = msg.dnameOff ∧ m2.dname = msg.dname := by
  unfold SetID
  by_cases h : 2 < msg.Packet.length
  · have h1 : 0 + 1 < msg.Packet.length := by omega
    simp only [h, if_true, WriteUint16, h1]
    refine ⟨_, rfl, rfl, fun _ => ?_, fun h2 => absurd h2 (by omega), by simp, rfl, rfl, rfl,
      rfl, rfl, rfl, rfl⟩
    simp only [be16]
    rcases hp : msg.Packet with _ | ⟨a, _ | ⟨b, t⟩⟩
    · rw [hp] at h; simp at h
    · rw [hp] at h; simp at h
    · simp
  · simp only [h, if_false]
    exact ⟨_, rfl, rfl, fun h2 => h2.elim, fun _ => rfl, rfl, rfl, rfl, rfl, rfl, rfl, rfl,
      rfl⟩

/-- C15 at a response packet of 35 bytes and `id = 0x1234`:
bytes 0 and 1 become `12 34`, the other 33 bytes stay. -/
theorem setID_patches_example :
    ∃ m2, SetID { blankMessage with Packet := oneAnswerPacket } 4660 = some m2
      ∧ m2.Header.ID = 4660
      ∧ m2.Packet = [18, 52] ++ oneAnswerPacket.drop 2 := by
  obtain ⟨m2, h1, h2, h3, -⟩ := setID_patches { blankMessage with Packet := oneAnswerPacket } 4660
  refine ⟨m2, h1, by rw [h2], ?_⟩
  rw [h3 (by decide)]
  decide

/-- C15 as stated fails for a packet of exactly 2 bytes, the length of the ID
field: the guard is `len(Packet) > 2`, so `SetID(0x1234)` changes `Header.ID` and
leaves the packet bytes `AB CD` as they are. -/
theorem setID_skips_two_byte_packet :
    ∃ m2, SetID { blankMessage with Packet := [171, 205] } 4660 = some m2
      ∧ m2.Header.ID = 4660
      ∧ m2.Packet = [171, 205]
      ∧ m2.Packet.take 2 ≠ be16 4660 := by
  refine ⟨_, rfl, ?_, ?_, ?_⟩ <;> decide

/-- C16: after `Reset` the three record lists are empty, the packet is
`maxUDPPacketSize` zero bytes whatever it held before, the cursor is 0, the
pending name is empty and the dictionary is nil; header and question are what
their own `Reset` leaves. -/
theorem reset_clears (env : Resets) (msg : Message) :
    (Reset env msg).Answer = [] ∧ (Reset env msg).Authority = []
      ∧ (Reset env msg).Additional = []
      ∧ (Reset env msg).Packet = List.replicate env.maxUDPPacketSize 0
      ∧ (Reset env msg).Packet.length = env.maxUDPPacketSize
      ∧ (Reset env msg).off = 0 ∧ (Reset env msg).dname = []
      ∧ (Reset env msg).dnameOff = none
      ∧ (Reset env msg).Header = env.headerReset msg.Header
      ∧ (Reset env msg).Question = env.questionReset msg.Question := by
  have key : ∀ m : Message, (ResetRR m).Answer = [] ∧ (ResetRR m).Authority = []
      ∧ (ResetRR m).Additional = [] ∧ (ResetRR m).Header = m.Header
      ∧ (ResetRR m).Question = m.Question := by
    intro m
    obtain ⟨hd, q, an, au, ad, p, o, d, dn⟩ := m
    cases an <;> cases au <;> cases ad <;> simp [ResetRR]
  obtain ⟨k1, k2, k3, k4, k5⟩ := key
    { msg with Header := env.headerReset msg.Header, Question := env.questionReset msg.Question }
  refine ⟨k1, k2, k3, ?_, ?_, rfl, rfl, rfl, k4, k5⟩
  · simp [Reset]
  · simp [Reset]

/-- C17: a message reached through the public operations (made by the caller,
then any sequence of assignments to its exported fields, `Reset`, `ResetRR`,
`MarshalBinary`, `UnmarshalBinary`, `UnpackHeaderQuestion` and `SetID` calls that
return) has no dictionary. `MarshalBinary` on it runs as from an explicitly empty
dictionary, which is what `packQuestion` is started with; while names, the
question and records are packed every binding of the dictionary stays and new
ones are added in front, so the recorded suffixes only grow; and whenever
`MarshalBinary` returns (header error, query, full encode) the message it
leaves has no dictionary again. -/
theorem dictionary_scoped_to_encode (enc : Collab) (dec : Decoders) (rs : Resets)
    (m : Message) (h : Reachable enc dec rs m) :
    m.dnameOff = none
      ∧ MarshalBinary enc m = MarshalBinary enc { m with dnameOff := some [] }
      ∧ (∀ header : List Nat, (headerState m header).dnameOff = some [])
      ∧ (∀ (a b : Message) (name : List Nat) (dc : Bool) (n : Nat),
          packDomainName a name dc = some (b, n) → Grows a b)
      ∧ (∀ a b : Message, packQuestion a = some b → Grows a b)
      ∧ (∀ (a b : Message) (rr : ResourceRecord), packRR enc a rr = some b → Grows a b)
      ∧ (∀ (a b : Message) (rrs : List ResourceRecord),
          packRRs enc a rrs = some b → Grows a b)
      ∧ (∀ (a b : Message) (d d2 : Dict), Grows a b → a.dnameOff = some d →
          b.dnameOff = some d2 → ∀ k ∈ d.keys, k ∈ d2.keys)
      ∧ (∀ (m2 : Message) (r : Option (List Nat)),
          MarshalBinary enc m = some (m2, r) →
            m2.dnameOff = none ∧ Reachable enc dec rs m2) := by
  have hn := h.dict
  refine ⟨hn, MarshalBinary_of_nil enc m hn, fun header => ?_,
    fun a b name dc n hp => packDomainName_grows hp, fun a b hp => packQuestion_grows hp,
    fun a b rr hp => packRR_grows hp, fun a b rrs hp => packRRs_grows rrs hp,
    fun a b d d2 hg hd hd2 => grows_keys hg hd hd2,
    fun m2 r hm => ⟨MarshalBinary_dict hm, Reachable.marshal h hm⟩⟩
  simp [headerState, hn]

/-- C17 on a response with a TXT and an NS answer, packed twice in a row: after
the first call the message has no dictionary, and the second call returns the
same packet as the first. -/
theorem dictionary_scoped_to_encode_twice :
    ∃ m2 p m3 p3, MarshalBinary rawEnv txtThenNs = some (m2, some p)
      ∧ m2.dnameOff = none
      ∧ MarshalBinary rawEnv m2 = some (m3, some p3)
      ∧ p3 = p ∧ m3.dnameOff = none := by
  have h1 : ∃ m2 p, MarshalBinary rawEnv txtThenNs = some (m2, some p)
      ∧ ∃ m3, MarshalBinary rawEnv m2 = some (m3, some p) := ⟨_, _, rfl, _, rfl⟩
  obtain ⟨m2, p, e1, m3, e2⟩ := h1
  have r0 : Reachable rawEnv wireDecoders plainResets txtThenNs :=
    Reachable.zero _ _ _ _ _ _
  obtain ⟨-, -, -, -, -, -, -, -, k⟩ :=
    dictionary_scoped_to_encode rawEnv wireDecoders plainResets txtThenNs r0
  obtain ⟨k1, k2⟩ := k m2 (some p) e1
  obtain ⟨-, -, -, -, -, -, -, -, k3⟩ :=
    dictionary_scoped_to_encode rawEnv wireDecoders plainResets m2 k2
  exact ⟨m2, p, m3, p, e1, k1, e2, rfl, (k3 m3 (some p) e2).1⟩

/-- C18: for a record of type MD or MF `packRData` returns the message as it got
it (no byte appended, cursor not moved), in every state; and from a state of an
encode pass (dictionary present, cursor not beyond the end of the packet)
`packRR` returns and writes the name, then TYPE, CLASS and TTL, and nothing
after them. -/
theorem packRR_md_mf (env : Collab) (msg : Message) (rr : ResourceRecord)
    (ht : rr.Typ = QueryTypeMD ∨ rr.Typ = QueryTypeMF) :
    packRData env msg rr = some msg
      ∧ (msg.dnameOff.isSome = true → msg.off ≤ msg.Packet.length →
          ∃ m1 n m2, packDomainName msg rr.Name true = some (m1, n)
            ∧ packRR env msg rr = some m2
            ∧ m2.Packet = m1.Packet ++ be16 rr.Typ ++ be16 rr.Class ++ be32 rr.TTL
            ∧ m2.off = ((m1.off + 4) % 65536 + 4) % 65536
            ∧ m2.dnameOff = m1.dnameOff) := by
  have hdata : ∀ (m : Message) (r : ResourceRecord), r.Typ = rr.Typ →
      packRData env m r = some m := by
    intro m r hr
    unfold packRData
    rw [hr]
    rcases ht with h | h <;> rw [h] <;> rfl
  have hopt : rr.Typ ≠ QueryTypeOPT := by
    rcases ht with h | h <;> rw [h] <;> decide
  refine ⟨hdata msg rr rfl, fun hd hoff => ?_⟩
  obtain ⟨m1, n, h1, -, -⟩ := packDomainName_returns msg rr.Name true hd hoff
  refine ⟨m1, n, { m1 with Packet := AppendUint32 (AppendUint16 (AppendUint16 m1.Packet rr.Typ)
                                 rr.Class) (ttlOf rr),
                             off := ((m1.off + 4) % 65536 + 4) % 65536 }, h1, ?_, ?_, rfl, rfl⟩
  · unfold packRR
    simp only [hopt, if_false, h1]
    exact hdata _ _ rfl
  · simp [ttlOf, hopt, AppendUint16, AppendUint32, be16, be32]

/-- C18 at an MD record named `a` right after the header: the bytes appended
are the name `01 61 00`, TYPE 3, CLASS 1 and TTL 30, eleven bytes in all. -/
theorem packRR_md_mf_example :
    ∃ m2, packRR rawEnv freshState mdRecord = some m2
      ∧ m2.Packet = freshState.Packet ++ [1, 97, 0] ++ [0, 3, 0, 1, 0, 0, 0, 30]
      ∧ m2.off = 23 := by
  obtain ⟨-, h⟩ := packRR_md_mf rawEnv freshState mdRecord (Or.inl rfl)
  obtain ⟨m1, n, m2, h1, h2, h3, h4, -⟩ := h rfl (by decide)
  have e : packDomainName freshState mdRecord.Name true
      = some ({ freshState with
          Packet := freshState.Packet ++ [1, 97, 0], off := 15
          dnameOff := some [([97], 12)], dname := [97] }, 3) := by decide
  rw [e] at h1
  simp only [Option.some.injEq, Prod.mk.injEq] at h1
  obtain ⟨h1, -⟩ := h1
  subst h1
  exact ⟨m2, h2, by rw [h3]; decide, by rw [h4]; rfl⟩

/-- C19 fails on the code: for `example.com.` (labels of 7 and 3 bytes, so
8 + 4 + 1 = 13) `packDomainName` returns 13 and moves the cursor by 13, but it
appends 14 bytes: the labels, the zero octet opened after the last dot, and a
second zero octet after the loop. The same happens with compression enabled when
no suffix is found. -/
theorem packDomainName_trailing_dot :
    ∃ m m2, packDomainName freshState exampleComDot false = some (m, 13)
      ∧ m.Packet = freshState.Packet ++ wireName exampleCom ++ [0]
      ∧ m.Packet.length = freshState.Packet.length + 14
      ∧ m.off = freshState.off + 13
      ∧ packDomainName freshState exampleComDot true = some (m2, 13)
      ∧ m2.Packet = freshState.Packet ++ wireName exampleCom ++ [0]
      ∧ m2.off = freshState.off + 13 := by
  refine ⟨_, _, rfl, ?_, ?_, ?_, rfl, ?_, ?_⟩ <;> decide

/-- C20: without compression, from every state, `packDomainName` leaves the same
packet and cursor and returns the same count for a name as for the name without
its empty labels that precede content (every leading dot and every dot that
follows a dot dropped, where a non-empty label comes after it). When what
remains is a sequence of labels of 1..63 bytes joined by single dots, the bytes
appended (cursor at the end of the packet, packet below the 16-bit cursor limit)
are these labels, each behind its non-zero length octet, and the one zero octet
that ends the name. `...test.com` and `a..b` reduce to `test.com` and `a.b`. -/
theorem packDomainName_skips_empty_labels (msg : Message) (name : List Nat) :
    shown (packDomainName msg name false) = shown (packDomainName msg (squeeze name) false)
      ∧ (∀ (ls : List (List Nat)) (d : Dict), ls ≠ [] → (∀ l ∈ ls, LabelN 63 l) →
          squeeze name = joinLabels ls → msg.dnameOff = some d →
          msg.off = msg.Packet.length →
          msg.Packet.length + (joinLabels ls).length + 2 ≤ 65536 →
          ∃ m2, packDomainName msg name false = some (m2, (wireName ls).length)
            ∧ m2.Packet = msg.Packet ++ wireName (ls.map ToLower)
            ∧ m2.off = (msg.off + (wireName ls).length) % 65536
            ∧ ∀ l ∈ ls.map ToLower, l.length ≠ 0)
      ∧ squeeze dotsTestCom = joinLabels testCom
      ∧ squeeze [97, 46, 46, 98] = [97, 46, 98] := by
  have hsq := packDomainName_squeeze msg msg name rfl rfl rfl
  refine ⟨hsq.symm, ?_, by decide, by decide⟩
  intro ls d hne hls hname hd hoff hfit
  obtain ⟨m1, h1, h2, h3, -⟩ := packDomainName_exact false ls msg d hne
    (fun l hl => (hls l hl).mono (by decide)) hd hoff hfit
  rw [encodeLabels_plain, wireName_length_map] at h1 h3
  rw [encodeLabels_plain] at h2
  rw [hname, h1] at hsq
  obtain ⟨m2, k1, k2, k3⟩ := shown_eq_some hsq.symm
  refine ⟨m2, k1, by rw [k2, h2], ?_, ?_⟩
  · rw [k3, h3, hoff]
  · intro l hl
    obtain ⟨x, hx, rfl⟩ := List.mem_map.1 hl
    rw [ToLower_length]
    have := (hls x hx).1
    omega

/-- C20 at `...test.com` right after a 12-byte header: the call returns 10 and
appends `04 test 03 com 00`, the bytes of `test.com`. -/
theorem packDomainName_skips_empty_labels_example :
    ∃ m2, packDomainName freshState dotsTestCom false = some (m2, 10)
      ∧ m2.Packet = freshState.Packet ++ [4, 116, 101, 115, 116, 3, 99, 111, 109, 0]
      ∧ m2.off = 22 := by
  obtain ⟨-, h, hs, -⟩ := packDomainName_skips_empty_labels freshState dotsTestCom
  obtain ⟨m2, h1, h2, h3, -⟩ := h testCom [] (by decide) (by decide) hs rfl rfl (by decide)
  exact ⟨m2, h1, by rw [h2]; decide, by rw [h3]; decide⟩

/-- C21 (amended): from a state with a dictionary, a name write with compression
enabled, and with it `packRR` for every record type other than SRV (record
name and the names of NS, CNAME, MB, MG, MR, NULL, PTR, SOA, MINFO and MX
payloads), leaves every recorded suffix at the offset recorded for it. A name
write with compression disabled records the name at the cursor at which the
write begins, whatever was recorded for it before, and every suffix recorded
before is still recorded. -/
theorem compressed_write_keeps_offsets (env : Collab) (msg m2 : Message) (d d2 : Dict)
    (hd : msg.dnameOff = some d) (hd2 : m2.dnameOff = some d2) :
    (∀ (name : List Nat) (n : Nat), packDomainName msg name true = some (m2, n) →
        ∀ k o, d.get k = some o → d2.get k = some o)
      ∧ (∀ rr : ResourceRecord, rr.Typ ≠ QueryTypeSRV → packRR env msg rr = some m2 →
          ∀ k o, d.get k = some o → d2.get k = some o)
      ∧ (∀ (name : List Nat) (n : Nat), packDomainName msg name false = some (m2, n) →
          d2.get (ToLower name) = some msg.off
            ∧ ∀ k ∈ d.keys, k ∈ d2.keys) := by
  have key : Keeps msg m2 → ∀ k o, d.get k = some o → d2.get k = some o := by
    intro hk k o hg
    obtain ⟨d3, e3, g3⟩ := hk d hd
    rw [hd2, Option.some.injEq] at e3
    subst e3
    exact g3 k o hg
  refine ⟨fun name n h => key (packDomainName_keeps h),
    fun rr hsrv h => key (packRR_keeps hsrv h), fun name n h => ⟨?_, ?_⟩⟩
  · obtain ⟨o, e1, e2, -⟩ := packDomainName_records hd h
    rw [hd2] at e1
    simp only [lookupDict] at e1
    rw [e1, e2 (by simp [probe])]
  · exact grows_keys (packDomainName_grows h) hd hd2

/-- C21 (amended) at an NS record for `www.example.com` naming `ns.example.com`,
packed in a state that has `example.com` recorded at 16 and `com` at 24: both
are still recorded at 16 and 24 afterwards. -/
theorem compressed_write_keeps_offsets_ns :
    ∃ m2 d2, packRR rawEnv midState nsExample = some m2 ∧ m2.dnameOff = some d2
      ∧ d2.get (joinLabels exampleCom) = some 16 ∧ d2.get [99, 111, 109] = some 24 := by
  have h1 : ∃ m2 d2, packRR rawEnv midState nsExample = some m2 ∧ m2.dnameOff = some d2 :=
    ⟨_, _, rfl, rfl⟩
  obtain ⟨m2, d2, e1, e2⟩ := h1
  obtain ⟨-, k, -⟩ := compressed_write_keeps_offsets rawEnv midState m2
    [([99, 111, 109], 24), (joinLabels exampleCom, 16)] d2 rfl e2
  exact ⟨m2, d2, e1, e2, k nsExample (by decide) e1 _ _ (by decide),
    k nsExample (by decide) e1 _ _ (by decide)⟩

/-- C21 as stated fails for an SRV target that repeats an earlier name: after an
A record named `example.com` the dictionary holds `example.com` at 12 and `com`
at 20; after an SRV record with target `example.com` it answers 57 and 65, the
offsets inside the SRV payload; and a third record named `example.com` is
written as the pointer `C0 39` to offset 57. -/
theorem srv_target_moves_recorded_offset :
    ∃ m1 m2 m3, packRR rawEnv freshState aExampleCom = some m1
      ∧ lookupDict m1.dnameOff (joinLabels exampleCom) = some 12
      ∧ lookupDict m1.dnameOff [99, 111, 109] = some 20
      ∧ packRR rawEnv m1 srvExampleCom = some m2
      ∧ lookupDict m2.dnameOff (joinLabels exampleCom) = some 57
      ∧ lookupDict m2.dnameOff [99, 111, 109] = some 65
      ∧ packRR rawEnv m2 aExampleCom = some m3
      ∧ (m3.Packet.drop m2.Packet.length).take 2 = pointerBytes 57 := by
  refine ⟨_, _, _, rfl, ?_, ?_, rfl, ?_, ?_, rfl, ?_⟩ <;> decide

/-- C22: two names with the same lower-cased text (names that differ only in the
case of ASCII letters) give, from every state and with or without compression,
the same result of `packDomainName`: packet, cursor, count and dictionary. The
call acts on the lower-cased text, which holds no byte in `A`..`Z`; for a name
of labels of 1..63 bytes written without compression the bytes appended are the
lower-cased labels behind their length octets and the zero octet. After the
first name has been written, the dictionary answers for its lower-cased text, and
the second spelling is written with compression as the 2-byte pointer to that
offset; in any state, a name whose other spelling the dictionary holds (a suffix
recorded by an earlier write) is written as the pointer to the recorded offset.
From every state, with or without compression, whenever the call returns for a
name whose labels hold at most 63 bytes, the packet from its old length on
holds no byte in `A`..`Z`, the two bytes of a closing pointer apart. With the
cursor at the end of the packet the bytes appended, with or without
compression, are those of the label-by-label encoding of the lower-cased labels:
the length-prefixed labels of a prefix of them, none with a byte in `A`..`Z`,
closed by the zero octet or, for a suffix found, by a pointer. -/
theorem packDomainName_case_insensitive (msg : Message) (n1 n2 : List Nat) (dc : Bool)
    (h : ToLower n1 = ToLower n2) :
    packDomainName msg n1 dc = packDomainName msg n2 dc
      ∧ packDomainName msg n1 dc = packDomainName msg (ToLower n1) dc
      ∧ (∀ c ∈ ToLower n1, ¬ (65 ≤ c ∧ c ≤ 90))
      ∧ (∀ (ls : List (List Nat)) (d : Dict), ls ≠ [] → (∀ l ∈ ls, LabelN 63 l) →
          n1 = joinLabels ls → msg.dnameOff = some d → msg.off = msg.Packet.length →
          msg.Packet.length + (joinLabels ls).length + 2 ≤ 65536 →
          ∃ m2, packDomainName msg n1 false = some (m2, (wireName ls).length)
            ∧ m2.Packet = msg.Packet ++ wireName (ls.map ToLower)
            ∧ ∀ l ∈ ls.map ToLower, ∀ c ∈ l, ¬ (65 ≤ c ∧ c ≤ 90))
      ∧ (∀ (m1 : Message) (n : Nat) (d : Dict), msg.dnameOff = some d →
          packDomainName msg n1 dc = some (m1, n) →
          ∃ o, lookupDict m1.dnameOff (ToLower n1) = some o
            ∧ packDomainName m1 n2 true
                = some ({ m1 with Packet := m1.Packet ++ pointerBytes o
                                  off := (m1.off + 2) % 65536
                                  dname := ToLower n2 }, 2))
      ∧ (∀ (m : Message) (o : Nat), lookupDict m.dnameOff (ToLower n1) = some o →
          packDomainName m n2 true
            = some ({ m with Packet := m.Packet ++ pointerBytes o
                             off := (m.off + 2) % 65536
                             dname := ToLower n2 }, 2))
      ∧ (∀ (m2 : Message) (n : Nat), labelsWithin 63 (ToLower n1) 0 = true →
          packDomainName msg n1 dc = some (m2, n) →
          ∃ body tail, m2.Packet = body ++ tail ∧ LowerFrom msg.Packet.length body
            ∧ msg.Packet.length ≤ body.length
            ∧ (tail = [] ∨ (dc = true ∧ ∃ o, tail = pointerBytes o)))
      ∧ (∀ (ls : List (List Nat)) (d : Dict), ls ≠ [] → (∀ l ∈ ls, LabelN 63 l) →
          n1 = joinLabels ls → msg.dnameOff = some d → msg.off = msg.Packet.length →
          msg.Packet.length + (joinLabels ls).length + 2 ≤ 65536 →
          ∃ m2 p t,
            packDomainName msg n1 dc
                = some (m2, (encodeLabels dc d msg.Packet.length (ls.map ToLower)).1.length)
              ∧ m2.Packet
                  = msg.Packet ++ (encodeLabels dc d msg.Packet.length (ls.map ToLower)).1
              ∧ ls.map ToLower = p ++ t
              ∧ ((t = [] ∧ (encodeLabels dc d msg.Packet.length (ls.map ToLower)).1
                    = labelBytes p ++ [0])
                ∨ (t ≠ [] ∧ dc = true
                    ∧ ∃ o, (encodeLabels dc d msg.Packet.length (ls.map ToLower)).1
                        = labelBytes p ++ pointerBytes o))
              ∧ ∀ l ∈ p, ∀ c ∈ l, ¬ (65 ≤ c ∧ c ≤ 90)) := by
  have hlow : ∀ s : List Nat, ∀ c ∈ ToLower s, ¬ (65 ≤ c ∧ c ≤ 90) := by
    intro s c hc
    obtain ⟨x, -, rfl⟩ := List.mem_map.1 hc
    unfold lowerByte
    split <;> omega
  have hsame : ∀ a b : List Nat, ToLower a = ToLower b →
      packDomainName msg a dc = packDomainName msg b dc := by
    intro a b e
    unfold packDomainName
    simp only [e]
  refine ⟨hsame n1 n2 h, hsame n1 (ToLower n1) (ToLower_idem n1).symm, hlow n1, ?_, ?_,
    fun m o hl => packDomainName_found m n2 o (by rw [← h]; exact hl),
    fun m2 n hw hp => packDomainName_lower_bytes hw hp, ?_⟩
  · intro ls d hne hls hname hd hoff hfit
    obtain ⟨m2, h1, h2, -, -⟩ := packDomainName_exact false ls msg d hne
      (fun l hl => (hls l hl).mono (by decide)) hd hoff hfit
    rw [encodeLabels_plain, wireName_length_map] at h1
    rw [encodeLabels_plain] at h2
    refine ⟨m2, by rw [hname, h1], h2, ?_⟩
    intro l hl
    obtain ⟨x, -, rfl⟩ := List.mem_map.1 hl
    exact hlow x
  · intro m1 n d hd hp
    obtain ⟨o, e1, -, -⟩ := packDomainName_records hd hp
    refine ⟨o, e1, ?_⟩
    rw [h] at e1
    exact packDomainName_found m1 n2 o e1
  · intro ls d hne hls hname hd hoff hfit
    obtain ⟨m2, h1, h2, -, -⟩ := packDomainName_exact dc ls msg d hne
      (fun l hl => (hls l hl).mono (by decide)) hd hoff hfit
    obtain ⟨p, t, e, hshape⟩ := encodeLabels_shape dc (ls.map ToLower) d msg.Packet.length
    refine ⟨m2, p, t, by rw [hname]; exact h1, h2, e, hshape, ?_⟩
    intro l hl
    have hl2 : l ∈ ls.map ToLower := by rw [e]; exact List.mem_append_left _ hl
    obtain ⟨x, -, rfl⟩ := List.mem_map.1 hl2
    exact hlow x

/-- C22 at `WWW.Example.COM` and `www.example.com` right after a 12-byte header:
both are written as `03 www 07 example 03 com 00`, after the first the second
is written as the pointer `C0 0C`, and `EXAMPLE.com` as the pointer `C0 10`.
With `example.com` recorded at offset 16 in a packet of 40 bytes,
`WWW.Example.COM` is written with compression as `03 www C0 10`: the label in
lower case and the pointer. -/
theorem packDomainName_case_insensitive_www :
    packDomainName freshState mixedCaseName false
        = packDomainName freshState (joinLabels wwwExampleCom) false
      ∧ (∃ m1, packDomainName freshState mixedCaseName false = some (m1, 17)
          ∧ m1.Packet = freshState.Packet ++ wireName wwwExampleCom
          ∧ ∃ m2, packDomainName m1 (joinLabels wwwExampleCom) true = some (m2, 2)
              ∧ m2.Packet = m1.Packet ++ [192, 12])
      ∧ (∃ m1 m3, packDomainName freshState mixedCaseName true = some (m1, 17)
          ∧ packDomainName m1 [69, 88, 65, 77, 80, 76, 69, 46, 99, 111, 109] true
              = some (m3, 2)
          ∧ m3.Packet = m1.Packet ++ [192, 16])
      ∧ (∃ m4, packDomainName midState mixedCaseName true = some (m4, 6)
          ∧ m4.Packet = midState.Packet ++ [3, 119, 119, 119] ++ [192, 16]
          ∧ packDomainName midState (joinLabels wwwExampleCom) true = some (m4, 6)
          ∧ ∃ body tail, m4.Packet = body ++ tail ∧ LowerFrom 40 body ∧ 40 ≤ body.length
              ∧ (tail = [] ∨ ∃ o, tail = pointerBytes o)) := by
  obtain ⟨h1, -, -, -, h5, -, -, -⟩ := packDomainName_case_insensitive freshState mixedCaseName
    (joinLabels wwwExampleCom) false (by decide)
  obtain ⟨g1, -, -, -, -, -, g7, -⟩ := packDomainName_case_insensitive midState mixedCaseName
    (joinLabels wwwExampleCom) true (by decide)
  refine ⟨h1, ?_, ⟨_, _, rfl, rfl, by decide⟩, ?_⟩
  · have e : ∃ m1, packDomainName freshState mixedCaseName false = some (m1, 17)
        ∧ m1.Packet = freshState.Packet ++ wireName wwwExampleCom := ⟨_, rfl, by decide⟩
    obtain ⟨m1, e1, e2⟩ := e
    obtain ⟨o, k1, k2⟩ := h5 m1 17 [] rfl e1
    obtain ⟨o2, k3, k4, -⟩ := packDomainName_records (rfl : freshState.dnameOff = some []) e1
    have ho : o = 12 := by
      rw [k3] at k1
      simp only [Option.some.injEq] at k1
      rw [← k1, k4 (by decide)]
      rfl
    subst ho
    exact ⟨m1, e1, e2, _, k2, rfl⟩
  · have e : ∃ m4, packDomainName midState mixedCaseName true = some (m4, 6)
        ∧ m4.Packet = midState.Packet ++ [3, 119, 119, 119] ++ [192, 16] := ⟨_, rfl, by decide⟩
    obtain ⟨m4, e1, e2⟩ := e
    obtain ⟨body, tail, b1, b2, b3, b4⟩ := g7 m4 6 (by decide) e1
    refine ⟨m4, e1, e2, by rw [← g1]; exact e1, body, tail, b1, b2, b3, ?_⟩
    rcases b4 with b4 | ⟨-, o, b4⟩
    · exact Or.inl b4
    · exact Or.inr ⟨o, b4⟩

set_option maxRecDepth 100000 in
/-- C23 fails on the code: in a response whose answers are an AAAA record
followed by an A record with a name not seen before, `packAAAA` leaves the cursor
at 64 for a packet of 48 bytes; for the next name the placeholder octet goes to
index 48 and the backfill `Packet[off] = count` targets index 64, beyond the 50
bytes of the packet: `packRR` and with it `MarshalBinary` have no result. The
same happens after an SOA record, whose encoder advances the cursor twice. With
the two records in the other order the encode completes. -/
theorem marshalBinary_aborts_after_aaaa :
    MarshalBinary rawEnv aaaaThenA = none
      ∧ (∃ mq m1 m2,
          packQuestion (headerState aaaaThenA (headerBytes (countedHeader aaaaThenA)))
              = some mq
          ∧ packRR rawEnv mq aaaaRecord = some m1
          ∧ m1.off = 64 ∧ m1.Packet.length = 48
          ∧ packRR rawEnv m1 aRecordB = none
          ∧ setByte (m1.Packet ++ [0, 98]) m1.off 1 = none
          ∧ packRR rawEnv mq soaRecord = some m2
          ∧ m2.Packet.length < m2.off
          ∧ packRR rawEnv m2 aRecordB = none)
      ∧ MarshalBinary rawEnv { aaaaThenA with Answer := [soaRecord, aRecordB] } = none
      ∧ (MarshalBinary rawEnv { aaaaThenA with Answer := [aRecordB, aaaaRecord] }).isSome
          = true := by
  refine ⟨by decide, ⟨_, _, _, rfl, rfl, ?_, ?_, ?_, ?_, rfl, ?_, ?_⟩, by decide, by decide⟩
    <;> decide

/-- C24 (amended): whenever `MarshalBinary` returns a packet, the header handed
to the header codec, which is also the header the message keeps, carries
`ANCount = len(Answer)`, `NSCount = len(Authority)`, `ARCount = len(Additional)`
(modulo 65536), and the question is packed behind the header bytes. For a
message not flagged as a query the packet returned is the one left by packing
every record of Answer, then every record of Authority, then every record of
Additional, so the counts are the numbers of records encoded; for a message
flagged as a query the packet returned is the one left by packing the question,
without any record, while the counts are still the list lengths. -/
theorem marshalBinary_counts_of_records (env : Collab) (msg m2 : Message) (p : List Nat)
    (h : MarshalBinary env msg = some (m2, some p)) :
    ∃ header q, env.headerMarshal (countedHeader msg) = some header
      ∧ (countedHeader msg).ANCount = msg.Answer.length % 65536
      ∧ (countedHeader msg).NSCount = msg.Authority.length % 65536
      ∧ (countedHeader msg).ARCount = msg.Additional.length % 65536
      ∧ m2.Header = countedHeader msg
      ∧ packQuestion (headerState msg header) = some q
      ∧ (msg.Header.IsQuery = true → p = q.Packet)
      ∧ (msg.Header.IsQuery = false →
          ∃ m4 m5 m6,
            packRRs env { q with Question := { q.Question with Name := ToLower q.Question.Name } }
                msg.Answer = some m4
              ∧ packRRs env m4 msg.Authority = some m5
              ∧ packRRs env m5 msg.Additional = some m6
              ∧ p = m6.Packet) := by
  obtain ⟨header, q, h1, h2, h3, h4⟩ := MarshalBinary_records h
  exact ⟨header, q, h1, rfl, rfl, rfl, (MarshalBinary_header h).1, h2, h3, h4⟩

set_option maxRecDepth 100000 in
/-- C24 (amended) on a response to the question `q` with a TXT and an NS answer:
the header holds ANCount 2, NSCount 0 and ARCount 0, in the message and in bytes
6..11 of the packet, and the packet is the one left by packing the two answers
behind the question. -/
theorem marshalBinary_counts_of_records_txt :
    ∃ m2 p, MarshalBinary rawEnv txtThenNs = some (m2, some p)
      ∧ m2.Header.ANCount = 2 ∧ m2.Header.NSCount = 0 ∧ m2.Header.ARCount = 0
      ∧ rdField p 6 = 2 ∧ rdField p 8 = 0 ∧ rdField p 10 = 0
      ∧ ∃ q m4,
          packQuestion (headerState txtThenNs (headerBytes (countedHeader txtThenNs))) = some q
          ∧ packRRs rawEnv
              { q with Question := { q.Question with Name := ToLower q.Question.Name } }
              [txtRecord, nsRecord] = some m4
          ∧ p = m4.Packet := by
  have e : ∃ m2 p, MarshalBinary rawEnv txtThenNs = some (m2, some p)
      ∧ rdField p 6 = 2 ∧ rdField p 8 = 0 ∧ rdField p 10 = 0 :=
    ⟨_, _, rfl, by decide, by decide, by decide⟩
  obtain ⟨m2, p, e1, e2, e3, e4⟩ := e
  obtain ⟨header, q, k1, k2, k3, k4, k5, k6, -, k8⟩ :=
    marshalBinary_counts_of_records rawEnv txtThenNs m2 p e1
  obtain ⟨m4, m5, m6, r4, r5, r6, r7⟩ := k8 rfl
  have hh : header = headerBytes (countedHeader txtThenNs) := by
    simp only [rawEnv, Option.some.injEq] at k1
    exact k1.symm
  subst hh
  have r5b : m5 = m4 := by
    have : packRRs rawEnv m4 [] = some m5 := r5
    simp only [packRRs, Option.some.injEq] at this
    exact this.symm
  have r6b : m6 = m5 := by
    have : packRRs rawEnv m5 [] = some m6 := r6
    simp only [packRRs, Option.some.injEq] at this
    exact this.symm
  subst r6b
  subst r5b
  refine ⟨m2, p, e1, ?_, ?_, ?_, e2, e3, e4, q, m6, k6, r4, r7⟩
  · rw [k5]; exact k2
  · rw [k5]; exact k3
  · rw [k5]; exact k4

/-- C24 as stated fails for a query: for the `kilabit.info` query carrying 1, 2
and 1 placeholder records, the header of the packet that `MarshalBinary` returns
holds ANCount 1, NSCount 2 and ARCount 1, while the packet is the 12 header
bytes and the 18 bytes of the question, and holds no record. -/
theorem marshalBinary_query_counts_without_records :
    ∃ m2 pkt, MarshalBinary rawEnv kilabitRequest = some (m2, some pkt)
      ∧ kilabitRequest.Header.IsQuery = true
      ∧ rdField pkt 6 = 1 ∧ rdField pkt 8 = 2 ∧ rdField pkt 10 = 1
      ∧ pkt.length = 12 + 18
      ∧ pkt.take 12 = headerBytes (countedHeader kilabitRequest)
      ∧ pkt.drop 12 = wireName kilabitInfo ++ be16 QueryTypeA ++ be16 1 := by
  refine ⟨_, _, rfl, rfl, ?_, ?_, ?_, ?_, ?_, ?_⟩ <;> decide

/-- C25: when `MarshalBinary` returns a packet for a message that carries no
dictionary into the call (as every message between two operations does), the
message it leaves has the header counts set, the question name lower-cased, the
records as `packRR` left them (names lower-cased, OPT TTL rewritten; untouched
for a query), the packet in its buffer and no dictionary; a second
`MarshalBinary` on that message returns the same packet, and so does one on
that message with any other packet buffer, cursor and pending name. -/
theorem marshalBinary_repeatable (env : Collab) (msg m2 : Message) (p : List Nat)
    (hnil : msg.dnameOff = none) (h : MarshalBinary env msg = some (m2, some p)) :
    (∃ m3, MarshalBinary env m2 = some (m3, some p))
      ∧ (∀ (pk : List Nat) (o : Nat) (x : List Nat),
          ∃ m3, MarshalBinary env { m2 with Packet := pk, off := o, dname := x }
            = some (m3, some p))
      ∧ m2.Header = countedHeader msg
      ∧ m2.Question = { msg.Question with Name := ToLower msg.Question.Name }
      ∧ (msg.Header.IsQuery = false →
          m2.Answer = msg.Answer.map touchRR ∧ m2.Authority = msg.Authority.map touchRR
            ∧ m2.Additional = msg.Additional.map touchRR)
      ∧ m2.Packet = p ∧ m2.dnameOff = none := by
  obtain ⟨k2, k3⟩ := MarshalBinary_frame h
  exact ⟨MarshalBinary_again hnil h m2.Packet m2.off m2.dname, MarshalBinary_again hnil h,
    (MarshalBinary_header h).1, k2, k3, MarshalBinary_packet h, MarshalBinary_dict h⟩

/-- C25 on a response to the question `WWW.Example.COM` with an NS answer and an
OPT record: the first call lower-cases the question name and rewrites the OPT
TTL from 0 to 32768, and the second call returns the same packet. -/
theorem marshalBinary_repeatable_mixed :
    ∃ m2 p m3, MarshalBinary rawEnv mixedResponse = some (m2, some p)
      ∧ m2.Question.Name = joinLabels wwwExampleCom
      ∧ mixedResponse.Question.Name ≠ m2.Question.Name
      ∧ m2.Additional.map (fun rr => rr.TTL) = [32768]
      ∧ mixedResponse.Additional.map (fun rr => rr.TTL) = [0]
      ∧ MarshalBinary rawEnv m2 = some (m3, some p) := by
  have h1 : ∃ m2 p, MarshalBinary rawEnv mixedResponse = some (m2, some p)
      ∧ m2.Question.Name = joinLabels wwwExampleCom
      ∧ mixedResponse.Question.Name ≠ m2.Question.Name
      ∧ m2.Additional.map (fun rr => rr.TTL) = [32768] :=
    ⟨_, _, rfl, by decide, by decide, by decide⟩
  obtain ⟨m2, p, e1, e2, e3, e4⟩ := h1
  obtain ⟨⟨m3, k⟩, -⟩ := marshalBinary_repeatable rawEnv mixedResponse m2 p rfl e1
  exact ⟨m2, p, m3, e1, e2, e3, e4, by decide, k⟩

end Dns
